import Mathlib

/-!
# Verification of the microsite static-site build script

A shallow embedding of `src/scripts/build.tsx` (the only source file of the
repository).  The script is sequential async glue around two opaque external
collaborators (a module bundler and a component renderer); we model

* the filesystem as a finite map from normalized POSIX path strings to file
  contents, together with the set of explicitly existing directories,
* each pipeline stage (`prepare`, `writeGlobal`, `writePages`, the render /
  output tail of `build`, `cleanup`) as an explicit state-passing function
  returning `Except String _` (a rejected promise is an `error`),
* the bundler and the renderer as function parameters (`Collab`), so that
  claims can quantify over their behaviour.

Node semantics that the embedding follows:
* `fsp.rmdir(p, { recursive: true })` does not report an error when `p` is
  absent, and removes the whole subtree;
* plain `fsp.rmdir(p)` fails with `ENOTEMPTY` on a non-empty directory and
  `ENOENT` on a missing one;
* `fsp.stat(p)` rejects with `ENOENT` when `p` does not exist;
* `fsp.copyFile(src, dst)` and `fsp.writeFile` reject when the destination
  directory does not exist (they do not create intermediate directories);
  `fsp.mkdir(p, { recursive: true })` creates `p` and all its ancestors;
* `path.resolve` / `path.join` normalize away `.` components and repeated
  separators; the embedding works with `cwd`-relative normalized paths and
  `path.sep = "/"` (POSIX).
-/

namespace Microsite

/-! ## Path strings -/

/-- Split a character list on `'/'` (the POSIX separator).  The result is
always non-empty; separators at the ends contribute empty components, as in
JavaScript's `String.prototype.split`. -/
def splitSlash : List Char → List (List Char)
  | [] => [[]]
  | c :: t =>
    if c = '/' then [] :: splitSlash t
    else
      match splitSlash t with
      | [] => [[c]]
      | h :: r => (c :: h) :: r

/-- Join path components with `'/'`. -/
def joinSlash : List (List Char) → List Char
  | [] => []
  | [c] => c
  | c :: r => c ++ '/' :: joinSlash r

/-- The components of a path after normalization: empty components (repeated
or trailing separators) and `.` components are dropped, as `path.resolve`
does. -/
def compsL (l : List Char) : List (List Char) :=
  (splitSlash l).filter (fun c => !(c.isEmpty || c == ['.']))

/-- Normalize a `cwd`-relative path the way `path.resolve` / `path.join`
do (drop `.` components and repeated separators). -/
def normPath (s : String) : String :=
  ⟨joinSlash (compsL s.data)⟩

/-- `d ++ "/"` is a proper prefix of `k`: the path `k` lies strictly inside
the directory `d` (both normalized). -/
def underB (d k : String) : Bool :=
  (d.data ++ ['/']).isPrefixOf k.data

/-- `k` equals `d` or lies strictly inside it. -/
def underEqB (d k : String) : Bool :=
  k == d || underB d k

/-- Last path component (the part after the last separator). -/
def lastComp (l : List Char) : List Char :=
  (l.reverse.takeWhile (fun c => c ≠ '/')).reverse

/-- `path.extname` on a basename: the suffix from the last `.`, empty when
there is no `.` or the only `.` is the leading character. -/
def extOfBase (b : List Char) : List Char :=
  let r := b.reverse.takeWhile (fun c => c ≠ '.')
  if r.length + 1 < b.length then '.' :: r.reverse else []

/-- `path.extname`. -/
def extnameL (l : List Char) : List Char :=
  extOfBase (lastComp l)

/-- First index of the pattern in the list, as `String.prototype.indexOf`
(which returns `-1`, here `none`, when absent). -/
def idxOfL (pat : List Char) : List Char → Option Nat
  | [] => if pat.isEmpty then some 0 else none
  | c :: t =>
    if pat.isPrefixOf (c :: t) then some 0
    else (idxOfL pat t).map (· + 1)

/-- ASCII whitespace trimming, as `String.prototype.trim` on the bundler
output we care about. -/
def isWsChar (c : Char) : Bool :=
  c == ' ' || c == '\t' || c == '\n' || c == '\r'

/-- JavaScript `s.trim()`. -/
def trimJS (s : String) : String :=
  ⟨((s.data.dropWhile isWsChar).reverse.dropWhile isWsChar).reverse⟩

/-- String ends with the given suffix. -/
def endsWithB (suf s : String) : Bool :=
  suf.data.isSuffixOf s.data

/-! ## The filesystem model -/

/-- A filesystem: an association list from normalized file paths to their
contents, plus the list of explicitly created directories.  A directory also
exists implicitly when some file or directory lies strictly inside it. -/
structure FS where
  files : List (String × String)
  dirs : List String
deriving DecidableEq

/-- Content of the file at `p`, if present. -/
def fsGet (fs : FS) (p : String) : Option String :=
  (fs.files.find? (fun kv => kv.1 == normPath p)).map (·.2)

/-- Write (create or overwrite) the file at `p`.  The caller is responsible
for the destination directory existing, as with `fsp.writeFile`. -/
def fsWrite (fs : FS) (p : String) (c : String) : FS :=
  { fs with files := (normPath p, c) :: fs.files.filter (fun kv => kv.1 != normPath p) }

/-- All file paths strictly inside directory `d`, in filesystem order: the
flattened recursive listing computed by the script's `readDir` helper. -/
def filesUnder (fs : FS) (d : String) : List String :=
  (fs.files.map (·.1)).filter (underB (normPath d))

/-- Does directory `d` exist?  Either it was created explicitly, or some
file or directory lies strictly inside it.  The empty path is the current
working directory and always exists. -/
def dirExistsB (fs : FS) (d : String) : Bool :=
  normPath d == "" ||
  fs.dirs.any (fun x => underEqB (normPath d) x) ||
  fs.files.any (fun kv => underB (normPath d) kv.1)

/-- All the ancestors of a normalized path, itself included: the directories
`mkdir -p` creates. -/
def ancestors (p : String) : List String :=
  ((List.range (compsL p.data).length).map
    (fun i => (⟨joinSlash ((compsL p.data).take (i + 1))⟩ : String)))

/-- `fsp.mkdir(p, { recursive: true })`: create `p` and every ancestor. -/
def mkdirRec (fs : FS) (p : String) : FS :=
  { fs with dirs := ancestors (normPath p) ++ fs.dirs }

/-- `fsp.rmdir(p, { recursive: true })`: delete the whole subtree rooted at
`p`; no error when `p` is absent. -/
def rmdirRec (fs : FS) (p : String) : FS :=
  { files := fs.files.filter (fun kv => !underEqB (normPath p) kv.1),
    dirs := fs.dirs.filter (fun d => !underEqB (normPath p) d) }

/-- Plain `fsp.rmdir(p)`: fails with `ENOTEMPTY` when anything lies inside
`p`, with `ENOENT` when `p` does not exist. -/
def rmdirPlainM (fs : FS) (p : String) : Except String FS :=
  if fs.files.any (fun kv => underB (normPath p) kv.1) ||
     fs.dirs.any (fun d => underB (normPath p) d) then
    .error ("ENOTEMPTY: " ++ normPath p)
  else if fs.dirs.any (fun d => d == normPath p) then
    .ok { fs with dirs := fs.dirs.filter (fun d => d != normPath p) }
  else
    .error ("ENOENT: " ++ normPath p)

/-- `fsp.readFile`. -/
def readFileM (fs : FS) (p : String) : Except String String :=
  match fsGet fs p with
  | some c => .ok c
  | none => .error ("ENOENT: " ++ normPath p)

/-- The script's recursive `readDir` helper: the flattened list of the file
paths inside `d`; rejects when `d` does not exist. -/
def readDirM (fs : FS) (d : String) : Except String (List String) :=
  if dirExistsB fs d then .ok (filesUnder fs d)
  else .error ("ENOENT: " ++ normPath d)

/-- `(await stat(p)).isDirectory()`: `ok false` for a file, `ok true` for a
directory, and a rejection when `p` does not exist. -/
def statIsDirM (fs : FS) (p : String) : Except String Bool :=
  if (fsGet fs p).isSome then .ok false
  else if dirExistsB fs p then .ok true
  else .error ("ENOENT: " ++ normPath p)

/-- Parent directory of a normalized path. -/
def parentDir (p : String) : String :=
  ⟨joinSlash ((compsL p.data).dropLast)⟩

/-- `fsp.copyFile(src, dst)`: rejects when the source is missing or the
destination directory does not exist. -/
def copyFileM (fs : FS) (src dst : String) : Except String FS :=
  match fsGet fs src with
  | none => .error ("ENOENT: " ++ normPath src)
  | some c =>
    if dirExistsB fs (parentDir (normPath dst)) then .ok (fsWrite fs dst c)
    else .error ("ENOENT: " ++ normPath dst)

/-! ## The collaborators (bundler, renderer)

The bundler and the renderer are third-party black boxes; the script's own
contribution is which entry points it compiles, where their outputs land,
and what it passes to the renderer.  A bundler invocation reads the project
source tree (`src/**`) and produces a script chunk named after the entry
file's basename plus an optional extracted stylesheet beside it; both are
opaque deterministic functions here. -/

/-- The part of the filesystem a bundler invocation reads: the files and
directories inside `src`, in filesystem order. -/
def srcView (fs : FS) : List (String × String) × List String :=
  (fs.files.filter (fun kv => underEqB "src" kv.1),
   fs.dirs.filter (fun d => underEqB "src" d))

/-- What one `render(<Document …><Page /></Document>, {}, { pretty: true })`
call receives: the loaded page module (standing in for its `Page` export),
the script-presence flag, the stylesheet list, and the pretty-print option.
The `render={render}` callback handed to the shell is the renderer itself
and lives inside the opaque renderer function. -/
structure RenderReq where
  pageModule : String
  hasScripts : Bool
  styles : List String
  pretty : Bool
deriving DecidableEq

/-- The opaque external collaborators.  A compilation returns the script
chunk content and the optional extracted stylesheet content; `error` is a
rejected bundler promise.  The renderer may throw (`error`). -/
structure Collab where
  compileGlobalModern : List (String × String) × List String → Except String (String × Option String)
  compileGlobalLegacy : List (String × String) × List String → Except String (String × Option String)
  compilePage : List (String × String) × List String → String → Except String (String × Option String)
  renderPage : RenderReq → Except String String

/-- Pipeline state: the filesystem plus the console log. -/
structure St where
  fs : FS
  log : List String
deriving DecidableEq

/-! ## Stage 1: `prepare` -/

/-- The copy loop of `prepare`: each file found under `src/public` is copied
to `./dist/` plus the path with the `src/public/` prefix (11 characters)
sliced off.  `copyFile` does not create directories, so the copy of a file
in a subdirectory of `src/public` rejects. -/
def copyPublic (fs : FS) : List String → Except String FS
  | [] => .ok fs
  | f :: r =>
    match copyFileM fs f ("./dist/" ++ ⟨f.data.drop 11⟩) with
    | .error e => .error e
    | .ok fs1 => copyPublic fs1 r

/-- `prepare()`: recursively delete then recreate `./dist` and
`./.tmp/microsite`; then `stat("./src/public")` — which rejects when absent —
and, when it is a directory, copy every file inside it into `./dist`. -/
def prepareM (st : St) : Except String St :=
  let fs1 := rmdirRec (rmdirRec st.fs "./dist") "./.tmp/microsite"
  let fs2 := mkdirRec (mkdirRec fs1 "./dist") "./.tmp/microsite"
  match statIsDirM fs2 "./src/public" with
  | .error e => .error e
  | .ok false => .ok { st with fs := fs2 }
  | .ok true =>
    match readDirM fs2 "./src/public" with
    | .error e => .error e
    | .ok pub =>
      match copyPublic fs2 pub with
      | .error e => .error e
      | .ok fs3 => .ok { st with fs := fs3 }

/-! ## Stage 2: `writeGlobal` -/

/-- A `bundle.write` output: rollup creates the output directory itself and
writes the chunk into it. -/
def rollupWrite (fs : FS) (dir name content : String) : FS :=
  fsWrite (mkdirRec fs dir) (dir ++ "/" ++ name) content

/-- The optional extracted stylesheet written beside a chunk. -/
def rollupWriteCss (fs : FS) (dir name : String) : Option String → FS
  | none => fs
  | some c => rollupWrite fs dir name c

/-- `writeGlobal()`: compile `src/global.ts` twice (modern, then legacy).
Both `await rollup(…)` calls sit *before* the `try` block, so a compilation
failure rejects `writeGlobal` — it is not caught.  The `try`/`catch` around
the write step catches only synchronous exceptions (the `Promise.all` is
returned without `await`), so it catches nothing in this model either.
The modern bundle is written into `./.tmp/microsite` (chunk `global.js`,
stylesheet `global.css`); the legacy one to `global.legacy.js` (and its
extracted stylesheet beside it). -/
def writeGlobalM (cfg : Collab) (st : St) : Except String St :=
  match cfg.compileGlobalModern (srcView st.fs) with
  | .error e => .error e
  | .ok (gjs, gcss) =>
    match cfg.compileGlobalLegacy (srcView st.fs) with
    | .error e => .error e
    | .ok (ljs, lcss) =>
      let fs1 := rollupWrite st.fs "./.tmp/microsite" "global.js" gjs
      let fs2 := rollupWriteCss fs1 "./.tmp/microsite" "global.css" gcss
      let fs3 := rollupWrite fs2 "./.tmp/microsite" "global.legacy.js" ljs
      let fs4 := rollupWriteCss fs3 "./.tmp/microsite" "global.legacy.css" lcss
      .ok { st with fs := fs4 }

/-! ## Stage 3: `writePages` -/

/-- Is `k` matched by the page glob `src/pages/**/*.tsx`?  (globby defaults:
dotfiles and files inside dot-directories are not matched.) -/
def isPagePath (k : String) : Bool :=
  ("src/pages/".data.isPrefixOf k.data) &&
  endsWithB ".tsx" k &&
  (splitSlash (k.data.drop 10)).all
    (fun c => !c.isEmpty && c.head? != some '.')

/-- `glob(["src/pages/**/*.tsx"])`: the matching file paths, in filesystem
order. -/
def discoverPages (fs : FS) : List String :=
  (fs.files.map (·.1)).filter isPagePath

/-- `pages[i].replace(/^src/, OUTPUT_DIR)` with
`OUTPUT_DIR = "./.tmp/microsite"`. -/
def replaceSrcDir (p : String) : String :=
  if "src".data.isPrefixOf p.data then "./.tmp/microsite" ++ ⟨p.data.drop 3⟩
  else p

/-- The `dir` passed to `bundle.write` for a page: the replaced path, split
on the separator, with the last segment (the filename) sliced off. -/
def pageOutDir (p : String) : String :=
  ⟨joinSlash ((splitSlash (replaceSrcDir p).data).dropLast)⟩

/-- The name rollup gives an entry chunk: the entry file's basename without
its extension. -/
def chunkStem (p : String) : String :=
  ⟨(lastComp p.data).take ((lastComp p.data).length - (extnameL p.data).length)⟩

/-- Compile every discovered page (the `Promise.all` over `rollup` calls);
the first rejection wins and is the caught error. -/
def compilePages (cfg : Collab) (sv : List (String × String) × List String) :
    List String → Except String (List (String × Option String))
  | [] => .ok []
  | p :: r =>
    match cfg.compilePage sv p with
    | .error e => .error e
    | .ok out =>
      match compilePages cfg sv r with
      | .error e => .error e
      | .ok outs => .ok (out :: outs)

/-- The write step of `writePages`: each bundle is written into the page's
mirrored staging directory, as chunk `<stem>.js` plus the optional extracted
`<stem>.css`. -/
def writePageBundles (fs : FS) : List (String × (String × Option String)) → FS
  | [] => fs
  | (p, (js, css)) :: r =>
    let fs1 := rollupWrite fs (pageOutDir p) (chunkStem p ++ ".js") js
    let fs2 := rollupWriteCss fs1 (pageOutDir p) (chunkStem p ++ ".css") css
    writePageBundles fs2 r

/-- `writePages()`: discover the pages, compile them all; a compilation (or
discovery) failure is caught by the surrounding `try`, logged with
`console.log(e)`, and the function resolves without output.  The writes
themselves cannot fail in this model (rollup creates its output
directories). -/
def writePagesM (cfg : Collab) (st : St) : Except String St :=
  let pages := discoverPages st.fs
  match compilePages cfg (srcView st.fs) pages with
  | .error e => .ok { st with log := st.log ++ [e] }
  | .ok outs => .ok { st with fs := writePageBundles st.fs (pages.zip outs) }

/-! ## Stage 4/5: the render and output tail of `build` -/

/-- The start index of the `getName` slice:
`f.indexOf("pages/") + "pages/".length - 1` (JavaScript `indexOf` yields
`-1` when the pattern is absent, hence the second branch). -/
def getNameStart (l : List Char) : Nat :=
  match idxOfL "pages/".data l with
  | some i => i + ("pages/".length - 1)
  | none => "pages/".length - 1 - 1

/-- `getName`: slice the staged path from just before the end of the first
occurrence of `"pages/"` (`indexOf + "pages/".length - 1`, hence the kept
leading separator) up to the extension (`extname(f).length * -1`; a slice
whose end is not negative yields the empty string, which happens only for an
empty extension). -/
def getName (f : String) : String :=
  ⟨if (extnameL f.data).length = 0 then []
   else (f.data.drop (getNameStart f.data)).take
     (f.data.length - (extnameL f.data).length - getNameStart f.data)⟩

/-- `[globalStyle, style].filter((v) => v)`: JavaScript keeps the truthy
entries, dropping both `null` (no matching stylesheet) and the empty
string. -/
def styleList (globalStyle : String) (style : Option String) : List String :=
  (([some globalStyle, style].filterMap id).filter (fun v => v ≠ ""))

/-- The render request for one page, built exactly from what `build` passes
to `<Document …>` and `render`. -/
def renderReqOf (globalStyle : String) (hasG : Bool) (styles : List (String × String))
    (page : String × String) : RenderReq :=
  { pageModule := page.2,
    hasScripts := hasG,
    styles := styleList globalStyle ((styles.find? (fun s => s.1 == page.1)).map (·.2)),
    pretty := true }

/-- The `for (const page of pages)` render loop: on success, the list of
`{ name, content }` outputs (content prefixed with the doctype); on the
first renderer exception, `none` plus the two console lines, and the loop —
and `build` itself — stops there. -/
def renderLoop (cfg : Collab) (globalStyle : String) (hasG : Bool)
    (styles : List (String × String)) :
    List (String × String) → Option (List (String × String)) × List String
  | [] => (some [], [])
  | page :: r =>
    match cfg.renderPage (renderReqOf globalStyle hasG styles page) with
    | .error e => (none, ["Error building " ++ page.1, e])
    | .ok html =>
      match renderLoop cfg globalStyle hasG styles r with
      | (some outs, lg) => (some ((page.1, "<!DOCTYPE html>\n" ++ html) :: outs), lg)
      | (none, lg) => (none, lg)

/-- `path.dirname` for the page names produced by `getName` (they begin with
the kept separator). -/
def dirnameJS (n : String) : String :=
  let r := joinSlash (splitSlash n.data).dropLast
  if r.isEmpty then (if n.data.head? = some '/' then "/" else ".") else ⟨r⟩

/-- The output write loop: for each rendered page, create
`./dist/<dirname(name)>` recursively, then write
`./dist/<name>.html`. -/
def writeOutputs (fs : FS) : List (String × String) → FS
  | [] => fs
  | (name, content) :: r =>
    let fs1 := mkdirRec fs ("./dist/" ++ dirnameJS name)
    let fs2 := fsWrite fs1 ("./dist/" ++ name ++ ".html") content
    writeOutputs fs2 r

/-- `cleanup()`: recursively delete the staging directory, then delete
`./.tmp` itself — but only when the recursive file listing of `./.tmp` is
empty (an empty subdirectory passes the check yet makes the plain `rmdir`
reject with `ENOTEMPTY`). -/
def cleanupM (fs : FS) : Except String FS :=
  let fs1 := rmdirRec fs "./.tmp/microsite"
  match readDirM fs1 "./.tmp" with
  | .error e => .error e
  | .ok l =>
    if l.isEmpty then rmdirPlainM fs1 "./.tmp" else .ok fs1

/-- The tail of `build()` after the two build stages: read the global
stylesheet and script (unconditional reads — they reject when the staged
file is absent), copy the global scripts to `dist` when the script content
is non-blank, list the staged pages, load stylesheets and page modules,
render every page (an exception makes `build` log and resolve early, writing
nothing), write the outputs, and clean up. -/
def buildTail (cfg : Collab) (st : St) : Except String St :=
  match readFileM st.fs "./.tmp/microsite/global.css" with
  | .error e => .error e
  | .ok globalStyle =>
    match readFileM st.fs "./.tmp/microsite/global.js" with
    | .error e => .error e
    | .ok gjsContent =>
      let hasG := trimJS gjsContent != ""
      match ((if hasG then
               match copyFileM st.fs "./.tmp/microsite/global.js" "dist/index.js" with
               | .error e => .error e
               | .ok fsA => copyFileM fsA "./.tmp/microsite/global.legacy.js" "dist/index.legacy.js"
             else .ok st.fs) : Except String FS) with
      | .error e => .error e
      | .ok fsC =>
        match readDirM fsC "./.tmp/microsite/pages" with
        | .error e => .error e
        | .ok fl =>
          let styles := (fl.filter (endsWithB ".css")).map
            (fun f => (getName f, (fsGet fsC f).getD ""))
          let pages := (fl.filter (endsWithB ".js")).map
            (fun f => (getName f, (fsGet fsC f).getD ""))
          match renderLoop cfg globalStyle hasG styles pages with
          | (none, lg) => .ok { fs := fsC, log := st.log ++ lg }
          | (some outs, _) =>
            match cleanupM (writeOutputs fsC outs) with
            | .error e => .error e
            | .ok fsZ => .ok { fs := fsZ, log := st.log }

/-- `build()`: the whole pipeline.  `prepare` first; then `writeGlobal` and
`writePages` (concurrent in the source, but writing to disjoint staging
paths, hence modelled sequentially); then the render/output tail. -/
def buildRun (cfg : Collab) (fs0 : FS) : Except String St :=
  match prepareM { fs := fs0, log := [] } with
  | .error e => .error e
  | .ok st1 =>
    match writeGlobalM cfg st1 with
    | .error e => .error e
    | .ok st2 =>
      match writePagesM cfg st2 with
      | .error e => .error e
      | .ok st3 => buildTail cfg st3

/-! ## Path algebra -/

theorem splitSlash_ne_nil (l : List Char) : splitSlash l ≠ [] := by
  induction l with
  | nil => simp [splitSlash]
  | cons c t ih =>
    by_cases h : c = '/'
    · simp [splitSlash, h]
    · simp only [splitSlash, if_neg h]
      cases hsp : splitSlash t with
      | nil => simp
      | cons h r => simp

theorem splitSlash_append (a b : List Char) :
    splitSlash (a ++ '/' :: b) = splitSlash a ++ splitSlash b := by
  induction a with
  | nil => simp [splitSlash]
  | cons c t ih =>
    by_cases h : c = '/'
    · simp [splitSlash, h, ih]
    · simp only [List.cons_append, splitSlash, if_neg h]
      cases hsp : splitSlash t with
      | nil => exact absurd hsp (splitSlash_ne_nil t)
      | cons h r => simp only [List.append_eq]; rw [ih, hsp]; simp

theorem mem_splitSlash_no_slash {l : List Char} {c : List Char}
    (h : c ∈ splitSlash l) : '/' ∉ c := by
  induction l generalizing c with
  | nil =>
    simp [splitSlash] at h
    simp [h]
  | cons x t ih =>
    by_cases hx : x = '/'
    · simp [splitSlash, hx] at h
      rcases h with h | h
      · simp [h]
      · exact ih h
    · simp only [splitSlash, if_neg hx] at h
      cases hsp : splitSlash t with
      | nil => exact absurd hsp (splitSlash_ne_nil t)
      | cons d r =>
        rw [hsp] at h
        simp at h
        rcases h with h | h
        · intro hm
          rw [h] at hm
          rcases List.mem_cons.mp hm with h1 | h1
          · exact hx h1.symm
          · exact ih (hsp ▸ List.mem_cons_self d r) h1
        · exact ih (hsp ▸ List.mem_cons_of_mem d h)

theorem joinSlash_cons (c : List Char) {r : List (List Char)} (h : r ≠ []) :
    joinSlash (c :: r) = c ++ '/' :: joinSlash r := by
  cases r with
  | nil => exact absurd rfl h
  | cons d s => rfl

theorem joinSlash_append {a b : List (List Char)} (ha : a ≠ []) (hb : b ≠ []) :
    joinSlash (a ++ b) = joinSlash a ++ '/' :: joinSlash b := by
  induction a with
  | nil => exact absurd rfl ha
  | cons c t ih =>
    cases t with
    | nil =>
      cases b with
      | nil => exact absurd rfl hb
      | cons d s => simp [joinSlash]
    | cons c2 t2 =>
      have h1 : (c2 :: t2) ++ b ≠ [] := by simp
      rw [List.cons_append, joinSlash_cons c h1, joinSlash_cons c (by simp : c2 :: t2 ≠ []),
        ih (by simp)]
      simp

theorem splitSlash_no_slash {c : List Char} (h : '/' ∉ c) : splitSlash c = [c] := by
  induction c with
  | nil => rfl
  | cons x r ih =>
    have hx : x ≠ '/' := fun hx => h (hx ▸ List.mem_cons_self x r)
    have hr : '/' ∉ r := fun hm => h (List.mem_cons_of_mem x hm)
    simp only [splitSlash, if_neg hx, ih hr]

theorem splitSlash_joinSlash {cs : List (List Char)} (h : cs ≠ [])
    (hns : ∀ c ∈ cs, '/' ∉ c) : splitSlash (joinSlash cs) = cs := by
  induction cs with
  | nil => exact absurd rfl h
  | cons c t ih =>
    cases t with
    | nil => exact splitSlash_no_slash (hns c (by simp))
    | cons c2 t2 =>
      rw [joinSlash_cons c (by simp), splitSlash_append,
        splitSlash_no_slash (hns c (by simp)),
        ih (by simp) (fun d hd => hns d (List.mem_cons_of_mem c hd))]
      rfl

theorem compsL_append (a b : List Char) :
    compsL (a ++ '/' :: b) = compsL a ++ compsL b := by
  simp [compsL, splitSlash_append, List.filter_append]

theorem mem_compsL_no_slash {l c : List Char} (h : c ∈ compsL l) : '/' ∉ c :=
  mem_splitSlash_no_slash (List.mem_of_mem_filter h)

theorem compsL_joinSlash {cs : List (List Char)} (hns : ∀ c ∈ cs, '/' ∉ c) :
    compsL (joinSlash cs) = cs.filter (fun c => !(c.isEmpty || c == ['.'])) := by
  cases cs with
  | nil => rfl
  | cons c t =>
    unfold compsL
    rw [splitSlash_joinSlash (by simp) hns]

theorem strData_append (s t : String) : (s ++ t).data = s.data ++ t.data := by
  cases s; cases t; rfl

theorem strMk_data (s : String) : String.mk s.data = s := by
  cases s; rfl

theorem strExt {s t : String} (h : s.data = t.data) : s = t := by
  cases s; cases t; exact congrArg String.mk h

theorem normPath_data (s : String) : (normPath s).data = joinSlash (compsL s.data) := rfl

theorem compsL_joinSlash_compsL (l : List Char) :
    compsL (joinSlash (compsL l)) = compsL l := by
  rw [compsL_joinSlash (fun c hc => mem_compsL_no_slash hc)]
  unfold compsL
  rw [List.filter_filter]
  apply List.filter_congr
  intro c _
  cases h : (c.isEmpty || c == ['.']) <;> simp [h]

theorem compsL_normPath (s : String) : compsL (normPath s).data = compsL s.data :=
  compsL_joinSlash_compsL s.data

theorem normPath_idem (s : String) : normPath (normPath s) = normPath s := by
  apply strExt
  rw [normPath_data, normPath_data]
  exact congrArg joinSlash (compsL_joinSlash_compsL s.data)

/-! Prefix facts about `underB` and `underEqB`. -/

theorem underB_iff {d k : String} :
    underB d k = true ↔ (d.data ++ ['/']) <+: k.data := by
  simp [underB, List.isPrefixOf_iff_prefix]

theorem underEqB_iff {d k : String} :
    underEqB d k = true ↔ k = d ∨ (d.data ++ ['/']) <+: k.data := by
  simp [underEqB, underB_iff]

/-- Two directories neither of which contains the other contain disjoint
sets of paths. -/
theorem underB_disjoint {a b k : String}
    (hab : ¬ (a.data ++ ['/']) <+: (b.data ++ ['/']))
    (hba : ¬ (b.data ++ ['/']) <+: (a.data ++ ['/']))
    (h : underB a k = true) : underB b k = false := by
  rw [underB_iff] at h
  cases hb : underB b k with
  | false => rfl
  | true =>
    rw [underB_iff] at hb
    rcases List.prefix_or_prefix_of_prefix h hb with hpre | hpre
    · exact absurd hpre hab
    · exact absurd hpre hba

theorem joinSlash_splitSlash (l : List Char) : joinSlash (splitSlash l) = l := by
  induction l with
  | nil => rfl
  | cons c t ih =>
    by_cases h : c = '/'
    · subst h
      have hsp : splitSlash ('/' :: t) = [] :: splitSlash t := by simp [splitSlash]
      rw [hsp, joinSlash_cons [] (splitSlash_ne_nil t), ih]
      rfl
    · simp only [splitSlash, if_neg h]
      cases hsp : splitSlash t with
      | nil => exact absurd hsp (splitSlash_ne_nil t)
      | cons d r =>
        rw [hsp] at ih
        cases r with
        | nil =>
          simp only [joinSlash] at ih ⊢
          rw [ih]
        | cons d2 r2 =>
          rw [joinSlash_cons (c :: d) (by simp), joinSlash_cons d (by simp)] at *
          rw [List.cons_append, ih]

theorem takeWhile_append_stop {p : Char → Bool} {x y : List Char} {s : Char}
    (hstop : p s = false) : (x ++ s :: y).takeWhile p = x.takeWhile p := by
  induction x with
  | nil => simp [List.takeWhile, hstop]
  | cons a t ih =>
    simp only [List.cons_append, List.takeWhile]
    cases p a <;> simp [ih]

theorem lastComp_append_slash (a b : List Char) :
    lastComp (a ++ '/' :: b) = lastComp b := by
  unfold lastComp
  rw [List.reverse_append, List.reverse_cons]
  simp only [List.append_assoc, List.singleton_append]
  rw [takeWhile_append_stop (by decide)]

theorem lastComp_no_slash {l : List Char} (h : '/' ∉ l) : lastComp l = l := by
  unfold lastComp
  rw [List.takeWhile_eq_self_iff.mpr, List.reverse_reverse]
  intro c hc
  simp only [decide_eq_true_eq]
  intro hceq
  exact h (hceq ▸ List.mem_reverse.mp hc)

theorem lastComp_joinSlash_last {ds : List (List Char)} {last : List Char}
    (h : '/' ∉ last) : lastComp (joinSlash (ds ++ [last])) = last := by
  cases ds with
  | nil => exact lastComp_no_slash h
  | cons d r =>
    rw [joinSlash_append (by simp) (by simp)]
    simp only [joinSlash]
    exact (lastComp_append_slash _ last).trans (lastComp_no_slash h)

theorem extOfBase_append {c e : List Char} (he : '.' ∉ e) (hc : c ≠ []) :
    extOfBase (c ++ '.' :: e) = '.' :: e := by
  unfold extOfBase
  have hrev : (c ++ '.' :: e).reverse = e.reverse ++ '.' :: c.reverse := by
    simp
  rw [hrev, takeWhile_append_stop (by decide), List.takeWhile_eq_self_iff.mpr, if_pos,
    List.reverse_reverse]
  · have hclen : c.length ≠ 0 := fun h0 => hc (List.length_eq_zero.mp h0)
    simp only [List.length_reverse, List.length_append, List.length_cons]
    omega
  · intro x hx
    simp only [decide_eq_true_eq]
    intro hxeq
    exact he (hxeq ▸ List.mem_reverse.mp hx)

theorem dropLast_append_ne_nil {α : Type} {l1 l2 : List α} (h : l2 ≠ []) :
    (l1 ++ l2).dropLast = l1 ++ l2.dropLast := by
  cases l2 with
  | nil => exact absurd rfl h
  | cons b t => exact List.dropLast_append_cons

theorem joinSlash_last_append (ds : List (List Char)) (x y : List Char) :
    joinSlash (ds ++ [x ++ y]) = joinSlash (ds ++ [x]) ++ y := by
  cases ds with
  | nil => rfl
  | cons d r =>
    rw [joinSlash_append (by simp) (by simp), joinSlash_append (by simp) (by simp)]
    simp [joinSlash]

theorem takeWhile_append_all {p : Char → Bool} {x y : List Char}
    (h : ∀ a ∈ x, p a = true) : (x ++ y).takeWhile p = x ++ y.takeWhile p := by
  induction x with
  | nil => simp
  | cons a t ih =>
    simp only [List.cons_append, List.takeWhile, h a (by simp)]
    simp [ih (fun b hb => h b (List.mem_cons_of_mem a hb))]

theorem lastComp_append_no_slash {x y : List Char} (h : '/' ∉ y) :
    lastComp (x ++ y) = lastComp x ++ y := by
  unfold lastComp
  rw [List.reverse_append, takeWhile_append_all, List.reverse_append,
    List.reverse_reverse]
  intro a ha
  simp only [decide_eq_true_eq]
  intro haeq
  exact h (haeq ▸ List.mem_reverse.mp ha)

theorem prefix_takeWhile {p : Char → Bool} {pre l : List Char}
    (hp : pre <+: l) (hall : ∀ a ∈ pre, p a = true) : pre <+: l.takeWhile p := by
  obtain ⟨t, ht⟩ := hp
  subst ht
  rw [takeWhile_append_all hall]
  exact List.prefix_append pre _

theorem suffix_lastComp {e l : List Char} (hs : e <:+ l) (h : '/' ∉ e) :
    e <:+ lastComp l := by
  unfold lastComp
  rw [← List.reverse_prefix]
  rw [List.reverse_reverse]
  apply prefix_takeWhile (List.reverse_prefix.mpr hs)
  intro a ha
  simp only [decide_eq_true_eq]
  intro haeq
  exact h (haeq ▸ List.mem_reverse.mp ha)

/-- Structural decomposition of a discovered page path: directory components
`ds` (each non-empty, not dot-leading, slash-free) and a basename stem `c`,
with `p = "src/pages/" ++ joinSlash (ds ++ [c ++ ".tsx"])`. -/
theorem page_shape {p : String} (hpage : isPagePath p = true) :
    ∃ ds c, p.data = "src/pages/".data ++ joinSlash (ds ++ [c ++ ".tsx".data]) ∧
      (∀ d ∈ ds ++ [c ++ ".tsx".data], ¬d.isEmpty = true ∧ d.head? ≠ some '.' ∧ '/' ∉ d) ∧
      c ≠ [] ∧ '/' ∉ c := by
  unfold isPagePath at hpage
  simp only [Bool.and_eq_true] at hpage
  obtain ⟨⟨hpre, hsuf⟩, hdots⟩ := hpage
  obtain ⟨rest, hrest⟩ := List.isPrefixOf_iff_prefix.mp hpre
  have hdrop : p.data.drop 10 = rest := by
    rw [← hrest]
    exact List.drop_left "src/pages/".data rest
  rw [hdrop] at hdots
  have hcs : splitSlash rest ≠ [] := splitSlash_ne_nil rest
  have hmem : ∀ d ∈ splitSlash rest, ¬d.isEmpty = true ∧ d.head? ≠ some '.' := by
    intro d hd
    have := (List.all_eq_true.mp hdots) d hd
    simp only [Bool.and_eq_true, Bool.not_eq_true', beq_eq_false_iff_ne, ne_eq,
      bne_iff_ne] at this
    exact ⟨by simp [this.1], this.2⟩
  -- the ".tsx" suffix sits inside the last component
  have hsufp : ".tsx".data <:+ p.data := List.isSuffixOf_iff_suffix.mp hsuf
  have hnoslash : ('/' : Char) ∉ ".tsx".data := by decide
  have hlastp : lastComp p.data = lastComp rest := by
    rw [← hrest]
    exact lastComp_append_slash "src/pages".data rest
  have hlast_mem : (splitSlash rest).getLast hcs ∈ splitSlash rest :=
    List.getLast_mem hcs
  have hlast_no_slash : '/' ∉ (splitSlash rest).getLast hcs :=
    mem_splitSlash_no_slash hlast_mem
  have hjoin : joinSlash ((splitSlash rest).dropLast ++ [(splitSlash rest).getLast hcs]) = rest := by
    rw [List.dropLast_append_getLast hcs]
    exact joinSlash_splitSlash rest
  have hlastr : lastComp rest = (splitSlash rest).getLast hcs := by
    conv_lhs => rw [← hjoin]
    exact lastComp_joinSlash_last hlast_no_slash
  have hsuf_last : ".tsx".data <:+ (splitSlash rest).getLast hcs := by
    rw [← hlastr, ← hlastp]
    exact suffix_lastComp hsufp hnoslash
  obtain ⟨c, hc⟩ := hsuf_last
  refine ⟨(splitSlash rest).dropLast, c, ?_, ?_, ?_, ?_⟩
  · rw [← hrest, hc, hjoin]
  · intro d hd
    rw [hc, List.dropLast_append_getLast hcs] at hd
    exact ⟨(hmem d hd).1, (hmem d hd).2, mem_splitSlash_no_slash hd⟩
  · intro hceq
    subst hceq
    have := (hmem _ hlast_mem).2
    rw [← hc] at this
    exact this rfl
  · intro hmemc
    exact hlast_no_slash (hc ▸ List.mem_append_left _ hmemc)

/-- The cleanliness condition a normalization-surviving component satisfies. -/
def cleanComp (d : List Char) : Prop :=
  d ≠ [] ∧ d ≠ ['.'] ∧ '/' ∉ d

theorem cleanComp_of_shape {d : List Char}
    (h : ¬d.isEmpty = true ∧ d.head? ≠ some '.' ∧ '/' ∉ d) : cleanComp d := by
  refine ⟨fun he => h.1 (by simp [he]), fun he => h.2.1 (by simp [he]), h.2.2⟩

theorem chunkStem_eq {p : String} {ds : List (List Char)} {c : List Char}
    (hp : p.data = "src/pages/".data ++ joinSlash (ds ++ [c ++ ".tsx".data]))
    (hlc : '/' ∉ c ++ ".tsx".data) (hc : c ≠ []) :
    chunkStem p = ⟨c⟩ := by
  have hlast : lastComp p.data = c ++ ".tsx".data := by
    rw [hp, show ("src/pages/".data : List Char) ++ joinSlash (ds ++ [c ++ ".tsx".data]) =
      "src/pages".data ++ '/' :: joinSlash (ds ++ [c ++ ".tsx".data]) from rfl,
      lastComp_append_slash]
    exact lastComp_joinSlash_last hlc
  have hext : extnameL p.data = ".tsx".data := by
    unfold extnameL
    rw [hlast, show (".tsx".data : List Char) = '.' :: "tsx".data from rfl,
      extOfBase_append (by decide) hc]
  unfold chunkStem
  rw [hlast, hext]
  apply strExt
  show (c ++ ".tsx".data).take ((c ++ ".tsx".data).length - (".tsx".data).length) = c
  have hlen : (c ++ ".tsx".data).length - (".tsx".data).length = c.length := by
    simp [List.length_append]
  rw [hlen]
  exact List.take_left c _

theorem pageOutDir_eq {p : String} {ds : List (List Char)} {c : List Char}
    (hp : p.data = "src/pages/".data ++ joinSlash (ds ++ [c ++ ".tsx".data]))
    (hnos : ∀ d ∈ ds ++ [c ++ ".tsx".data], '/' ∉ d) :
    pageOutDir p = ⟨joinSlash ([['.'], ".tmp".data, "microsite".data, "pages".data] ++ ds)⟩ := by
  have hpre : ("src".data : List Char).isPrefixOf p.data = true := by
    apply List.isPrefixOf_iff_prefix.mpr
    exact ⟨"/pages/".data ++ joinSlash (ds ++ [c ++ ".tsx".data]), by rw [hp]; rfl⟩
  have hdrop : p.data.drop 3 = "/pages/".data ++ joinSlash (ds ++ [c ++ ".tsx".data]) := by
    rw [hp]
    rfl
  unfold pageOutDir replaceSrcDir
  rw [if_pos hpre]
  have hdata : (("./.tmp/microsite" : String) ++ (⟨p.data.drop 3⟩ : String)).data =
      ".".data ++ '/' :: (".tmp".data ++ '/' :: ("microsite".data ++ '/' ::
        ("pages".data ++ '/' :: joinSlash (ds ++ [c ++ ".tsx".data])))) := by
    rw [strData_append, hdrop]
    rfl
  rw [hdata, splitSlash_append, splitSlash_append, splitSlash_append, splitSlash_append,
    splitSlash_joinSlash (by simp) hnos]
  have h4 : splitSlash ".".data ++ (splitSlash ".tmp".data ++ (splitSlash "microsite".data ++
      (splitSlash "pages".data ++ (ds ++ [c ++ ".tsx".data])))) =
      ([['.'], ".tmp".data, "microsite".data, "pages".data] ++ ds) ++ [c ++ ".tsx".data] := by
    simp [splitSlash]
  rw [h4, List.dropLast_concat]

theorem normPath_staged {ds : List (List Char)} {b : List Char}
    (hds : ∀ d ∈ ds, cleanComp d) (hb : cleanComp b) :
    normPath ((⟨joinSlash ([['.'], ".tmp".data, "microsite".data, "pages".data] ++ ds)⟩ : String)
        ++ "/" ++ (⟨b⟩ : String)) =
      ⟨".tmp/microsite/pages/".data ++ joinSlash (ds ++ [b])⟩ := by
  have hnos : ∀ d ∈ ([['.'], ".tmp".data, "microsite".data, "pages".data] ++ ds) ++ [b], '/' ∉ d := by
    intro d hd
    rcases List.mem_append.mp hd with hd | hd
    · rcases List.mem_append.mp hd with hd | hd
      · simp only [List.mem_cons, List.not_mem_nil, or_false] at hd
        rcases hd with h | h | h | h <;> (subst h; decide)
      · exact (hds d hd).2.2
    · rw [List.mem_singleton.mp hd]
      exact hb.2.2
  have hdata : ((⟨joinSlash ([['.'], ".tmp".data, "microsite".data, "pages".data] ++ ds)⟩ : String)
      ++ "/" ++ (⟨b⟩ : String)).data =
      joinSlash ((([['.'], ".tmp".data, "microsite".data, "pages".data] ++ ds)) ++ [b]) := by
    rw [strData_append, strData_append,
      joinSlash_append (by simp) (by simp : ([b] : List (List Char)) ≠ []), List.append_assoc]
    rfl
  apply strExt
  rw [normPath_data, hdata]
  unfold compsL
  rw [splitSlash_joinSlash (by simp) hnos]
  have hkeep : ∀ a : List Char, cleanComp a → (!(a.isEmpty || a == ['.'])) = true := by
    intro a hc
    simp only [Bool.not_eq_true']
    cases hE : (a.isEmpty || a == ['.']) with
    | false => rfl
    | true =>
      rcases Bool.or_eq_true_iff.mp hE with h | h
      · exact absurd (List.isEmpty_iff.mp h) hc.1
      · exact absurd (eq_of_beq h) hc.2.1
  have hlit : ([['.'], ".tmp".data, "microsite".data, "pages".data] : List (List Char)).filter
      (fun c => !(c.isEmpty || c == ['.'])) = [".tmp".data, "microsite".data, "pages".data] := by
    decide
  have hfil : ((([['.'], ".tmp".data, "microsite".data, "pages".data] ++ ds)) ++ [b]).filter
      (fun c => !(c.isEmpty || c == ['.'])) =
      ([".tmp".data, "microsite".data, "pages".data] ++ ds) ++ [b] := by
    rw [List.filter_append, List.filter_append, hlit,
      List.filter_eq_self.mpr (fun a ha => hkeep a (hds a ha)),
      List.filter_eq_self.mpr (fun a ha => hkeep a (by rw [List.mem_singleton.mp ha]; exact hb))]
  rw [hfil, List.append_assoc, joinSlash_append (by simp) (by simp)]
  rfl

theorem getName_staged {stem e : List Char}
    (hlc : lastComp stem ≠ []) (hde : '.' ∉ e) (hse : '/' ∉ e) :
    getName ⟨".tmp/microsite/pages/".data ++ (stem ++ '.' :: e)⟩ = ⟨'/' :: stem⟩ := by
  have hnos : '/' ∉ ('.' :: e) := by
    intro h
    rcases List.mem_cons.mp h with h | h
    · exact absurd h.symm (by decide)
    · exact hse h
  have hidx : idxOfL "pages/".data (".tmp/microsite/pages/".data ++ (stem ++ '.' :: e)) = some 15 := by
    have hl : (".tmp/microsite/pages/" : String).data =
      ['.','t','m','p','/','m','i','c','r','o','s','i','t','e','/','p','a','g','e','s','/'] := rfl
    rw [hl]
    simp [idxOfL, List.isPrefixOf]
  have hlast : lastComp (".tmp/microsite/pages/".data ++ (stem ++ '.' :: e)) =
      lastComp stem ++ '.' :: e := by
    rw [show (".tmp/microsite/pages/".data : List Char) ++ (stem ++ '.' :: e) =
      ".tmp/microsite/pages".data ++ '/' :: (stem ++ '.' :: e) from rfl,
      lastComp_append_slash]
    exact lastComp_append_no_slash hnos
  have hext : extnameL (".tmp/microsite/pages/".data ++ (stem ++ '.' :: e)) = '.' :: e := by
    unfold extnameL
    rw [hlast, extOfBase_append hde hlc]
  have hstart : getNameStart (".tmp/microsite/pages/".data ++ (stem ++ '.' :: e)) = 20 := by
    unfold getNameStart
    rw [hidx]
    rfl
  unfold getName
  rw [show ((⟨".tmp/microsite/pages/".data ++ (stem ++ '.' :: e)⟩ : String)).data =
    ".tmp/microsite/pages/".data ++ (stem ++ '.' :: e) from rfl]
  rw [hstart, hext]
  have hlen0 : ¬(('.' :: e).length = 0) := by simp
  rw [if_neg hlen0]
  have hdrop : (".tmp/microsite/pages/".data ++ (stem ++ '.' :: e)).drop 20 =
      '/' :: (stem ++ '.' :: e) := by
    rw [List.drop_append_eq_append_drop]
    rfl
  rw [hdrop]
  have hlen : (".tmp/microsite/pages/".data ++ (stem ++ '.' :: e)).length -
      ('.' :: e).length - 20 = stem.length + 1 := by
    simp only [List.length_append, List.length_cons, List.length_nil]
    omega
  rw [hlen]
  apply strExt
  show ('/' :: (stem ++ '.' :: e)).take (stem.length + 1) = '/' :: stem
  rw [List.take_succ_cons, List.take_left]

/-- The path the *spec sentence* describes: strip the staged pages-root
prefix `.tmp/microsite/pages/` (21 characters) from the staged script path,
replace the `.js` extension (3 characters) with `.html`, and place the
result under the output root. -/
def specHtmlPath (staged : String) : String :=
  "dist/" ++ ⟨(staged.data.drop 21).take ((staged.data.drop 21).length - 3)⟩ ++ ".html"

theorem specHtmlPath_eq (stem : List Char) :
    specHtmlPath ⟨".tmp/microsite/pages/".data ++ (stem ++ ".js".data)⟩ =
      ⟨"dist/".data ++ (stem ++ ".html".data)⟩ := by
  unfold specHtmlPath
  have hdrop : ((⟨".tmp/microsite/pages/".data ++ (stem ++ ".js".data)⟩ : String)).data.drop 21 =
      stem ++ ".js".data := by
    rw [show ((⟨".tmp/microsite/pages/".data ++ (stem ++ ".js".data)⟩ : String)).data =
      ".tmp/microsite/pages/".data ++ (stem ++ ".js".data) from rfl,
      show (21 : Nat) = (".tmp/microsite/pages/".data : List Char).length from rfl,
      List.drop_left]
  rw [hdrop]
  have hlen : (stem ++ ".js".data).length - 3 = stem.length := by
    simp [List.length_append]
  rw [hlen, List.take_left]
  apply strExt
  rw [strData_append, strData_append]
  simp [List.append_assoc]

theorem normPath_dist_html {ds : List (List Char)} {c : List Char}
    (hds : ∀ d ∈ ds, cleanComp d) (hcs : '/' ∉ c) :
    normPath ("./dist/" ++ (⟨'/' :: joinSlash (ds ++ [c])⟩ : String) ++ ".html") =
      ⟨"dist/".data ++ (joinSlash (ds ++ [c]) ++ ".html".data)⟩ := by
  have hX : joinSlash (ds ++ [c]) ++ ".html".data = joinSlash (ds ++ [c ++ ".html".data]) :=
    (joinSlash_last_append ds c ".html".data).symm
  have hnosX : ∀ d ∈ ds ++ [c ++ ".html".data], '/' ∉ d := by
    intro d hd
    rcases List.mem_append.mp hd with hd | hd
    · exact (hds d hd).2.2
    · rw [List.mem_singleton.mp hd]
      intro hm
      rcases List.mem_append.mp hm with hm | hm
      · exact hcs hm
      · revert hm
        decide
  have hdata : (("./dist/" : String) ++ (⟨'/' :: joinSlash (ds ++ [c])⟩ : String) ++ ".html").data =
      ".".data ++ '/' :: ("dist".data ++ '/' :: ([] ++ '/' ::
        joinSlash (ds ++ [c ++ ".html".data]))) := by
    rw [strData_append, strData_append]
    show "./dist/".data ++ ('/' :: joinSlash (ds ++ [c])) ++ ".html".data = _
    rw [List.append_assoc, show ('/' :: joinSlash (ds ++ [c])) ++ ".html".data =
      '/' :: (joinSlash (ds ++ [c]) ++ ".html".data) from rfl, hX]
    rfl
  apply strExt
  rw [normPath_data, hdata]
  unfold compsL
  rw [splitSlash_append, splitSlash_append, splitSlash_append,
    splitSlash_joinSlash (by simp) hnosX]
  have hsh : splitSlash ".".data ++ (splitSlash "dist".data ++ (splitSlash [] ++
      (ds ++ [c ++ ".html".data]))) =
      ([['.'], "dist".data, []] ++ ds) ++ [c ++ ".html".data] := by
    simp [splitSlash]
  rw [hsh]
  have hkeep : ∀ a : List Char, cleanComp a → (!(a.isEmpty || a == ['.'])) = true := by
    intro a hc
    simp only [Bool.not_eq_true']
    cases hE : (a.isEmpty || a == ['.']) with
    | false => rfl
    | true =>
      rcases Bool.or_eq_true_iff.mp hE with h | h
      · exact absurd (List.isEmpty_iff.mp h) hc.1
      · exact absurd (eq_of_beq h) hc.2.1
  rw [List.filter_append, List.filter_append,
    show ([['.'], "dist".data, []] : List (List Char)).filter
      (fun c => !(c.isEmpty || c == ['.'])) = ["dist".data] from by decide,
    List.filter_eq_self.mpr (fun a ha => hkeep a (hds a ha)),
    List.filter_eq_self.mpr (fun a ha => hkeep a ?_)]
  · rw [List.append_assoc, joinSlash_append (by simp) (by simp), ← hX]
    rfl
  · rw [List.mem_singleton.mp ha]
    refine ⟨by simp, ?_, hnosX _ (List.mem_append_right ds (by simp))⟩
    intro he
    have : (c ++ ".html".data).length = 1 := by rw [he]; rfl
    simp [List.length_append] at this

/-! ## Effects of the filesystem primitives -/

theorem find?_key_filter_ne {l : List (String × String)} (a b : String) (h : a ≠ b) :
    (l.filter (fun kv => kv.1 != b)).find? (fun kv => kv.1 == a) =
      l.find? (fun kv => kv.1 == a) := by
  induction l with
  | nil => rfl
  | cons kv t ih =>
    by_cases hk : kv.1 = b
    · rw [List.filter_cons_of_neg (by simp [hk]), ih,
        List.find?_cons_of_neg _ (by simp only [hk, beq_iff_eq]; exact fun he => h he.symm)]
    · rw [List.filter_cons_of_pos (by simp [hk])]
      cases hx : (kv.1 == a) with
      | true =>
        rw [List.find?_cons_of_pos _ (by simp [hx]), List.find?_cons_of_pos _ (by simp [hx])]
      | false =>
        rw [List.find?_cons_of_neg _ (by simp [hx]), List.find?_cons_of_neg _ (by simp [hx])]
        exact ih

theorem fsGet_fsWrite (fs : FS) (p c q) :
    fsGet (fsWrite fs p c) q =
      if normPath q = normPath p then some c else fsGet fs q := by
  unfold fsGet fsWrite
  by_cases h : normPath q = normPath p
  · simp [List.find?_cons, h, if_pos]
  · have hne : (normPath p == normPath q) = false := by
      simp only [beq_eq_false_iff_ne, ne_eq]
      exact fun he => h he.symm
    simp only [List.find?_cons, hne, if_neg h]
    rw [find?_key_filter_ne (normPath q) (normPath p) h]

theorem fsGet_mkdirRec (fs : FS) (p q) : fsGet (mkdirRec fs p) q = fsGet fs q := rfl

theorem find?_key_filter_keep {l : List (String × String)} (q : String)
    (pr : String → Bool) (h : pr q = true) :
    (l.filter (fun kv => pr kv.1)).find? (fun kv => kv.1 == q) =
      l.find? (fun kv => kv.1 == q) := by
  induction l with
  | nil => rfl
  | cons kv t ih =>
    by_cases hk : kv.1 = q
    · have h1 : pr kv.1 = true := by rw [hk]; exact h
      rw [List.filter_cons_of_pos (by simp [h1]),
        List.find?_cons_of_pos _ (by simp [hk]), List.find?_cons_of_pos _ (by simp [hk])]
    · cases h1 : pr kv.1 with
      | true =>
        rw [List.filter_cons_of_pos (by simp [h1]),
          List.find?_cons_of_neg _ (by simp [hk]), List.find?_cons_of_neg _ (by simp [hk])]
        exact ih
      | false =>
        rw [List.filter_cons_of_neg (by simp [h1]),
          List.find?_cons_of_neg _ (by simp [hk])]
        exact ih

theorem fsGet_rmdirRec (fs : FS) (p q) (h : underEqB (normPath p) (normPath q) = false) :
    fsGet (rmdirRec fs p) q = fsGet fs q := by
  unfold fsGet rmdirRec
  have htr := find?_key_filter_keep (l := fs.files) (normPath q)
    (fun k => !underEqB (normPath p) k) (by simp [h])
  simp only at htr ⊢
  rw [htr]

theorem fsGet_rmdirRec_under (fs : FS) (p q) (h : underEqB (normPath p) (normPath q) = true) :
    fsGet (rmdirRec fs p) q = none := by
  unfold fsGet rmdirRec
  have hnone : (fs.files.filter (fun kv => !underEqB (normPath p) kv.1)).find?
      (fun kv => kv.1 == normPath q) = none := by
    rw [List.find?_eq_none]
    intro kv hkv
    have hmem := List.of_mem_filter hkv
    simp only [Bool.not_eq_true'] at hmem
    cases hx : (kv.1 == normPath q) with
    | false => simp
    | true =>
      rw [eq_of_beq hx] at hmem
      rw [hmem] at h
      exact absurd h (by simp)
  simp only [hnone, Option.map_none']

theorem any_key_write (l : List (String × String)) (np c) (pr : String → Bool) :
    (((np, c) :: l.filter (fun kv => kv.1 != np)).any (fun kv => pr kv.1)) =
      (pr np || l.any (fun kv => pr kv.1)) := by
  simp only [List.any_cons]
  cases hp : pr np with
  | true => simp
  | false =>
    simp only [Bool.false_or]
    induction l with
    | nil => rfl
    | cons kv t ih =>
      by_cases hk : kv.1 = np
      · have h2 : pr kv.1 = false := by rw [hk]; exact hp
        rw [List.filter_cons_of_neg (by simp [hk]), ih, List.any_cons, h2, Bool.false_or]
      · rw [List.filter_cons_of_pos (by simp [hk]), List.any_cons, List.any_cons, ih]

theorem dirExistsB_fsWrite (fs : FS) (p c d) :
    dirExistsB (fsWrite fs p c) d =
      (dirExistsB fs d || underB (normPath d) (normPath p)) := by
  unfold dirExistsB fsWrite
  simp only
  rw [any_key_write]
  cases h1 : (normPath d == "") <;>
    cases h2 : fs.dirs.any (fun x => underEqB (normPath d) x) <;>
      cases h3 : underB (normPath d) (normPath p) <;>
        cases h4 : fs.files.any (fun kv => underB (normPath d) kv.1) <;> simp

theorem dirExistsB_mkdirRec (fs : FS) (p d) :
    dirExistsB (mkdirRec fs p) d =
      ((ancestors (normPath p)).any (fun x => underEqB (normPath d) x) || dirExistsB fs d) := by
  unfold dirExistsB mkdirRec
  simp only [List.any_append]
  cases h1 : (normPath d == "") <;>
    cases h2 : (ancestors (normPath p)).any (fun x => underEqB (normPath d) x) <;>
      cases h3 : fs.dirs.any (fun x => underEqB (normPath d) x) <;>
        cases h4 : fs.files.any (fun kv => underB (normPath d) kv.1) <;> simp

/-! ## Well-formed filesystems and key decomposition -/

/-- A well-formed filesystem: every file key and directory is a normalized,
non-empty path, and file keys are distinct (it is a map). -/
def WF (fs : FS) : Prop :=
  (∀ kv ∈ fs.files, normPath kv.1 = kv.1 ∧ kv.1 ≠ "") ∧
  (fs.files.map (·.1)).Nodup ∧
  (∀ d ∈ fs.dirs, normPath d = d ∧ d ≠ "")

theorem norm_decomp {k : String} (hn : normPath k = k) :
    k.data = joinSlash (compsL k.data) ∧ ∀ c ∈ compsL k.data, cleanComp c := by
  constructor
  · conv_lhs => rw [← hn]
    exact normPath_data k
  · intro c hc
    have h1 := List.of_mem_filter hc
    simp only [Bool.not_eq_true', Bool.or_eq_false_iff] at h1
    refine ⟨fun he => ?_, fun he => ?_, mem_compsL_no_slash hc⟩
    · rw [he] at h1
      exact absurd h1.1 (by decide)
    · rw [he] at h1
      exact absurd h1.2 (by decide)

/-- A normalized key strictly inside a normalized directory `d` decomposes as
`d ++ "/" ++ joinSlash cs` with clean components. -/
theorem under_decomp {d k : String}
    (hd : underB d k = true) :
    ∃ b, k.data = d.data ++ '/' :: b ∧ b = k.data.drop (d.data.length + 1) := by
  obtain ⟨b, hb⟩ := List.isPrefixOf_iff_prefix.mp hd
  refine ⟨b, ?_, ?_⟩
  · rw [← hb]
    simp
  · rw [← hb, show d.data.length + 1 = (d.data ++ ['/']).length by simp,
      List.drop_left]

theorem any_filter_imp {α : Type} (l : List α) {p q : α → Bool}
    (h : ∀ a, p a = true → q a = true) : (l.filter q).any p = l.any p := by
  induction l with
  | nil => rfl
  | cons a t ih =>
    cases hq : q a with
    | true => rw [List.filter_cons_of_pos (by simp [hq]), List.any_cons, List.any_cons, ih]
    | false =>
      have hp : p a = false := by
        cases hpa : p a with
        | false => rfl
        | true => rw [h a hpa] at hq; exact absurd hq (by simp)
      rw [List.filter_cons_of_neg (by simp [hq]), List.any_cons, hp, Bool.false_or, ih]

theorem map_fst_filter_key (l : List (String × String)) (pr : String → Bool) :
    (l.filter (fun kv => pr kv.1)).map (·.1) = (l.map (·.1)).filter pr := by
  induction l with
  | nil => rfl
  | cons kv t ih =>
    cases hp : pr kv.1 with
    | true =>
      rw [List.filter_cons_of_pos (by simp [hp]), List.map_cons, List.map_cons,
        List.filter_cons_of_pos (by simp [hp]), ih]
    | false =>
      rw [List.filter_cons_of_neg (by simp [hp]), List.map_cons,
        List.filter_cons_of_neg (by simp [hp]), ih]

/-- Two distinct directories neither of which lies inside the other have
disjoint `underEqB` subtrees. -/
theorem underEq_disjoint {a b : String} (hne : b ≠ a)
    (h1 : ((a.data ++ ['/']).isPrefixOf b.data) = false)
    (h2 : ((b.data ++ ['/']).isPrefixOf a.data) = false)
    (h3 : ((a.data ++ ['/']).isPrefixOf (b.data ++ ['/'])) = false)
    (h4 : ((b.data ++ ['/']).isPrefixOf (a.data ++ ['/'])) = false)
    {k : String} (h : underEqB a k = true) : underEqB b k = false := by
  rcases Bool.or_eq_true_iff.mp h with hk | hk
  · -- k = a
    have hka : k = a := eq_of_beq hk
    subst hka
    cases hx : underEqB b k with
    | false => rfl
    | true =>
      rcases Bool.or_eq_true_iff.mp hx with hy | hy
      · exact absurd (eq_of_beq hy).symm hne
      · rw [underB_iff] at hy
        exact absurd (List.isPrefixOf_iff_prefix.mpr hy) (by rw [h2]; simp)
  · -- a/ <+: k
    rw [underB_iff] at hk
    cases hx : underEqB b k with
    | false => rfl
    | true =>
      rcases Bool.or_eq_true_iff.mp hx with hy | hy
      · have hkb : k = b := eq_of_beq hy
        subst hkb
        exact absurd (List.isPrefixOf_iff_prefix.mpr hk) (by rw [h1]; simp)
      · rw [underB_iff] at hy
        rcases List.prefix_or_prefix_of_prefix hk hy with hc | hc
        · exact absurd (List.isPrefixOf_iff_prefix.mpr hc) (by rw [h3]; simp)
        · exact absurd (List.isPrefixOf_iff_prefix.mpr hc) (by rw [h4]; simp)

theorem dirExistsB_rmdirRec_disj (fs : FS) (p d : String)
    (hdisj : ∀ x : String, underEqB (normPath d) x = true → underEqB (normPath p) x = false) :
    dirExistsB (rmdirRec fs p) d = dirExistsB fs d := by
  unfold dirExistsB rmdirRec
  simp only
  rw [any_filter_imp (h := fun x hx => by rw [hdisj x hx]; rfl),
    any_filter_imp (h := fun kv hkv => ?_)]
  have hun : underEqB (normPath d) kv.1 = true := by
    unfold underEqB
    rw [hkv]
    simp
  rw [hdisj kv.1 hun]
  rfl

theorem filesUnder_rmdirRec_disj (fs : FS) (p d : String)
    (hdisj : ∀ x : String, underB (normPath d) x = true → underEqB (normPath p) x = false) :
    filesUnder (rmdirRec fs p) d = filesUnder fs d := by
  unfold filesUnder rmdirRec
  simp only
  rw [map_fst_filter_key _ (fun k => !underEqB (normPath p) k), List.filter_filter]
  apply List.filter_congr
  intro k _
  cases hk : underB (normPath d) k with
  | false => simp
  | true => simp [hdisj k hk]

theorem filesUnder_fsWrite_out (fs : FS) (p c d : String)
    (h : underB (normPath d) (normPath p) = false) :
    filesUnder (fsWrite fs p c) d = filesUnder fs d := by
  unfold filesUnder fsWrite
  simp only [List.map_cons]
  rw [List.filter_cons_of_neg (by simp [h]),
    map_fst_filter_key _ (fun k => k != normPath p), List.filter_filter]
  apply List.filter_congr
  intro k _
  cases hk : underB (normPath d) k with
  | false => simp
  | true =>
    simp only [hk, Bool.true_and, Bool.and_true]
    cases hkp : (k != normPath p) with
    | true => rfl
    | false =>
      have : k = normPath p := by
        simpa using hkp
      rw [this] at hk
      rw [hk] at h
      exact absurd h (by simp)

theorem keep_of_cleanComp {a : List Char} (hc : cleanComp a) :
    (!(a.isEmpty || a == ['.'])) = true := by
  simp only [Bool.not_eq_true']
  cases hE : (a.isEmpty || a == ['.']) with
  | false => rfl
  | true =>
    rcases Bool.or_eq_true_iff.mp hE with h | h
    · exact absurd (List.isEmpty_iff.mp h) hc.1
    · exact absurd (eq_of_beq h) hc.2.1

/-- A normalized key directly inside `src/public` (three path components) is
`src/public/<basename>` for a clean slash-free basename. -/
theorem pub_flat_decomp {k : String} (hn : normPath k = k)
    (hu : underB "src/public" k = true) (hlen : (compsL k.data).length = 3) :
    ∃ b, cleanComp b ∧ k.data = "src/public/".data ++ b := by
  obtain ⟨b, hb, _⟩ := under_decomp hu
  obtain ⟨hjoin, hclean⟩ := norm_decomp hn
  have hkne : k.data ≠ [] := by
    intro h0
    unfold underB at hu
    rw [h0] at hu
    simp [List.isPrefixOf] at hu
  have hcs_ne : compsL k.data ≠ [] := by
    intro h0
    rw [h0] at hjoin
    exact hkne hjoin
  have hfull : splitSlash k.data = compsL k.data := by
    conv_lhs => rw [hjoin]
    exact splitSlash_joinSlash hcs_ne (fun c hc => (hclean c hc).2.2)
  have hsplit : splitSlash k.data = ["src".data, "public".data] ++ splitSlash b := by
    rw [hb]
    rw [show ("src/public".data : List Char) ++ '/' :: b =
      "src".data ++ '/' :: ("public".data ++ '/' :: b) from rfl,
      splitSlash_append, splitSlash_append]
    rfl
  cases hsb : splitSlash b with
  | nil => exact absurd hsb (splitSlash_ne_nil b)
  | cons b0 r =>
    cases r with
    | cons b1 r2 =>
      exfalso
      have h3 : (compsL k.data).length = 3 := hlen
      rw [← hfull, hsplit, hsb] at h3
      simp at h3
    | nil =>
      have hb0 : b = b0 := by
        have hjb := joinSlash_splitSlash b
        rw [hsb] at hjb
        exact hjb.symm
      refine ⟨b, ?_, by rw [hb]; rfl⟩
      have hbmem : b ∈ compsL k.data := by
        rw [← hfull, hsplit, hsb, ← hb0]
        simp
      exact hclean b hbmem

theorem normPath_dot_dist_comp {b : List Char} (hb : cleanComp b) :
    normPath ("./dist/" ++ (⟨b⟩ : String)) = ⟨"dist/".data ++ b⟩ := by
  apply strExt
  rw [normPath_data]
  have hdata : (("./dist/" : String) ++ (⟨b⟩ : String)).data =
      ".".data ++ '/' :: ("dist".data ++ '/' :: b) := by
    rw [strData_append]
    rfl
  rw [hdata]
  unfold compsL
  rw [splitSlash_append, splitSlash_append, splitSlash_no_slash hb.2.2]
  rw [show splitSlash ".".data ++ (splitSlash "dist".data ++ [b]) =
    [['.'], "dist".data] ++ [b] from by simp [splitSlash]]
  rw [List.filter_append,
    show ([['.'], "dist".data] : List (List Char)).filter
      (fun c => !(c.isEmpty || c == ['.'])) = ["dist".data] from by decide,
    List.filter_eq_self.mpr (fun a ha => keep_of_cleanComp (by
      rw [List.mem_singleton.mp ha]; exact hb))]
  rfl

theorem parentDir_dist_comp {b : List Char} (hb : cleanComp b) :
    parentDir ⟨"dist/".data ++ b⟩ = "dist" := by
  unfold parentDir
  apply strExt
  show joinSlash ((compsL ("dist/".data ++ b)).dropLast) = "dist".data
  rw [show ("dist/".data : List Char) ++ b = "dist".data ++ '/' :: b from rfl]
  unfold compsL
  rw [splitSlash_append, splitSlash_no_slash hb.2.2]
  rw [show splitSlash "dist".data ++ [b] = ["dist".data] ++ [b] from by simp [splitSlash]]
  rw [List.filter_append,
    show (["dist".data] : List (List Char)).filter
      (fun c => !(c.isEmpty || c == ['.'])) = ["dist".data] from by decide,
    List.filter_eq_self.mpr (fun a ha => keep_of_cleanComp (by
      rw [List.mem_singleton.mp ha]; exact hb))]
  rfl

theorem normPath_pub_comp {b : List Char} (hb : cleanComp b) :
    normPath ⟨"src/public/".data ++ b⟩ = ⟨"src/public/".data ++ b⟩ := by
  apply strExt
  rw [normPath_data]
  rw [show ("src/public/".data : List Char) ++ b =
    "src".data ++ '/' :: ("public".data ++ '/' :: b) from rfl]
  unfold compsL
  rw [splitSlash_append, splitSlash_append, splitSlash_no_slash hb.2.2]
  rw [show splitSlash "src".data ++ (splitSlash "public".data ++ [b]) =
    ["src".data, "public".data] ++ [b] from by simp [splitSlash]]
  rw [List.filter_append,
    show (["src".data, "public".data] : List (List Char)).filter
      (fun c => !(c.isEmpty || c == ['.'])) = ["src".data, "public".data] from by decide,
    List.filter_eq_self.mpr (fun a ha => keep_of_cleanComp (by
      rw [List.mem_singleton.mp ha]; exact hb))]
  rfl

/-- Destination of one static-asset copy:
`resolve("./dist/" + file.slice("src/public/".length))`. -/
def pubDest (f : String) : String :=
  normPath ("./dist/" ++ (⟨f.data.drop 11⟩ : String))

theorem pubDest_eq {f : String} {b : List Char} (hb : cleanComp b)
    (hf : f.data = "src/public/".data ++ b) : pubDest f = ⟨"dist/".data ++ b⟩ := by
  unfold pubDest
  rw [hf, show (("src/public/".data : List Char) ++ b).drop 11 = b from by
    rw [show (11 : Nat) = ("src/public/".data : List Char).length from rfl, List.drop_left]]
  exact normPath_dot_dist_comp hb

theorem pubSrc_ne_pubDest {b b2 : List Char} :
    (⟨"src/public/".data ++ b⟩ : String) ≠ ⟨"dist/".data ++ b2⟩ := by
  intro he
  have h2 : ("src/public/".data ++ b).head? = ("dist/".data ++ b2).head? :=
    congrArg (fun s : String => s.data.head?) he
  rw [show (("src/public/".data : List Char) ++ b).head? = some 's' from rfl,
    show (("dist/".data : List Char) ++ b2).head? = some 'd' from rfl] at h2
  exact absurd h2 (by decide)

theorem underB_dist_pubDest (b : List Char) :
    underB "dist" (⟨"dist/".data ++ b⟩ : String) = true := by
  unfold underB
  apply List.isPrefixOf_iff_prefix.mpr
  show ("dist".data : List Char) ++ ['/'] <+: "dist/".data ++ b
  exact List.prefix_append _ b

/-- What one successful run of the `prepare` copy loop does. -/
theorem copyPublic_ok (l : List String) (fs : FS)
    (hsh : ∀ f ∈ l, ∃ b, cleanComp b ∧ f.data = "src/public/".data ++ b)
    (hex : ∀ f ∈ l, (fsGet fs f).isSome = true)
    (hnd : l.Nodup)
    (hdist : dirExistsB fs "dist" = true)
    (hwf : WF fs) :
    ∃ fs', copyPublic fs l = .ok fs' ∧
      fs'.dirs = fs.dirs ∧
      (∀ pr : String → Bool, (∀ x, underB "dist" x = true → pr x = false) →
        fs'.files.filter (fun kv => pr kv.1) = fs.files.filter (fun kv => pr kv.1)) ∧
      (∀ q : String, (∀ f ∈ l, normPath q ≠ pubDest f) → fsGet fs' q = fsGet fs q) ∧
      (∀ f ∈ l, fsGet fs' (pubDest f) = fsGet fs f) ∧
      (∀ q : String, (fsGet fs' q).isSome = true →
        (fsGet fs q).isSome = true ∨ ∃ f ∈ l, normPath q = pubDest f) ∧
      (∀ d, dirExistsB fs d = true → dirExistsB fs' d = true) ∧
      WF fs' := by
  induction l generalizing fs with
  | nil =>
    exact ⟨fs, rfl, rfl, fun _ _ => rfl, fun _ _ => rfl, by simp, fun q h => Or.inl h,
      fun _ h => h, hwf⟩
  | cons f r ih =>
    obtain ⟨b, hb, hfb⟩ := hsh f (by simp)
    obtain ⟨cnt, hcnt⟩ := Option.isSome_iff_exists.mp (hex f (by simp))
    have hdest : pubDest f = ⟨"dist/".data ++ b⟩ := pubDest_eq hb hfb
    have hdestu : underB "dist" (normPath ("./dist/" ++ (⟨f.data.drop 11⟩ : String))) = true := by
      rw [show normPath ("./dist/" ++ (⟨f.data.drop 11⟩ : String)) = pubDest f from rfl, hdest]
      exact underB_dist_pubDest b
    -- the copy of `f` succeeds: source exists, and the destination's parent
    -- directory is `dist`, which exists
    have hpar : parentDir (normPath ("./dist/" ++ (⟨f.data.drop 11⟩ : String))) = "dist" := by
      rw [show normPath ("./dist/" ++ (⟨f.data.drop 11⟩ : String)) = pubDest f from rfl, hdest]
      exact parentDir_dist_comp hb
    have hcopy : copyFileM fs f ("./dist/" ++ (⟨f.data.drop 11⟩ : String)) =
        .ok (fsWrite fs ("./dist/" ++ (⟨f.data.drop 11⟩ : String)) cnt) := by
      unfold copyFileM
      rw [hcnt, hpar, hdist]
      simp
    have hstep : copyPublic fs (f :: r) =
        copyPublic (fsWrite fs ("./dist/" ++ (⟨f.data.drop 11⟩ : String)) cnt) r := by
      show (match copyFileM fs f ("./dist/" ++ (⟨f.data.drop 11⟩ : String)) with
        | .error e => .error e
        | .ok fs1 => copyPublic fs1 r) =
        copyPublic (fsWrite fs ("./dist/" ++ (⟨f.data.drop 11⟩ : String)) cnt) r
      rw [hcopy]
    set fs1 := fsWrite fs ("./dist/" ++ (⟨f.data.drop 11⟩ : String)) cnt with hfs1
    have hkey : normPath ("./dist/" ++ (⟨f.data.drop 11⟩ : String)) = pubDest f := rfl
    have hget1 : ∀ q : String, fsGet fs1 q =
        if normPath q = pubDest f then some cnt else fsGet fs q := by
      intro q
      rw [hfs1, fsGet_fsWrite]
      rw [show normPath ("./dist/" ++ (⟨f.data.drop 11⟩ : String)) = pubDest f from rfl]
    have hwf1 : WF fs1 := by
      refine ⟨?_, ?_, hwf.2.2⟩
      · intro kv hkv
        rw [hfs1] at hkv
        unfold fsWrite at hkv
        rcases List.mem_cons.mp hkv with hkv | hkv
        · rw [hkv]
          exact ⟨normPath_idem _, by
            rw [hkey, hdest]
            intro he
            have := congrArg String.data he
            simp at this⟩
        · exact hwf.1 kv (List.mem_of_mem_filter hkv)
      · rw [hfs1]
        unfold fsWrite
        simp only [List.map_cons]
        apply List.Nodup.cons
        · intro hmem
          rw [map_fst_filter_key _ (fun k => k != normPath ("./dist/" ++
            (⟨f.data.drop 11⟩ : String)))] at hmem
          have := List.of_mem_filter hmem
          simp at this
        · have := hwf.2.1
          rw [map_fst_filter_key _ (fun k => k != normPath ("./dist/" ++
            (⟨f.data.drop 11⟩ : String)))]
          exact this.filter _
    have hex1 : ∀ g ∈ r, (fsGet fs1 g).isSome = true := by
      intro g hg
      obtain ⟨bg, hbg, hgb⟩ := hsh g (by simp [hg])
      rw [hget1]
      have hne : normPath g ≠ pubDest f := by
        have hng : normPath g = g := by
          have : g = ⟨"src/public/".data ++ bg⟩ := strExt hgb
          rw [this]
          exact normPath_pub_comp hbg
        rw [hng, hdest, show g = (⟨"src/public/".data ++ bg⟩ : String) from strExt hgb]
        exact pubSrc_ne_pubDest
      rw [if_neg hne]
      exact hex g (by simp [hg])
    have hdist1 : dirExistsB fs1 "dist" = true := by
      rw [hfs1, dirExistsB_fsWrite, hdist]
      simp
    obtain ⟨fs', hok, hdirs, hfil, hpres, hdests, hdom, hdmono, hwf'⟩ :=
      ih fs1 (fun g hg => hsh g (by simp [hg])) hex1 (List.Nodup.of_cons hnd) hdist1 hwf1
    refine ⟨fs', by rw [hstep]; exact hok, ?_, ?_, ?_, ?_, ?_, ?_, hwf'⟩
    · rw [hdirs, hfs1]
      rfl
    · intro pr hpr
      rw [hfil pr hpr, hfs1]
      unfold fsWrite
      simp only
      rw [List.filter_cons_of_neg (by
          simp only [Bool.not_eq_true]
          rw [hkey] at hdestu ⊢
          exact hpr _ hdestu),
        List.filter_filter]
      apply List.filter_congr
      intro kv _
      cases hkv : pr kv.1 with
      | false => simp
      | true =>
        simp only [hkv, Bool.and_true, Bool.true_and]
        cases hkn : (kv.1 != normPath ("./dist/" ++ (⟨f.data.drop 11⟩ : String))) with
        | true => rfl
        | false =>
          have hkeq : kv.1 = normPath ("./dist/" ++ (⟨f.data.drop 11⟩ : String)) := by
            simpa using hkn
          rw [hkeq, hkey] at hkv
          rw [hdest] at hkv
          rw [hpr _ (hdest ▸ underB_dist_pubDest b)] at hkv
          exact absurd hkv (by simp)
    · intro q hq
      rw [hpres q (fun g hg => hq g (by simp [hg])), hget1,
        if_neg (hq f (by simp))]
    · intro g hg
      rcases List.mem_cons.mp hg with hg | hg
      · subst hg
        have hne : ∀ g2 ∈ r, normPath (pubDest g) ≠ pubDest g2 := by
          intro g2 hg2 he
          obtain ⟨b2, hb2, hg2b⟩ := hsh g2 (by simp [hg2])
          rw [show normPath (pubDest g) = pubDest g from by
              unfold pubDest
              exact normPath_idem _, hdest, pubDest_eq hb2 hg2b] at he
          have hbeq : b = b2 := by
            have := congrArg String.data he
            simpa using this
          have : g = g2 := by
            apply strExt
            rw [hfb, hg2b, hbeq]
          rw [← this] at hg2
          exact (List.nodup_cons.mp hnd).1 hg2
        rw [hpres (pubDest g) hne, hget1, if_pos (by
          unfold pubDest
          exact normPath_idem _), hcnt]
      · rw [hdests g hg, hget1]
        have hne : normPath g ≠ pubDest f := by
          obtain ⟨bg, hbg, hgb⟩ := hsh g (by simp [hg])
          have : g = ⟨"src/public/".data ++ bg⟩ := strExt hgb
          rw [this, normPath_pub_comp hbg, hdest]
          exact pubSrc_ne_pubDest
        rw [if_neg hne]
    · intro q hq
      rcases hdom q hq with hq2 | hq2
      · rw [hget1] at hq2
        by_cases he : normPath q = pubDest f
        · exact Or.inr ⟨f, by simp, he⟩
        · rw [if_neg he] at hq2
          exact Or.inl hq2
      · obtain ⟨g, hg, hge⟩ := hq2
        exact Or.inr ⟨g, by simp [hg], hge⟩
    · intro d hd
      apply hdmono
      rw [hfs1, dirExistsB_fsWrite, hd]
      simp

theorem find?_key_nodup {l : List (String × String)} (hnd : (l.map (·.1)).Nodup)
    {kv : String × String} (hm : kv ∈ l) :
    l.find? (fun x => x.1 == kv.1) = some kv := by
  induction l with
  | nil => exact absurd hm (by simp)
  | cons hd t ih =>
    rcases List.mem_cons.mp hm with he | ht
    · subst he
      rw [List.find?_cons_of_pos _ (by simp)]
    · have hne : hd.1 ≠ kv.1 := by
        intro he
        have h1 := (List.nodup_cons.mp hnd).1
        apply h1
        show hd.1 ∈ List.map (fun x => x.1) t
        rw [he]
        exact List.mem_map_of_mem (·.1) ht
      rw [List.find?_cons_of_neg _ (by simp only [beq_iff_eq]; exact hne)]
      exact ih (List.nodup_cons.mp hnd).2 ht

theorem fsGet_self {fs : FS} (hwf : WF fs) {kv : String × String}
    (hm : kv ∈ fs.files) : fsGet fs kv.1 = some kv.2 := by
  unfold fsGet
  rw [(hwf.1 kv hm).1, find?_key_nodup hwf.2.1 hm]
  rfl

theorem WF_rmdirRec (fs : FS) (p : String) (hwf : WF fs) : WF (rmdirRec fs p) := by
  refine ⟨?_, ?_, ?_⟩
  · intro kv hkv
    exact hwf.1 kv (List.mem_of_mem_filter hkv)
  · unfold rmdirRec
    simp only
    rw [map_fst_filter_key _ (fun k => !underEqB (normPath p) k)]
    exact hwf.2.1.filter _
  · intro d hd
    exact hwf.2.2 d (List.mem_of_mem_filter hd)

/-- The cleared-and-recreated workspace at the start of `prepare`. -/
def prepClear (fs : FS) : FS :=
  mkdirRec (mkdirRec (rmdirRec (rmdirRec fs "./dist") "./.tmp/microsite") "./dist")
    "./.tmp/microsite"

theorem prepClear_dirs (fs : FS) :
    (prepClear fs).dirs = [".tmp", ".tmp/microsite", "dist"] ++
      (fs.dirs.filter (fun d => !underEqB "dist" d)).filter
        (fun d => !underEqB ".tmp/microsite" d) := by
  unfold prepClear mkdirRec rmdirRec
  simp only
  rw [show ancestors (normPath "./.tmp/microsite") = [".tmp", ".tmp/microsite"] from by decide,
    show ancestors (normPath "./dist") = ["dist"] from by decide,
    show (normPath "./dist" : String) = "dist" from by decide,
    show (normPath "./.tmp/microsite" : String) = ".tmp/microsite" from by decide]
  rfl

theorem prepClear_files (fs : FS) :
    (prepClear fs).files = (fs.files.filter (fun kv => !underEqB "dist" kv.1)).filter
      (fun kv => !underEqB ".tmp/microsite" kv.1) := by
  unfold prepClear mkdirRec rmdirRec
  simp only
  rw [show (normPath "./dist" : String) = "dist" from by decide,
    show (normPath "./.tmp/microsite" : String) = ".tmp/microsite" from by decide]

theorem WF_prepClear (fs : FS) (hwf : WF fs) : WF (prepClear fs) := by
  refine ⟨?_, ?_, ?_⟩
  · intro kv hkv
    rw [prepClear_files] at hkv
    exact hwf.1 kv (List.mem_of_mem_filter (List.mem_of_mem_filter hkv))
  · rw [prepClear_files, map_fst_filter_key _ (fun k => !underEqB ".tmp/microsite" k),
      map_fst_filter_key _ (fun k => !underEqB "dist" k)]
    exact (hwf.2.1.filter _).filter _
  · intro d hd
    rw [prepClear_dirs] at hd
    rcases List.mem_append.mp hd with hd | hd
    · rcases List.mem_cons.mp hd with he | hd
      · subst he; exact ⟨by decide, by decide⟩
      · rcases List.mem_cons.mp hd with he | hd
        · subst he; exact ⟨by decide, by decide⟩
        · rw [List.mem_singleton.mp hd]
          exact ⟨by decide, by decide⟩
    · exact hwf.2.2 d (List.mem_of_mem_filter (List.mem_of_mem_filter hd))

theorem fsGet_prepClear (fs : FS) (q : String)
    (h1 : underEqB "dist" (normPath q) = false)
    (h2 : underEqB ".tmp/microsite" (normPath q) = false) :
    fsGet (prepClear fs) q = fsGet fs q := by
  unfold prepClear
  rw [fsGet_mkdirRec, fsGet_mkdirRec,
    fsGet_rmdirRec _ _ _ (by
      rw [show (normPath "./.tmp/microsite" : String) = ".tmp/microsite" from by decide]
      exact h2),
    fsGet_rmdirRec _ _ _ (by
      rw [show (normPath "./dist" : String) = "dist" from by decide]
      exact h1)]

theorem fsGet_congr (fs : FS) {p q : String} (h : normPath p = normPath q) :
    fsGet fs p = fsGet fs q := by
  unfold fsGet
  rw [h]

theorem dirExistsB_congr (fs : FS) {p q : String} (h : normPath p = normPath q) :
    dirExistsB fs p = dirExistsB fs q := by
  unfold dirExistsB
  rw [h]

theorem filesUnder_congr (fs : FS) {p q : String} (h : normPath p = normPath q) :
    filesUnder fs p = filesUnder fs q := by
  unfold filesUnder
  rw [h]

theorem fsGet_prepClear_none (fs : FS) (q : String)
    (h : underEqB "dist" (normPath q) = true ∨ underEqB ".tmp/microsite" (normPath q) = true) :
    fsGet (prepClear fs) q = none := by
  unfold prepClear
  rw [fsGet_mkdirRec, fsGet_mkdirRec]
  rcases h with h | h
  · cases hx : underEqB (normPath "./.tmp/microsite") (normPath q) with
    | true =>
      exact fsGet_rmdirRec_under _ _ _ hx
    | false =>
      rw [fsGet_rmdirRec _ _ _ hx]
      apply fsGet_rmdirRec_under
      rw [show (normPath "./dist" : String) = "dist" from by decide]
      exact h
  · apply fsGet_rmdirRec_under
    rw [show (normPath "./.tmp/microsite" : String) = ".tmp/microsite" from by decide]
    exact h

theorem underEq_pub_dist {x : String} (h : underEqB "src/public" x = true) :
    underEqB "dist" x = false :=
  underEq_disjoint (by decide) (by decide) (by decide) (by decide) (by decide) h

theorem underEq_pub_tmpms {x : String} (h : underEqB "src/public" x = true) :
    underEqB ".tmp/microsite" x = false :=
  underEq_disjoint (by decide) (by decide) (by decide) (by decide) (by decide) h

theorem dirExistsB_prepClear_pub (fs : FS) :
    dirExistsB (prepClear fs) "src/public" = dirExistsB fs "src/public" := by
  unfold prepClear
  rw [dirExistsB_mkdirRec, dirExistsB_mkdirRec,
    show ((ancestors (normPath "./.tmp/microsite")).any
      (fun x => underEqB (normPath "src/public") x)) = false from by decide,
    show ((ancestors (normPath "./dist")).any
      (fun x => underEqB (normPath "src/public") x)) = false from by decide,
    dirExistsB_rmdirRec_disj _ _ _ (fun x hx => by
      rw [show (normPath "./.tmp/microsite" : String) = ".tmp/microsite" from by decide]
      exact underEq_pub_tmpms (by
        rw [show (normPath "src/public" : String) = "src/public" from by decide] at hx
        exact hx)),
    dirExistsB_rmdirRec_disj _ _ _ (fun x hx => by
      rw [show (normPath "./dist" : String) = "dist" from by decide]
      exact underEq_pub_dist (by
        rw [show (normPath "src/public" : String) = "src/public" from by decide]
        at hx
        exact hx))]
  simp

theorem filesUnder_prepClear_pub (fs : FS) :
    filesUnder (prepClear fs) "src/public" = filesUnder fs "src/public" := by
  unfold prepClear
  show filesUnder (rmdirRec (rmdirRec fs "./dist") "./.tmp/microsite") "src/public" = _
  rw [filesUnder_rmdirRec_disj _ _ _ (fun x hx => by
      rw [show (normPath "./.tmp/microsite" : String) = ".tmp/microsite" from by decide]
      apply underEq_pub_tmpms
      unfold underEqB
      rw [show (normPath "src/public" : String) = "src/public" from by decide] at hx
      rw [hx]
      simp),
    filesUnder_rmdirRec_disj _ _ _ (fun x hx => by
      rw [show (normPath "./dist" : String) = "dist" from by decide]
      apply underEq_pub_dist
      unfold underEqB
      rw [show (normPath "src/public" : String) = "src/public" from by decide] at hx
      rw [hx]
      simp)]

/-- One successful run of `prepare`: the workspace is cleared and recreated,
`src/public` exists as a directory holding only direct files, and every one
of them is copied to `dist`. -/
theorem prepare_ok (st : St)
    (hwf : WF st.fs)
    (hpubf : fsGet st.fs "src/public" = none)
    (hpubd : dirExistsB st.fs "src/public" = true)
    (hflat : ∀ kv ∈ st.fs.files, underB "src/public" kv.1 = true →
      (compsL kv.1.data).length = 3) :
    ∃ fs3, prepareM st = .ok { fs := fs3, log := st.log } ∧
      (∀ pr : String → Bool, (∀ x, underB "dist" x = true → pr x = false) →
        fs3.files.filter (fun kv => pr kv.1) =
          ((st.fs.files.filter (fun kv => !underEqB "dist" kv.1)).filter
            (fun kv => !underEqB ".tmp/microsite" kv.1)).filter (fun kv => pr kv.1)) ∧
      (∀ q : String, underEqB "dist" (normPath q) = false →
        underEqB ".tmp/microsite" (normPath q) = false →
        fsGet fs3 q = fsGet st.fs q) ∧
      (∀ kv ∈ st.fs.files, underB "src/public" kv.1 = true →
        fsGet fs3 (pubDest kv.1) = some kv.2) ∧
      (∀ q : String, (fsGet fs3 q).isSome = true →
        ((fsGet st.fs q).isSome = true ∧ underEqB "dist" (normPath q) = false ∧
          underEqB ".tmp/microsite" (normPath q) = false) ∨
        (∃ kv ∈ st.fs.files, underB "src/public" kv.1 = true ∧ normPath q = pubDest kv.1)) ∧
      fs3.dirs = [".tmp", ".tmp/microsite", "dist"] ++
        (st.fs.dirs.filter (fun d => !underEqB "dist" d)).filter
          (fun d => !underEqB ".tmp/microsite" d) ∧
      WF fs3 := by
  have hwf2 : WF (prepClear st.fs) := WF_prepClear st.fs hwf
  -- membership shape of the listed public files
  have hmem_shape : ∀ f ∈ filesUnder st.fs "src/public",
      ∃ kv ∈ st.fs.files, kv.1 = f ∧ underB "src/public" f = true := by
    intro f hf
    unfold filesUnder at hf
    have h1 := List.of_mem_filter hf
    have h2 := List.mem_of_mem_filter hf
    obtain ⟨kv, hkv, hkvf⟩ := List.mem_map.mp h2
    refine ⟨kv, hkv, hkvf, ?_⟩
    rw [show (normPath "src/public" : String) = "src/public" from by decide] at h1
    exact h1
  have hsh : ∀ f ∈ filesUnder st.fs "src/public",
      ∃ b, cleanComp b ∧ f.data = "src/public/".data ++ b := by
    intro f hf
    obtain ⟨kv, hkv, hkvf, hund⟩ := hmem_shape f hf
    have hn : normPath f = f := by
      rw [← hkvf]
      exact (hwf.1 kv hkv).1
    have hlen : (compsL f.data).length = 3 := by
      rw [← hkvf] at hund ⊢
      exact hflat kv hkv hund
    exact pub_flat_decomp hn hund hlen
  have hpres2 : ∀ f ∈ filesUnder st.fs "src/public", fsGet (prepClear st.fs) f = fsGet st.fs f := by
    intro f hf
    obtain ⟨kv, hkv, hkvf, hund⟩ := hmem_shape f hf
    have hn : normPath f = f := by
      rw [← hkvf]
      exact (hwf.1 kv hkv).1
    have hue : underEqB "src/public" f = true := by
      unfold underEqB
      rw [hund]
      simp
    apply fsGet_prepClear
    · rw [hn]
      exact underEq_pub_dist hue
    · rw [hn]
      exact underEq_pub_tmpms hue
  have hex : ∀ f ∈ filesUnder st.fs "src/public",
      (fsGet (prepClear st.fs) f).isSome = true := by
    intro f hf
    obtain ⟨kv, hkv, hkvf, hund⟩ := hmem_shape f hf
    rw [hpres2 f hf, ← hkvf, fsGet_self hwf hkv]
    rfl
  have hnd : (filesUnder st.fs "src/public").Nodup := by
    unfold filesUnder
    exact (hwf.2.1.filter _)
  have hdist2 : dirExistsB (prepClear st.fs) "dist" = true := by
    unfold prepClear
    rw [dirExistsB_mkdirRec, dirExistsB_mkdirRec,
      show ((ancestors (normPath "./dist")).any
        (fun x => underEqB (normPath "dist") x)) = true from by decide]
    simp
  obtain ⟨fs3, hok, hdirs3, hfil3, hpres3, hdests3, hdom3, hdmono3, hwf3⟩ :=
    copyPublic_ok (filesUnder st.fs "src/public") (prepClear st.fs) hsh hex hnd hdist2 hwf2
  have hstat : statIsDirM (prepClear st.fs) "./src/public" = .ok true := by
    unfold statIsDirM
    rw [fsGet_congr (prepClear st.fs)
        (show normPath "./src/public" = normPath "src/public" from by decide),
      fsGet_prepClear st.fs "src/public" (by decide) (by decide), hpubf,
      dirExistsB_congr (prepClear st.fs)
        (show normPath "./src/public" = normPath "src/public" from by decide),
      dirExistsB_prepClear_pub, hpubd]
    rfl
  have hread : readDirM (prepClear st.fs) "./src/public" =
      .ok (filesUnder st.fs "src/public") := by
    unfold readDirM
    rw [dirExistsB_congr (prepClear st.fs)
        (show normPath "./src/public" = normPath "src/public" from by decide),
      dirExistsB_prepClear_pub, hpubd,
      filesUnder_congr (prepClear st.fs)
        (show normPath "./src/public" = normPath "src/public" from by decide),
      filesUnder_prepClear_pub]
    rfl
  have hrun : prepareM st = .ok { fs := fs3, log := st.log } := by
    show ((match statIsDirM (prepClear st.fs) "./src/public" with
      | Except.error e => Except.error e
      | Except.ok false => Except.ok { fs := prepClear st.fs, log := st.log }
      | Except.ok true =>
        match readDirM (prepClear st.fs) "./src/public" with
        | Except.error e => Except.error e
        | Except.ok pub =>
          match copyPublic (prepClear st.fs) pub with
          | Except.error e => Except.error e
          | Except.ok fs4 => Except.ok { fs := fs4, log := st.log }) : Except String St) =
      Except.ok { fs := fs3, log := st.log }
    rw [hstat, hread]
    simp only [hok]
  refine ⟨fs3, hrun, ?_, ?_, ?_, ?_, ?_, hwf3⟩
  · -- filter preservation
    intro pr hpr
    rw [hfil3 pr hpr, prepClear_files]
  · -- reads outside the rebuilt zones
    intro q h1 h2
    have hne : ∀ f ∈ filesUnder st.fs "src/public", normPath q ≠ pubDest f := by
      intro f hf he
      obtain ⟨b, hb, hfb⟩ := hsh f hf
      rw [pubDest_eq hb hfb] at he
      rw [he] at h1
      unfold underEqB at h1
      rw [underB_dist_pubDest b] at h1
      simp at h1
    rw [hpres3 q hne]
    exact fsGet_prepClear st.fs q h1 h2
  · -- copied contents
    intro kv hkv hund
    have hmem : kv.1 ∈ filesUnder st.fs "src/public" := by
      unfold filesUnder
      apply List.mem_filter.mpr
      refine ⟨List.mem_map_of_mem (·.1) hkv, ?_⟩
      rw [show (normPath "src/public" : String) = "src/public" from by decide]
      exact hund
    rw [hdests3 kv.1 hmem, hpres2 kv.1 hmem, fsGet_self hwf hkv]
  · -- domain growth
    intro q hq
    rcases hdom3 q hq with hq2 | hq2
    · left
      have hd1 : underEqB "dist" (normPath q) = false := by
        cases hx : underEqB "dist" (normPath q) with
        | false => rfl
        | true =>
          rw [fsGet_prepClear_none st.fs q (Or.inl hx)] at hq2
          exact absurd hq2 (by simp)
      have hd2 : underEqB ".tmp/microsite" (normPath q) = false := by
        cases hx : underEqB ".tmp/microsite" (normPath q) with
        | false => rfl
        | true =>
          rw [fsGet_prepClear_none st.fs q (Or.inr hx)] at hq2
          exact absurd hq2 (by simp)
      rw [fsGet_prepClear st.fs q hd1 hd2] at hq2
      exact ⟨hq2, hd1, hd2⟩
    · right
      obtain ⟨f, hf, hfe⟩ := hq2
      obtain ⟨kv, hkv, hkvf, hund⟩ := hmem_shape f hf
      exact ⟨kv, hkv, by rw [hkvf]; exact hund, by rw [hkvf]; exact hfe⟩
  · -- directories
    rw [hdirs3, prepClear_dirs]

theorem fsWrite_files_fresh (fs : FS) (p c : String)
    (h : ∀ kv ∈ fs.files, kv.1 ≠ normPath p) :
    (fsWrite fs p c).files = (normPath p, c) :: fs.files := by
  unfold fsWrite
  simp only
  rw [List.filter_eq_self.mpr]
  intro kv hkv
  simp only [bne_iff_ne, ne_eq]
  exact h kv hkv

theorem fsWrite_filter_out (fs : FS) (p c : String) {pr : String → Bool}
    (h : pr (normPath p) = false) :
    (fsWrite fs p c).files.filter (fun kv => pr kv.1) =
      fs.files.filter (fun kv => pr kv.1) := by
  unfold fsWrite
  simp only
  rw [List.filter_cons_of_neg (by simp [h]), List.filter_filter]
  apply List.filter_congr
  intro kv _
  cases hkv : pr kv.1 with
  | false => simp
  | true =>
    simp only [hkv, Bool.and_true, Bool.true_and]
    cases hkn : (kv.1 != normPath p) with
    | true => rfl
    | false =>
      have hkeq : kv.1 = normPath p := by simpa using hkn
      rw [hkeq, h] at hkv
      exact absurd hkv (by simp)

/-- The staging filesystem produced by `writeGlobal`'s write step. -/
def wgFS (fs : FS) (gjs : String) (gcss : Option String)
    (ljs : String) (lcss : Option String) : FS :=
  rollupWriteCss
    (rollupWrite
      (rollupWriteCss (rollupWrite fs "./.tmp/microsite" "global.js" gjs)
        "./.tmp/microsite" "global.css" gcss)
      "./.tmp/microsite" "global.legacy.js" ljs)
    "./.tmp/microsite" "global.legacy.css" lcss

/-- The four (or fewer) staged global entries, newest first. -/
def wgEntries (gjs : String) (gcss : Option String)
    (ljs : String) (lcss : Option String) : List (String × String) :=
  (match lcss with
    | some c => [((".tmp/microsite/global.legacy.css" : String), c)]
    | none => []) ++
  [((".tmp/microsite/global.legacy.js" : String), ljs)] ++
  (match gcss with
    | some c => [((".tmp/microsite/global.css" : String), c)]
    | none => []) ++
  [((".tmp/microsite/global.js" : String), gjs)]

theorem writeGlobalM_ok (cfg : Collab) (st : St) {gjs ljs : String}
    {gcss lcss : Option String}
    (hg : cfg.compileGlobalModern (srcView st.fs) = .ok (gjs, gcss))
    (hl : cfg.compileGlobalLegacy (srcView st.fs) = .ok (ljs, lcss)) :
    writeGlobalM cfg st = .ok { fs := wgFS st.fs gjs gcss ljs lcss, log := st.log } := by
  unfold writeGlobalM
  rw [hg, hl]
  rfl

theorem rollupWrite_files (fs : FS) (dir name c : String)
    (h : ∀ kv ∈ fs.files, kv.1 ≠ normPath (dir ++ "/" ++ name)) :
    (rollupWrite fs dir name c).files = (normPath (dir ++ "/" ++ name), c) :: fs.files := by
  unfold rollupWrite
  exact fsWrite_files_fresh _ _ _ h

theorem rollupWriteCss_files (fs : FS) (dir name : String) (css : Option String)
    (h : ∀ kv ∈ fs.files, kv.1 ≠ normPath (dir ++ "/" ++ name)) :
    (rollupWriteCss fs dir name css).files =
      (match css with
        | some c => [(normPath (dir ++ "/" ++ name), c)]
        | none => []) ++ fs.files := by
  cases css with
  | none => rfl
  | some c => exact rollupWrite_files fs dir name c h

theorem rollupWrite_dirs (fs : FS) (dir name c : String) :
    (rollupWrite fs dir name c).dirs = ancestors (normPath dir) ++ fs.dirs := rfl

theorem rollupWriteCss_dirs (fs : FS) (dir name : String) (css : Option String) :
    (rollupWriteCss fs dir name css).dirs =
      (match css with
        | some _ => ancestors (normPath dir)
        | none => []) ++ fs.dirs := by
  cases css with
  | none => rfl
  | some c => rfl

theorem ne_key_of_pair {k c : String} {kv : String × String} (he : kv = (k, c))
    {k2 : String} (hne : k ≠ k2) : kv.1 ≠ k2 := by
  rw [he]
  exact hne

theorem wgFS_files (fs : FS) (gjs : String) (gcss : Option String)
    (ljs : String) (lcss : Option String)
    (hfresh : ∀ kv ∈ fs.files, underEqB ".tmp/microsite" kv.1 = false) :
    (wgFS fs gjs gcss ljs lcss).files = wgEntries gjs gcss ljs lcss ++ fs.files := by
  have hne : ∀ kv ∈ fs.files, ∀ key : String, underEqB ".tmp/microsite" key = true →
      kv.1 ≠ key := by
    intro kv hkv key hkey he
    rw [← he] at hkey
    rw [hfresh kv hkv] at hkey
    exact absurd hkey (by simp)
  have h1 : (rollupWrite fs "./.tmp/microsite" "global.js" gjs).files =
      (normPath ("./.tmp/microsite" ++ "/" ++ "global.js"), gjs) :: fs.files :=
    rollupWrite_files _ _ _ _ (fun kv hkv => hne kv hkv _ (by decide))
  cases gcss with
  | none =>
    cases lcss with
    | none =>
      show (rollupWrite (rollupWrite fs "./.tmp/microsite" "global.js" gjs)
        "./.tmp/microsite" "global.legacy.js" ljs).files = _
      rw [rollupWrite_files _ _ _ _ (fun kv hkv => by
        rw [h1] at hkv
        rcases List.mem_cons.mp hkv with he | hm
        · exact ne_key_of_pair he (by decide)
        · exact hne kv hm _ (by decide)), h1]
      rfl
    | some lc =>
      show (rollupWrite (rollupWrite (rollupWrite fs "./.tmp/microsite" "global.js" gjs)
        "./.tmp/microsite" "global.legacy.js" ljs)
        "./.tmp/microsite" "global.legacy.css" lc).files = _
      have h3 : (rollupWrite (rollupWrite fs "./.tmp/microsite" "global.js" gjs)
          "./.tmp/microsite" "global.legacy.js" ljs).files =
          (normPath ("./.tmp/microsite" ++ "/" ++ "global.legacy.js"), ljs) ::
          ((normPath ("./.tmp/microsite" ++ "/" ++ "global.js"), gjs) :: fs.files) := by
        rw [rollupWrite_files _ _ _ _ (fun kv hkv => by
          rw [h1] at hkv
          rcases List.mem_cons.mp hkv with he | hm
          · exact ne_key_of_pair he (by decide)
          · exact hne kv hm _ (by decide)), h1]
      rw [rollupWrite_files _ _ _ _ (fun kv hkv => by
        rw [h3] at hkv
        rcases List.mem_cons.mp hkv with he | hm
        · exact ne_key_of_pair he (by decide)
        · rcases List.mem_cons.mp hm with he | hm2
          · exact ne_key_of_pair he (by decide)
          · exact hne kv hm2 _ (by decide)), h3]
      rfl
  | some gc =>
    have h2 : (rollupWrite (rollupWrite fs "./.tmp/microsite" "global.js" gjs)
        "./.tmp/microsite" "global.css" gc).files =
        (normPath ("./.tmp/microsite" ++ "/" ++ "global.css"), gc) ::
        ((normPath ("./.tmp/microsite" ++ "/" ++ "global.js"), gjs) :: fs.files) := by
      rw [rollupWrite_files _ _ _ _ (fun kv hkv => by
        rw [h1] at hkv
        rcases List.mem_cons.mp hkv with he | hm
        · exact ne_key_of_pair he (by decide)
        · exact hne kv hm _ (by decide)), h1]
    have h3 : (rollupWrite (rollupWrite (rollupWrite fs "./.tmp/microsite" "global.js" gjs)
        "./.tmp/microsite" "global.css" gc) "./.tmp/microsite" "global.legacy.js" ljs).files =
        (normPath ("./.tmp/microsite" ++ "/" ++ "global.legacy.js"), ljs) ::
        ((normPath ("./.tmp/microsite" ++ "/" ++ "global.css"), gc) ::
        ((normPath ("./.tmp/microsite" ++ "/" ++ "global.js"), gjs) :: fs.files)) := by
      rw [rollupWrite_files _ _ _ _ (fun kv hkv => by
        rw [h2] at hkv
        rcases List.mem_cons.mp hkv with he | hm
        · exact ne_key_of_pair he (by decide)
        · rcases List.mem_cons.mp hm with he | hm2
          · exact ne_key_of_pair he (by decide)
          · exact hne kv hm2 _ (by decide)), h2]
    cases lcss with
    | none =>
      show (rollupWrite (rollupWrite (rollupWrite fs "./.tmp/microsite" "global.js" gjs)
        "./.tmp/microsite" "global.css" gc) "./.tmp/microsite" "global.legacy.js" ljs).files = _
      rw [h3]
      rfl
    | some lc =>
      show (rollupWrite (rollupWrite (rollupWrite (rollupWrite fs
        "./.tmp/microsite" "global.js" gjs) "./.tmp/microsite" "global.css" gc)
        "./.tmp/microsite" "global.legacy.js" ljs)
        "./.tmp/microsite" "global.legacy.css" lc).files = _
      rw [rollupWrite_files _ _ _ _ (fun kv hkv => by
        rw [h3] at hkv
        rcases List.mem_cons.mp hkv with he | hm
        · exact ne_key_of_pair he (by decide)
        · rcases List.mem_cons.mp hm with he | hm2
          · exact ne_key_of_pair he (by decide)
          · rcases List.mem_cons.mp hm2 with he | hm3
            · exact ne_key_of_pair he (by decide)
            · exact hne kv hm3 _ (by decide)), h3]
      rfl

theorem wgFS_dirs (fs : FS) (gjs : String) (gcss : Option String)
    (ljs : String) (lcss : Option String) :
    ∃ nd, (wgFS fs gjs gcss ljs lcss).dirs = nd ++ fs.dirs ∧
      ∀ d ∈ nd, d = ".tmp" ∨ d = ".tmp/microsite" := by
  unfold wgFS
  rw [rollupWriteCss_dirs, rollupWrite_dirs, rollupWriteCss_dirs, rollupWrite_dirs]
  refine ⟨(match lcss with
      | some _ => ancestors (normPath "./.tmp/microsite")
      | none => []) ++ ancestors (normPath "./.tmp/microsite") ++
      (match gcss with
      | some _ => ancestors (normPath "./.tmp/microsite")
      | none => []) ++ ancestors (normPath "./.tmp/microsite"), ?_, ?_⟩
  · cases gcss <;> cases lcss <;> simp
  · intro d hd
    have hanc : ∀ d2 ∈ ancestors (normPath "./.tmp/microsite"),
        d2 = ".tmp" ∨ d2 = ".tmp/microsite" := by
      decide
    rcases List.mem_append.mp hd with hm | hm
    · rcases List.mem_append.mp hm with hm | hm
      · rcases List.mem_append.mp hm with hm | hm
        · cases lcss with
          | none => simp at hm
          | some _ => exact hanc d hm
        · exact hanc d hm
      · cases gcss with
        | none => simp at hm
        | some _ => exact hanc d hm
    · exact hanc d hm

/-- The staged script chunk path of a page, as `writePages` computes it. -/
def stagedJsPath (p : String) : String :=
  normPath (pageOutDir p ++ "/" ++ (chunkStem p ++ ".js"))

/-- The staged extracted-stylesheet path of a page. -/
def stagedCssPath (p : String) : String :=
  normPath (pageOutDir p ++ "/" ++ (chunkStem p ++ ".css"))

/-- The staged page entries after `writePages`, newest first. -/
def wpEntries : List (String × (String × Option String)) → List (String × String)
  | [] => []
  | (p, (js, css)) :: r =>
    wpEntries r ++
      ((match css with
        | some c => [(stagedCssPath p, c)]
        | none => []) ++ [(stagedJsPath p, js)])

theorem writePagesM_ok (cfg : Collab) (st : St) {outs : List (String × Option String)}
    (hc : compilePages cfg (srcView st.fs) (discoverPages st.fs) = .ok outs) :
    writePagesM cfg st =
      .ok { fs := writePageBundles st.fs ((discoverPages st.fs).zip outs), log := st.log } := by
  show ((match compilePages cfg (srcView st.fs) (discoverPages st.fs) with
    | Except.error e => Except.ok { fs := st.fs, log := st.log ++ [e] }
    | Except.ok outs =>
      Except.ok { fs := writePageBundles st.fs ((discoverPages st.fs).zip outs),
                  log := st.log }) : Except String St) = _
  rw [hc]

theorem writePagesM_err (cfg : Collab) (st : St) {e : String}
    (hc : compilePages cfg (srcView st.fs) (discoverPages st.fs) = .error e) :
    writePagesM cfg st = .ok { fs := st.fs, log := st.log ++ [e] } := by
  show ((match compilePages cfg (srcView st.fs) (discoverPages st.fs) with
    | Except.error e => Except.ok { fs := st.fs, log := st.log ++ [e] }
    | Except.ok outs =>
      Except.ok { fs := writePageBundles st.fs ((discoverPages st.fs).zip outs),
                  log := st.log }) : Except String St) = _
  rw [hc]

theorem underB_append (d : String) (X : List Char) :
    underB d ⟨d.data ++ '/' :: X⟩ = true := by
  unfold underB
  apply List.isPrefixOf_iff_prefix.mpr
  show d.data ++ ['/'] <+: d.data ++ '/' :: X
  rw [show (d.data ++ '/' :: X : List Char) = (d.data ++ ['/']) ++ X from by simp]
  exact List.prefix_append _ X

theorem writePageBundles_files (l : List (String × (String × Option String))) (fs : FS)
    (hkeys : ((wpEntries l).map (·.1)).Nodup)
    (hfresh : ∀ k ∈ (wpEntries l).map (·.1), ∀ kv ∈ fs.files, kv.1 ≠ k) :
    (writePageBundles fs l).files = wpEntries l ++ fs.files := by
  induction l generalizing fs with
  | nil => rfl
  | cons pe r ih =>
    obtain ⟨p, js, css⟩ := pe
    cases css with
    | none =>
      have hsplit : wpEntries ((p, (js, none)) :: r) = wpEntries r ++ [(stagedJsPath p, js)] := rfl
      rw [hsplit] at hkeys hfresh
      rw [List.map_append] at hkeys hfresh
      have hnd := List.nodup_append.mp hkeys
      have hjs_mem : stagedJsPath p ∈ (wpEntries r).map (·.1) ++
          ([((stagedJsPath p : String), js)].map (·.1)) := by
        apply List.mem_append_right
        simp
      have hstep1 : (rollupWrite fs (pageOutDir p) (chunkStem p ++ ".js") js).files =
          (stagedJsPath p, js) :: fs.files :=
        rollupWrite_files _ _ _ _ (fun kv hkv => hfresh _ hjs_mem kv hkv)
      have hrec := ih (rollupWrite fs (pageOutDir p) (chunkStem p ++ ".js") js)
        hnd.1
        (by
          intro k hk kv hkv
          rw [hstep1] at hkv
          rcases List.mem_cons.mp hkv with he | hm
          · apply ne_key_of_pair he
            intro hcon
            exact (hnd.2.2 (hcon ▸ hk)) (by simp)
          · exact hfresh k (List.mem_append_left _ hk) kv hm)
      show (writePageBundles (rollupWrite fs (pageOutDir p) (chunkStem p ++ ".js") js) r).files = _
      rw [hrec, hstep1, hsplit]
      simp
    | some c =>
      have hsplit : wpEntries ((p, (js, some c)) :: r) =
          wpEntries r ++ [(stagedCssPath p, c), (stagedJsPath p, js)] := rfl
      rw [hsplit] at hkeys hfresh
      rw [List.map_append] at hkeys hfresh
      have hnd := List.nodup_append.mp hkeys
      have hjs_mem : stagedJsPath p ∈ (wpEntries r).map (·.1) ++
          ([((stagedCssPath p : String), c), (stagedJsPath p, js)].map (·.1)) := by
        apply List.mem_append_right
        simp
      have hcss_mem : stagedCssPath p ∈ (wpEntries r).map (·.1) ++
          ([((stagedCssPath p : String), c), (stagedJsPath p, js)].map (·.1)) := by
        apply List.mem_append_right
        simp
      have hjs_ne_css : stagedJsPath p ≠ stagedCssPath p := by
        intro hcon
        have h2 := hnd.2.1
        simp only [List.map_cons, List.map_nil] at h2
        rw [List.nodup_cons] at h2
        exact h2.1 (by simp [hcon])
      have hstep1 : (rollupWrite fs (pageOutDir p) (chunkStem p ++ ".js") js).files =
          (stagedJsPath p, js) :: fs.files :=
        rollupWrite_files _ _ _ _ (fun kv hkv => hfresh _ hjs_mem kv hkv)
      have hstep2 : (rollupWrite (rollupWrite fs (pageOutDir p) (chunkStem p ++ ".js") js)
          (pageOutDir p) (chunkStem p ++ ".css") c).files =
          (stagedCssPath p, c) :: ((stagedJsPath p, js) :: fs.files) := by
        rw [rollupWrite_files _ _ _ _ (fun kv hkv => by
          rw [hstep1] at hkv
          rcases List.mem_cons.mp hkv with he | hm
          · exact ne_key_of_pair he hjs_ne_css
          · exact hfresh _ hcss_mem kv hm), hstep1]
        rfl
      have hrec := ih (rollupWrite (rollupWrite fs (pageOutDir p) (chunkStem p ++ ".js") js)
          (pageOutDir p) (chunkStem p ++ ".css") c)
        hnd.1
        (by
          intro k hk kv hkv
          rw [hstep2] at hkv
          rcases List.mem_cons.mp hkv with he | hm
          · apply ne_key_of_pair he
            intro hcon
            exact (hnd.2.2 (hcon ▸ hk)) (by simp)
          · rcases List.mem_cons.mp hm with he | hm2
            · apply ne_key_of_pair he
              intro hcon
              exact (hnd.2.2 (hcon ▸ hk)) (by simp)
            · exact hfresh k (List.mem_append_left _ hk) kv hm2)
      show (writePageBundles (rollupWrite (rollupWrite fs (pageOutDir p)
        (chunkStem p ++ ".js") js) (pageOutDir p) (chunkStem p ++ ".css") c) r).files = _
      rw [hrec, hstep2, hsplit]
      simp

theorem writePageBundles_dirs (l : List (String × (String × Option String))) (fs : FS)
    (Q : String → Prop)
    (hanc : ∀ pe ∈ l, ∀ a ∈ ancestors (normPath (pageOutDir pe.1)), Q a) :
    ∃ nd, (writePageBundles fs l).dirs = nd ++ fs.dirs ∧
      ∀ d ∈ nd, Q d := by
  induction l generalizing fs with
  | nil => exact ⟨[], rfl, by simp⟩
  | cons pe r ih =>
    obtain ⟨p, js, css⟩ := pe
    have hancp : ∀ a ∈ ancestors (normPath (pageOutDir p)), Q a :=
      hanc (p, (js, css)) (by simp)
    have hancr : ∀ pe2 ∈ r, ∀ a ∈ ancestors (normPath (pageOutDir pe2.1)), Q a :=
      fun pe2 hpe2 => hanc pe2 (List.mem_cons_of_mem _ hpe2)
    cases css with
    | none =>
      obtain ⟨nd, hnd, hp⟩ := ih (rollupWrite fs (pageOutDir p)
        (chunkStem p ++ ".js") js) hancr
      refine ⟨nd ++ ancestors (normPath (pageOutDir p)), ?_, ?_⟩
      · show (writePageBundles (rollupWrite fs (pageOutDir p)
          (chunkStem p ++ ".js") js) r).dirs = _
        rw [hnd, rollupWrite_dirs]
        simp
      · intro d hd
        rcases List.mem_append.mp hd with hm | hm
        · exact hp d hm
        · exact hancp d hm
    | some c =>
      obtain ⟨nd, hnd, hp⟩ := ih (rollupWrite (rollupWrite fs (pageOutDir p)
        (chunkStem p ++ ".js") js) (pageOutDir p) (chunkStem p ++ ".css") c) hancr
      refine ⟨nd ++ (ancestors (normPath (pageOutDir p)) ++
        ancestors (normPath (pageOutDir p))), ?_, ?_⟩
      · show (writePageBundles (rollupWrite (rollupWrite fs (pageOutDir p)
          (chunkStem p ++ ".js") js) (pageOutDir p) (chunkStem p ++ ".css") c) r).dirs = _
        rw [hnd, rollupWrite_dirs, rollupWrite_dirs]
        simp
      · intro d hd
        rcases List.mem_append.mp hd with hm | hm
        · exact hp d hm
        · rcases List.mem_append.mp hm with hm | hm
          · exact hancp d hm
          · exact hancp d hm

theorem find?_key_append {l1 l2 : List (String × String)} {q : String}
    (h : ∀ kv ∈ l1, kv.1 ≠ q) :
    (l1 ++ l2).find? (fun kv => kv.1 == q) = l2.find? (fun kv => kv.1 == q) := by
  induction l1 with
  | nil => rfl
  | cons kv t ih =>
    rw [List.cons_append,
      List.find?_cons_of_neg _ (by simp only [beq_iff_eq]; exact h kv (by simp))]
    exact ih (fun kv2 hkv2 => h kv2 (List.mem_cons_of_mem _ hkv2))

theorem dirExistsB_of_file (fs : FS) (d : String) {kv : String × String}
    (hm : kv ∈ fs.files) (hu : underB (normPath d) kv.1 = true) :
    dirExistsB fs d = true := by
  unfold dirExistsB
  have : fs.files.any (fun kv => underB (normPath d) kv.1) = true :=
    List.any_eq_true.mpr ⟨kv, hm, hu⟩
  rw [this]
  simp

theorem dirExistsB_of_dir (fs : FS) (d : String) {x : String}
    (hm : x ∈ fs.dirs) (hu : underEqB (normPath d) x = true) :
    dirExistsB fs d = true := by
  unfold dirExistsB
  have : fs.dirs.any (fun x => underEqB (normPath d) x) = true :=
    List.any_eq_true.mpr ⟨x, hm, hu⟩
  rw [this]
  simp

theorem endsWith_js_append (X : List Char) :
    endsWithB ".js" ⟨X ++ ".js".data⟩ = true := by
  unfold endsWithB
  show List.isSuffixOf _ _ = true
  apply List.isSuffixOf_iff_suffix.mpr
  exact ⟨X, rfl⟩

theorem endsWith_css_append (X : List Char) :
    endsWithB ".css" ⟨X ++ ".css".data⟩ = true := by
  unfold endsWithB
  show List.isSuffixOf _ _ = true
  apply List.isSuffixOf_iff_suffix.mpr
  exact ⟨X, rfl⟩

theorem endsWith_css_of_js (X : List Char) :
    endsWithB ".css" ⟨X ++ ".js".data⟩ = false := by
  unfold endsWithB
  show List.isSuffixOf _ _ = false
  unfold List.isSuffixOf
  have hrev : (X ++ ".js".data).reverse = 's' :: 'j' :: '.' :: X.reverse := by
    simp
  rw [hrev]
  rfl

theorem endsWith_js_of_css (X : List Char) :
    endsWithB ".js" ⟨X ++ ".css".data⟩ = false := by
  unfold endsWithB
  show List.isSuffixOf _ _ = false
  unfold List.isSuffixOf
  have hrev : (X ++ ".css".data).reverse = 's' :: 's' :: 'c' :: '.' :: X.reverse := by
    simp
  rw [hrev]
  rfl

/-- A path inside `.tmp/microsite/pages` is inside `.tmp/microsite`. -/
theorem under_pages_under_tmpms {k : String}
    (h : underB ".tmp/microsite/pages" k = true) :
    underEqB ".tmp/microsite" k = true := by
  rw [underB_iff] at h
  unfold underEqB
  have h2 : underB ".tmp/microsite" k = true := by
    rw [underB_iff]
    have hpre : ((".tmp/microsite".data : List Char) ++ ['/']) <+:
        (".tmp/microsite/pages".data ++ ['/']) := ⟨"pages/".data, by decide⟩
    exact hpre.trans h
  rw [h2]
  simp

/-- A path inside `.tmp/microsite` is inside `.tmp`. -/
theorem under_tmpms_under_tmp {k : String}
    (h : underEqB ".tmp/microsite" k = true) :
    underB ".tmp" k = true := by
  rcases Bool.or_eq_true_iff.mp h with hk | hk
  · rw [eq_of_beq hk]
    decide
  · rw [underB_iff] at hk ⊢
    have hpre : ((".tmp".data : List Char) ++ ['/']) <+:
        (".tmp/microsite".data ++ ['/']) := ⟨"microsite/".data, by decide⟩
    exact hpre.trans hk

theorem ancestors_mem {q a : String} (ha : a ∈ ancestors q) :
    ∃ i, i < (compsL q.data).length ∧ a = ⟨joinSlash ((compsL q.data).take (i + 1))⟩ := by
  unfold ancestors at ha
  obtain ⟨i, hi, he⟩ := List.mem_map.mp ha
  exact ⟨i, List.mem_range.mp hi, he.symm⟩

theorem ancestors_prop2 {cs : List (List Char)} {q : String}
    (hq : compsL q.data = ".tmp".data :: "microsite".data :: cs) :
    ∀ a ∈ ancestors q, a = ".tmp" ∨ underEqB ".tmp/microsite" a = true := by
  intro a ha
  obtain ⟨i, hi, he⟩ := ancestors_mem ha
  rw [hq] at hi he
  match i with
  | 0 => exact Or.inl (by rw [he]; rfl)
  | 1 => exact Or.inr (by rw [he]; rfl)
  | Nat.succ (Nat.succ j) =>
    right
    have htake : (".tmp".data :: "microsite".data :: cs).take (j + 2 + 1) =
        ".tmp".data :: "microsite".data :: cs.take (j + 1) := rfl
    rw [htake] at he
    have hcs : cs.take (j + 1) ≠ [] := by
      have hj : j + 2 < cs.length + 2 := by simpa using hi
      have : cs ≠ [] := by
        intro h0
        rw [h0] at hj
        simp only [List.length_nil] at hj
        omega
      cases cs with
      | nil => exact absurd rfl this
      | cons c0 r => simp
    have hjoin : joinSlash (".tmp".data :: "microsite".data :: cs.take (j + 1)) =
        ".tmp/microsite".data ++ '/' :: joinSlash (cs.take (j + 1)) := by
      rw [joinSlash_cons _ (by simp), joinSlash_cons _ hcs]
      rfl
    rw [he, hjoin]
    unfold underEqB
    rw [underB_append]
    simp

theorem ancestors_prop_dist {cs : List (List Char)} {q : String}
    (hq : compsL q.data = "dist".data :: cs) :
    ∀ a ∈ ancestors q, underEqB "dist" a = true := by
  intro a ha
  obtain ⟨i, hi, he⟩ := ancestors_mem ha
  rw [hq] at hi he
  match i with
  | 0 => rw [he]; rfl
  | Nat.succ j =>
    have htake : ("dist".data :: cs).take (j + 1 + 1) = "dist".data :: cs.take (j + 1) := rfl
    rw [htake] at he
    have hcs : cs.take (j + 1) ≠ [] := by
      have hj : j + 1 < cs.length + 1 := by simpa using hi
      cases cs with
      | nil => simp at hj
      | cons c0 r => simp
    have hjoin : joinSlash ("dist".data :: cs.take (j + 1)) =
        "dist".data ++ '/' :: joinSlash (cs.take (j + 1)) :=
      joinSlash_cons _ hcs
    rw [he, hjoin]
    unfold underEqB
    rw [show ("dist".data : List Char) ++ '/' :: joinSlash (cs.take (j + 1)) =
      ("dist" : String).data ++ '/' :: joinSlash (cs.take (j + 1)) from rfl, underB_append]
    simp

/-- Everything the render/output tail needs to know about one discovered
page: its staged chunk paths, their `getName` images, the final HTML path,
and where the directory creations land. -/
theorem page_staged_facts {p : String} (hpage : isPagePath p = true) :
    ∃ stem : List Char,
      p.data = "src/pages/".data ++ (stem ++ ".tsx".data) ∧
      stagedJsPath p = ⟨".tmp/microsite/pages/".data ++ (stem ++ ".js".data)⟩ ∧
      stagedCssPath p = ⟨".tmp/microsite/pages/".data ++ (stem ++ ".css".data)⟩ ∧
      getName (stagedJsPath p) = ⟨'/' :: stem⟩ ∧
      getName (stagedCssPath p) = ⟨'/' :: stem⟩ ∧
      specHtmlPath (stagedJsPath p) = ⟨"dist/".data ++ (stem ++ ".html".data)⟩ ∧
      normPath ("./dist/" ++ (⟨'/' :: stem⟩ : String) ++ ".html") =
        ⟨"dist/".data ++ (stem ++ ".html".data)⟩ ∧
      (∀ a ∈ ancestors (normPath (pageOutDir p)),
        a = ".tmp" ∨ underEqB ".tmp/microsite" a = true) ∧
      (∀ a ∈ ancestors (normPath ("./dist/" ++ dirnameJS ⟨'/' :: stem⟩)),
        underEqB "dist" a = true) := by
  obtain ⟨ds, c, hp, hclean, hc, hcs⟩ := page_shape hpage
  have hds : ∀ d ∈ ds, cleanComp d :=
    fun d hd => cleanComp_of_shape (hclean d (List.mem_append_left _ hd))
  have hlcl : '/' ∉ c ++ ".tsx".data :=
    (hclean _ (List.mem_append_right _ (by simp))).2.2
  have hnos : ∀ d ∈ ds ++ [c ++ ".tsx".data], '/' ∉ d := fun d hd => (hclean d hd).2.2
  have hbjs : cleanComp (c ++ ".js".data) := by
    refine ⟨by simp, ?_, ?_⟩
    · intro he
      have h3 := congrArg List.length he
      simp [List.length_append] at h3
    · intro hm
      rcases List.mem_append.mp hm with h | h
      · exact hcs h
      · revert h
        decide
  have hbcss : cleanComp (c ++ ".css".data) := by
    refine ⟨by simp, ?_, ?_⟩
    · intro he
      have h3 := congrArg List.length he
      simp [List.length_append] at h3
    · intro hm
      rcases List.mem_append.mp hm with h | h
      · exact hcs h
      · revert h
        decide
  have hlast : lastComp (joinSlash (ds ++ [c])) ≠ [] := by
    rw [lastComp_joinSlash_last hcs]
    exact hc
  have hjs : stagedJsPath p =
      ⟨".tmp/microsite/pages/".data ++ joinSlash (ds ++ [c ++ ".js".data])⟩ := by
    unfold stagedJsPath
    rw [pageOutDir_eq hp hnos, chunkStem_eq hp hlcl hc]
    exact normPath_staged hds hbjs
  have hcss : stagedCssPath p =
      ⟨".tmp/microsite/pages/".data ++ joinSlash (ds ++ [c ++ ".css".data])⟩ := by
    unfold stagedCssPath
    rw [pageOutDir_eq hp hnos, chunkStem_eq hp hlcl hc]
    exact normPath_staged hds hbcss
  have f1 : stagedJsPath p =
      ⟨".tmp/microsite/pages/".data ++ (joinSlash (ds ++ [c]) ++ ".js".data)⟩ := by
    rw [hjs, joinSlash_last_append]
  have f2 : stagedCssPath p =
      ⟨".tmp/microsite/pages/".data ++ (joinSlash (ds ++ [c]) ++ ".css".data)⟩ := by
    rw [hcss, joinSlash_last_append]
  refine ⟨joinSlash (ds ++ [c]), ?_, f1, f2, ?_, ?_, ?_, normPath_dist_html hds hcs, ?_, ?_⟩
  · rw [hp, joinSlash_last_append]
  · rw [f1]
    exact getName_staged hlast (by decide) (by decide)
  · rw [f2]
    exact getName_staged hlast (by decide) (by decide)
  · rw [f1]
    exact specHtmlPath_eq _
  · -- directory creations of `writePages` stay inside `.tmp`
    have hq : compsL (normPath (pageOutDir p)).data =
        ".tmp".data :: "microsite".data :: ("pages".data :: ds) := by
      rw [compsL_normPath, pageOutDir_eq hp hnos]
      show compsL (joinSlash ([['.'], ".tmp".data, "microsite".data, "pages".data] ++ ds)) = _
      rw [compsL_joinSlash (by
        intro d hd
        rcases List.mem_append.mp hd with hd | hd
        · simp only [List.mem_cons, List.not_mem_nil, or_false] at hd
          rcases hd with h | h | h | h <;> (subst h; decide)
        · exact (hds d hd).2.2)]
      rw [List.filter_append,
        show ([['.'], ".tmp".data, "microsite".data, "pages".data] : List (List Char)).filter
          (fun c => !(c.isEmpty || c == ['.'])) =
          [".tmp".data, "microsite".data, "pages".data] from by decide,
        List.filter_eq_self.mpr (fun a ha => keep_of_cleanComp (hds a ha))]
      rfl
    exact ancestors_prop2 hq
  · -- the output `mkdir` of this page stays inside `dist`
    rcases eq_or_ne ds [] with hds0 | hdsne
    · have hstem : joinSlash (ds ++ [c]) = c := by rw [hds0]; rfl
      have hdn : dirnameJS ⟨'/' :: joinSlash (ds ++ [c])⟩ = "/" := by
        unfold dirnameJS
        rw [hstem]
        have hsp : splitSlash ('/' :: c) = [[], c] := by
          show splitSlash ([] ++ '/' :: c) = _
          rw [splitSlash_append, splitSlash_no_slash hcs]
          rfl
        show (if (joinSlash (splitSlash ('/' :: c)).dropLast).isEmpty then
          (if ('/' :: c : List Char).head? = some '/' then "/" else ".")
          else ⟨joinSlash (splitSlash ('/' :: c)).dropLast⟩) = "/"
        rw [hsp]
        rfl
      rw [hdn]
      have hq : compsL (normPath ("./dist/" ++ ("/" : String))).data = "dist".data :: [] := by
        rw [compsL_normPath]
        decide
      exact ancestors_prop_dist hq
    · have hsp : splitSlash ('/' :: joinSlash (ds ++ [c])) = [] :: (ds ++ [c]) := by
        show splitSlash ([] ++ '/' :: joinSlash (ds ++ [c])) = _
        rw [splitSlash_append,
          splitSlash_joinSlash (by simp) (by
            intro d hd
            rcases List.mem_append.mp hd with hd | hd
            · exact (hds d hd).2.2
            · rw [List.mem_singleton.mp hd]; exact hcs)]
        rfl
      have hdn : dirnameJS ⟨'/' :: joinSlash (ds ++ [c])⟩ = ⟨'/' :: joinSlash ds⟩ := by
        unfold dirnameJS
        show (if (joinSlash (splitSlash ('/' :: joinSlash (ds ++ [c]))).dropLast).isEmpty then
          (if ('/' :: joinSlash (ds ++ [c]) : List Char).head? = some '/' then "/" else ".")
          else ⟨joinSlash (splitSlash ('/' :: joinSlash (ds ++ [c]))).dropLast⟩) = _
        rw [hsp, show (([] :: (ds ++ [c])) : List (List Char)) = ([] :: ds) ++ [c] from by simp,
          List.dropLast_concat, joinSlash_cons [] hdsne]
        rfl
      rw [hdn]
      have hq : compsL (normPath ("./dist/" ++ (⟨'/' :: joinSlash ds⟩ : String))).data =
          "dist".data :: ds := by
        rw [compsL_normPath]
        have hdata : (("./dist/" : String) ++ (⟨'/' :: joinSlash ds⟩ : String)).data =
            ".".data ++ '/' :: ("dist".data ++ '/' :: ([] ++ '/' :: joinSlash ds)) := by
          rw [strData_append]
          rfl
        rw [hdata, compsL_append, compsL_append, compsL_append,
          compsL_joinSlash (fun d hd => (hds d hd).2.2),
          List.filter_eq_self.mpr (fun a ha => keep_of_cleanComp (hds a ha))]
        rfl
      exact ancestors_prop_dist hq

theorem strMk_inj {a b : List Char} (h : (⟨a⟩ : String) = ⟨b⟩) : a = b :=
  congrArg String.data h

theorem key_ne_js_css (s t : List Char) :
    (⟨".tmp/microsite/pages/".data ++ (s ++ ".js".data)⟩ : String) ≠
      ⟨".tmp/microsite/pages/".data ++ (t ++ ".css".data)⟩ := by
  intro h
  have hj := endsWith_css_of_js (".tmp/microsite/pages/".data ++ s)
  have hcx := endsWith_css_append (".tmp/microsite/pages/".data ++ t)
  rw [show ((".tmp/microsite/pages/".data ++ s) ++ ".js".data : List Char) =
      ".tmp/microsite/pages/".data ++ (s ++ ".js".data) from List.append_assoc _ _ _,
    h, ← List.append_assoc] at hj
  rw [hj] at hcx
  exact absurd hcx (by simp)

theorem stagedJsPath_inj {p q : String} (hp : isPagePath p = true)
    (hq : isPagePath q = true) (h : stagedJsPath p = stagedJsPath q) : p = q := by
  obtain ⟨s, hps, f1p, _⟩ := page_staged_facts hp
  obtain ⟨t, hqs, f1q, _⟩ := page_staged_facts hq
  rw [f1p, f1q] at h
  have hst : s = t :=
    List.append_cancel_right (List.append_cancel_left (strMk_inj h))
  have hdata : p.data = q.data := by rw [hps, hqs, hst]
  cases p; cases q; exact congrArg String.mk hdata

theorem stagedCssPath_inj {p q : String} (hp : isPagePath p = true)
    (hq : isPagePath q = true) (h : stagedCssPath p = stagedCssPath q) : p = q := by
  obtain ⟨s, hps, _, f2p, _⟩ := page_staged_facts hp
  obtain ⟨t, hqs, _, f2q, _⟩ := page_staged_facts hq
  rw [f2p, f2q] at h
  have hst : s = t :=
    List.append_cancel_right (List.append_cancel_left (strMk_inj h))
  have hdata : p.data = q.data := by rw [hps, hqs, hst]
  cases p; cases q; exact congrArg String.mk hdata

theorem stagedJs_ne_css {p q : String} (hp : isPagePath p = true)
    (hq : isPagePath q = true) : stagedJsPath p ≠ stagedCssPath q := by
  obtain ⟨s, _, f1p, _⟩ := page_staged_facts hp
  obtain ⟨t, _, _, f2q, _⟩ := page_staged_facts hq
  rw [f1p, f2q]
  exact key_ne_js_css s t

theorem stagedJsPath_under {p : String} (hp : isPagePath p = true) :
    underB ".tmp/microsite/pages" (stagedJsPath p) = true := by
  obtain ⟨s, _, f1, _⟩ := page_staged_facts hp
  rw [f1]
  exact underB_append ".tmp/microsite/pages" (s ++ ".js".data)

theorem stagedCssPath_under {p : String} (hp : isPagePath p = true) :
    underB ".tmp/microsite/pages" (stagedCssPath p) = true := by
  obtain ⟨s, _, _, f2, _⟩ := page_staged_facts hp
  rw [f2]
  exact underB_append ".tmp/microsite/pages" (s ++ ".css".data)

theorem stagedJsPath_norm (p : String) : normPath (stagedJsPath p) = stagedJsPath p :=
  normPath_idem _

theorem stagedCssPath_norm (p : String) : normPath (stagedCssPath p) = stagedCssPath p :=
  normPath_idem _

theorem stagedJsPath_ne_empty {p : String} (hp : isPagePath p = true) :
    stagedJsPath p ≠ "" := by
  obtain ⟨s, _, f1, _⟩ := page_staged_facts hp
  rw [f1]
  intro h
  have := strMk_inj h
  simp at this

theorem stagedCssPath_ne_empty {p : String} (hp : isPagePath p = true) :
    stagedCssPath p ≠ "" := by
  obtain ⟨s, _, _, f2, _⟩ := page_staged_facts hp
  rw [f2]
  intro h
  have := strMk_inj h
  simp at this

/-- Every key written by `writePages` is a staged chunk path of one of the
processed pages. -/
theorem wpEntries_key_mem {l : List (String × (String × Option String))} {k : String}
    (hk : k ∈ (wpEntries l).map (·.1)) :
    ∃ pe ∈ l, k = stagedJsPath pe.1 ∨ k = stagedCssPath pe.1 := by
  induction l with
  | nil => simp [wpEntries] at hk
  | cons pe r ih =>
    obtain ⟨p, js, css⟩ := pe
    cases css with
    | none =>
      rw [show wpEntries ((p, (js, none)) :: r) = wpEntries r ++ [(stagedJsPath p, js)]
          from rfl, List.map_append] at hk
      rcases List.mem_append.mp hk with hm | hm
      · obtain ⟨pe2, hpe2, ho⟩ := ih hm
        exact ⟨pe2, List.mem_cons_of_mem _ hpe2, ho⟩
      · simp only [List.map_cons, List.map_nil, List.mem_singleton] at hm
        exact ⟨(p, (js, none)), by simp, Or.inl hm⟩
    | some c =>
      rw [show wpEntries ((p, (js, some c)) :: r) =
          wpEntries r ++ [(stagedCssPath p, c), (stagedJsPath p, js)] from rfl,
        List.map_append] at hk
      rcases List.mem_append.mp hk with hm | hm
      · obtain ⟨pe2, hpe2, ho⟩ := ih hm
        exact ⟨pe2, List.mem_cons_of_mem _ hpe2, ho⟩
      · simp only [List.map_cons, List.map_nil, List.mem_cons, List.not_mem_nil,
          or_false] at hm
        rcases hm with hm | hm
        · exact ⟨(p, (js, some c)), by simp, Or.inr hm⟩
        · exact ⟨(p, (js, some c)), by simp, Or.inl hm⟩

theorem wpEntries_keys_nodup {l : List (String × (String × Option String))}
    (hpages : ∀ pe ∈ l, isPagePath pe.1 = true)
    (hnd : (l.map (·.1)).Nodup) :
    ((wpEntries l).map (·.1)).Nodup := by
  induction l with
  | nil => simp [wpEntries]
  | cons pe r ih =>
    obtain ⟨p, js, css⟩ := pe
    have hpp : isPagePath p = true := hpages (p, (js, css)) (by simp)
    have hpr : ∀ pe2 ∈ r, isPagePath pe2.1 = true :=
      fun pe2 h2 => hpages pe2 (List.mem_cons_of_mem _ h2)
    have hndr : (r.map (·.1)).Nodup := (List.nodup_cons.mp hnd).2
    have hpnotin : p ∉ r.map (·.1) := by
      have := (List.nodup_cons.mp hnd).1
      simpa using this
    have hdisj : ∀ k ∈ (wpEntries r).map (·.1),
        k ≠ stagedJsPath p ∧ k ≠ stagedCssPath p := by
      intro k hk
      obtain ⟨pe2, hpe2, ho⟩ := wpEntries_key_mem hk
      have hp2 : isPagePath pe2.1 = true := hpr pe2 hpe2
      have hne : pe2.1 ≠ p := by
        intro he
        exact hpnotin (he ▸ List.mem_map_of_mem (·.1) hpe2)
      constructor
      · intro hkj
        rcases ho with ho | ho
        · exact hne (stagedJsPath_inj hp2 hpp (ho ▸ hkj))
        · exact stagedJs_ne_css hpp hp2 (hkj.symm.trans ho)
      · intro hkc
        rcases ho with ho | ho
        · exact stagedJs_ne_css hp2 hpp (ho.symm.trans hkc)
        · exact hne (stagedCssPath_inj hp2 hpp (ho ▸ hkc))
    cases css with
    | none =>
      rw [show wpEntries ((p, (js, none)) :: r) = wpEntries r ++ [(stagedJsPath p, js)]
          from rfl, List.map_append]
      apply List.nodup_append.mpr
      refine ⟨ih hpr hndr, by simp, ?_⟩
      intro k hk
      simp only [List.map_cons, List.map_nil, List.mem_singleton]
      exact (hdisj k hk).1
    | some c =>
      rw [show wpEntries ((p, (js, some c)) :: r) =
          wpEntries r ++ [(stagedCssPath p, c), (stagedJsPath p, js)] from rfl,
        List.map_append]
      apply List.nodup_append.mpr
      refine ⟨ih hpr hndr, ?_, ?_⟩
      · simp only [List.map_cons, List.map_nil]
        refine List.nodup_cons.mpr ⟨?_, by simp⟩
        simp only [List.mem_singleton]
        intro he
        exact stagedJs_ne_css hpp hpp he.symm
      · intro k hk
        simp only [List.map_cons, List.map_nil, List.mem_cons, List.not_mem_nil, or_false]
        intro hor
        rcases hor with he | he
        · exact (hdisj k hk).2 he
        · exact (hdisj k hk).1 he

theorem filter_of_imp {α : Type} (l : List α) (a b : α → Bool)
    (h : ∀ x, b x = true → a x = true) : (l.filter a).filter b = l.filter b := by
  induction l with
  | nil => rfl
  | cons x t ih =>
    cases hb : b x with
    | true =>
      rw [List.filter_cons_of_pos (h x hb), List.filter_cons_of_pos hb,
        List.filter_cons_of_pos hb, ih]
    | false =>
      cases ha : a x with
      | true => rw [List.filter_cons_of_pos ha, List.filter_cons_of_neg (by simp [hb]),
          List.filter_cons_of_neg (by simp [hb]), ih]
      | false => rw [List.filter_cons_of_neg (by simp [ha]),
          List.filter_cons_of_neg (by simp [hb]), ih]

theorem srcEq_of_isPagePath {k : String} (h : isPagePath k = true) :
    underEqB "src" k = true := by
  unfold isPagePath at h
  simp only [Bool.and_eq_true] at h
  obtain ⟨t, ht⟩ := List.isPrefixOf_iff_prefix.mp h.1.1
  unfold underEqB underB
  apply Bool.or_eq_true_iff.mpr
  right
  apply List.isPrefixOf_iff_prefix.mpr
  rw [← ht]
  exact ⟨"pages/".data ++ t, by rw [← List.append_assoc]; rfl⟩

theorem srcEq_false_of_tmp {k : String} (h : underB ".tmp" k = true) :
    underEqB "src" k = false := by
  obtain ⟨t, ht⟩ := List.isPrefixOf_iff_prefix.mp h
  unfold underEqB underB
  apply Bool.or_eq_false_iff.mpr
  constructor
  · cases hb : (k == "src") with
    | false => rfl
    | true =>
      have hd := congrArg String.data (eq_of_beq hb)
      rw [← ht] at hd
      exact absurd hd (by simp)
  · cases hb : (("src".data ++ ['/']).isPrefixOf k.data) with
    | false => rfl
    | true =>
      have hu := List.isPrefixOf_iff_prefix.mp hb
      rcases List.prefix_or_prefix_of_prefix hu ⟨t, ht⟩ with h2 | h2
      · exact absurd h2 (by decide)
      · exact absurd h2 (by decide)

/-- A write outside `src` does not change the bundler's view of the source
tree. -/
theorem srcView_fsWrite (fs : FS) (p c : String)
    (h : underEqB "src" (normPath p) = false) :
    srcView (fsWrite fs p c) = srcView fs := by
  unfold srcView fsWrite
  simp only
  rw [List.filter_cons_of_neg (by simp [h]),
    filter_of_imp fs.files (fun kv => kv.1 != normPath p)
      (fun kv => underEqB "src" kv.1) (by
        intro kv hkv
        have hkv2 : underEqB "src" kv.1 = true := hkv
        show (kv.1 != normPath p) = true
        simp only [bne_iff_ne, ne_eq]
        intro he
        rw [he, h] at hkv2
        exact absurd hkv2 (by simp))]

theorem srcView_mkdirRec (fs : FS) (p : String)
    (h : ∀ a ∈ ancestors (normPath p), underEqB "src" a = false) :
    srcView (mkdirRec fs p) = srcView fs := by
  unfold srcView mkdirRec
  simp only
  refine congrArg₂ Prod.mk rfl ?_
  rw [List.filter_append, List.filter_eq_nil_iff.mpr (by
    intro a ha
    simp [h a ha])]
  rfl

theorem srcView_rollupWrite (fs : FS) (dir name c : String)
    (hkey : underEqB "src" (normPath (dir ++ "/" ++ name)) = false)
    (hanc : ∀ a ∈ ancestors (normPath dir), underEqB "src" a = false) :
    srcView (rollupWrite fs dir name c) = srcView fs := by
  unfold rollupWrite
  rw [srcView_fsWrite _ _ _ hkey, srcView_mkdirRec _ _ hanc]

theorem srcView_rollupWriteCss (fs : FS) (dir name : String) (css : Option String)
    (hkey : underEqB "src" (normPath (dir ++ "/" ++ name)) = false)
    (hanc : ∀ a ∈ ancestors (normPath dir), underEqB "src" a = false) :
    srcView (rollupWriteCss fs dir name css) = srcView fs := by
  cases css with
  | none => rfl
  | some c => exact srcView_rollupWrite fs dir name c hkey hanc

theorem srcView_wgFS (fs : FS) (gjs : String) (gcss : Option String)
    (ljs : String) (lcss : Option String) :
    srcView (wgFS fs gjs gcss ljs lcss) = srcView fs := by
  unfold wgFS
  rw [srcView_rollupWriteCss _ _ _ _ (by decide) (by decide),
    srcView_rollupWrite _ _ _ _ (by decide) (by decide),
    srcView_rollupWriteCss _ _ _ _ (by decide) (by decide),
    srcView_rollupWrite _ _ _ _ (by decide) (by decide)]

theorem srcView_writePageBundles (fs : FS) (l : List (String × (String × Option String)))
    (hl : ∀ pe ∈ l, isPagePath pe.1 = true) :
    srcView (writePageBundles fs l) = srcView fs := by
  induction l generalizing fs with
  | nil => rfl
  | cons pe r ih =>
    obtain ⟨p, js, css⟩ := pe
    have hpp : isPagePath p = true := hl (p, (js, css)) (by simp)
    have hkeyj : underEqB "src" (normPath (pageOutDir p ++ "/" ++ (chunkStem p ++ ".js"))) =
        false :=
      srcEq_false_of_tmp (under_tmpms_under_tmp (under_pages_under_tmpms
        (stagedJsPath_under hpp)))
    have hkeyc : underEqB "src" (normPath (pageOutDir p ++ "/" ++ (chunkStem p ++ ".css"))) =
        false :=
      srcEq_false_of_tmp (under_tmpms_under_tmp (under_pages_under_tmpms
        (stagedCssPath_under hpp)))
    have hanc : ∀ a ∈ ancestors (normPath (pageOutDir p)), underEqB "src" a = false := by
      obtain ⟨s, _, _, _, _, _, _, _, hanc2, _⟩ := page_staged_facts hpp
      intro a ha
      rcases hanc2 a ha with he | hu
      · rw [he]; decide
      · exact srcEq_false_of_tmp (under_tmpms_under_tmp hu)
    show srcView (writePageBundles (rollupWriteCss
      (rollupWrite fs (pageOutDir p) (chunkStem p ++ ".js") js)
      (pageOutDir p) (chunkStem p ++ ".css") css) r) = srcView fs
    rw [ih _ (fun pe2 h2 => hl pe2 (List.mem_cons_of_mem _ h2)),
      srcView_rollupWriteCss _ _ _ _ hkeyc hanc, srcView_rollupWrite _ _ _ _ hkeyj hanc]

theorem discoverPages_eq_src (fs : FS) :
    discoverPages fs = ((srcView fs).1.map (·.1)).filter isPagePath := by
  unfold discoverPages srcView
  simp only
  rw [map_fst_filter_key fs.files (fun k => underEqB "src" k),
    filter_of_imp (fs.files.map (·.1)) (fun k => underEqB "src" k) isPagePath
      (fun k hk => srcEq_of_isPagePath hk)]

theorem renderLoop_ok (cfg : Collab) (g : String) (hasG : Bool)
    (styles : List (String × String)) (pages : List (String × String))
    (hr : ∀ page ∈ pages, ∃ h, cfg.renderPage (renderReqOf g hasG styles page) = .ok h) :
    ∃ outs, renderLoop cfg g hasG styles pages = (some outs, []) ∧
      List.Forall₂ (fun (page : String × String) (out : String × String) =>
        out.1 = page.1 ∧ ∃ h, cfg.renderPage (renderReqOf g hasG styles page) = .ok h ∧
          out.2 = "<!DOCTYPE html>\n" ++ h) pages outs := by
  induction pages with
  | nil => exact ⟨[], rfl, List.Forall₂.nil⟩
  | cons page r ih =>
    obtain ⟨h, hh⟩ := hr page (by simp)
    obtain ⟨outs, hout, hfa⟩ := ih (fun p2 h2 => hr p2 (List.mem_cons_of_mem _ h2))
    refine ⟨(page.1, "<!DOCTYPE html>\n" ++ h) :: outs, ?_, ?_⟩
    · show (match cfg.renderPage (renderReqOf g hasG styles page) with
        | Except.error e => (none, ["Error building " ++ page.1, e])
        | Except.ok html =>
          match renderLoop cfg g hasG styles r with
          | (some outs, lg) => (some ((page.1, "<!DOCTYPE html>\n" ++ html) :: outs), lg)
          | (none, lg) => (none, lg)) = _
      rw [hh, hout]
    · exact List.Forall₂.cons ⟨rfl, h, hh, rfl⟩ hfa

theorem renderLoop_abort (cfg : Collab) (g : String) (hasG : Bool)
    (styles : List (String × String)) (pages : List (String × String))
    (ha : (renderLoop cfg g hasG styles pages).1 = none) :
    ∃ page ∈ pages, ∃ e, cfg.renderPage (renderReqOf g hasG styles page) = .error e ∧
      (renderLoop cfg g hasG styles pages).2 = ["Error building " ++ page.1, e] := by
  induction pages with
  | nil => exact absurd ha (by simp [renderLoop])
  | cons page r ih =>
    have hstep : renderLoop cfg g hasG styles (page :: r) =
        (match cfg.renderPage (renderReqOf g hasG styles page) with
          | Except.error e => (none, ["Error building " ++ page.1, e])
          | Except.ok html =>
            match renderLoop cfg g hasG styles r with
            | (some outs, lg) => (some ((page.1, "<!DOCTYPE html>\n" ++ html) :: outs), lg)
            | (none, lg) => (none, lg)) := rfl
    cases hrp : cfg.renderPage (renderReqOf g hasG styles page) with
    | error e =>
      refine ⟨page, by simp, e, hrp, ?_⟩
      rw [hstep, hrp]
    | ok html =>
      rw [hstep, hrp] at ha ⊢
      cases hrl : renderLoop cfg g hasG styles r with
      | mk o lg =>
        cases o with
        | some outs => rw [hrl] at ha; exact absurd ha (by simp)
        | none =>
          have har : (renderLoop cfg g hasG styles r).1 = none := by rw [hrl]
          obtain ⟨p2, hp2, e2, he2, hlg⟩ := ih har
          rw [hrl] at hlg
          exact ⟨p2, List.mem_cons_of_mem _ hp2, e2, he2, hlg⟩

theorem renderLoop_fails (cfg : Collab) (g : String) (hasG : Bool)
    (styles : List (String × String)) (pages : List (String × String))
    (hf : ∃ page ∈ pages, ∃ e, cfg.renderPage (renderReqOf g hasG styles page) = .error e) :
    (renderLoop cfg g hasG styles pages).1 = none := by
  induction pages with
  | nil => simp at hf
  | cons page r ih =>
    have hstep : renderLoop cfg g hasG styles (page :: r) =
        (match cfg.renderPage (renderReqOf g hasG styles page) with
          | Except.error e => (none, ["Error building " ++ page.1, e])
          | Except.ok html =>
            match renderLoop cfg g hasG styles r with
            | (some outs, lg) => (some ((page.1, "<!DOCTYPE html>\n" ++ html) :: outs), lg)
            | (none, lg) => (none, lg)) := rfl
    cases hrp : cfg.renderPage (renderReqOf g hasG styles page) with
    | error e => rw [hstep, hrp]
    | ok html =>
      rw [hstep, hrp]
      obtain ⟨p2, hp2, e2, he2⟩ := hf
      have hp2r : p2 ∈ r := by
        rcases List.mem_cons.mp hp2 with he | hm
        · rw [he] at he2
          rw [he2] at hrp
          exact absurd hrp (by simp)
        · exact hm
      have har := ih ⟨p2, hp2r, e2, he2⟩
      cases hrl : renderLoop cfg g hasG styles r with
      | mk o lg =>
        rw [hrl] at har
        cases o with
        | some outs => exact absurd har (by simp)
        | none => rfl

/-- The HTML files written by the output loop, newest first. -/
def woEntries : List (String × String) → List (String × String)
  | [] => []
  | (name, content) :: r =>
    woEntries r ++ [(normPath ("./dist/" ++ name ++ ".html"), content)]

theorem writeOutputs_files (outs : List (String × String)) (fs : FS)
    (hkeys : ((woEntries outs).map (·.1)).Nodup)
    (hfresh : ∀ k ∈ (woEntries outs).map (·.1), ∀ kv ∈ fs.files, kv.1 ≠ k) :
    (writeOutputs fs outs).files = woEntries outs ++ fs.files := by
  induction outs generalizing fs with
  | nil => rfl
  | cons oc r ih =>
    obtain ⟨name, content⟩ := oc
    have hsplit : woEntries ((name, content) :: r) =
        woEntries r ++ [(normPath ("./dist/" ++ name ++ ".html"), content)] := rfl
    rw [hsplit] at hkeys hfresh
    rw [List.map_append] at hkeys hfresh
    have hnd := List.nodup_append.mp hkeys
    have hkey_mem : normPath ("./dist/" ++ name ++ ".html") ∈
        (woEntries r).map (·.1) ++
        ([((normPath ("./dist/" ++ name ++ ".html") : String), content)].map (·.1)) := by
      apply List.mem_append_right
      simp
    have hw : (fsWrite (mkdirRec fs ("./dist/" ++ dirnameJS name))
        ("./dist/" ++ name ++ ".html") content).files =
        (normPath ("./dist/" ++ name ++ ".html"), content) :: fs.files :=
      fsWrite_files_fresh _ _ _ (fun kv hkv => hfresh _ hkey_mem kv hkv)
    have hrec := ih (fsWrite (mkdirRec fs ("./dist/" ++ dirnameJS name))
        ("./dist/" ++ name ++ ".html") content)
      hnd.1
      (by
        intro k hk kv hkv
        rw [hw] at hkv
        rcases List.mem_cons.mp hkv with he | hm
        · apply ne_key_of_pair he
          intro hcon
          exact (hnd.2.2 (hcon ▸ hk)) (by simp)
        · exact hfresh k (List.mem_append_left _ hk) kv hm)
    show (writeOutputs (fsWrite (mkdirRec fs ("./dist/" ++ dirnameJS name))
      ("./dist/" ++ name ++ ".html") content) r).files = _
    rw [hrec, hw, hsplit]
    simp

theorem writeOutputs_dirs (outs : List (String × String)) (fs : FS)
    (hanc : ∀ out ∈ outs, ∀ a ∈ ancestors (normPath ("./dist/" ++ dirnameJS out.1)),
      underEqB "dist" a = true) :
    ∃ nd, (writeOutputs fs outs).dirs = nd ++ fs.dirs ∧
      ∀ d ∈ nd, underEqB "dist" d = true := by
  induction outs generalizing fs with
  | nil => exact ⟨[], rfl, by simp⟩
  | cons oc r ih =>
    obtain ⟨name, content⟩ := oc
    have hancn : ∀ a ∈ ancestors (normPath ("./dist/" ++ dirnameJS name)),
        underEqB "dist" a = true := hanc (name, content) (by simp)
    obtain ⟨nd, hnd, hp⟩ := ih (fsWrite (mkdirRec fs ("./dist/" ++ dirnameJS name))
      ("./dist/" ++ name ++ ".html") content)
      (fun out h2 => hanc out (List.mem_cons_of_mem _ h2))
    refine ⟨nd ++ ancestors (normPath ("./dist/" ++ dirnameJS name)), ?_, ?_⟩
    · show (writeOutputs (fsWrite (mkdirRec fs ("./dist/" ++ dirnameJS name))
        ("./dist/" ++ name ++ ".html") content) r).dirs = _
      rw [hnd]
      show nd ++ (ancestors (normPath ("./dist/" ++ dirnameJS name)) ++ fs.dirs) = _
      simp
    · intro d hd
      rcases List.mem_append.mp hd with hm | hm
      · exact hp d hm
      · exact hancn d hm

theorem cleanupM_run (fs : FS)
    (htmp : ".tmp" ∈ fs.dirs)
    (hdirs : ∀ d ∈ fs.dirs, underB ".tmp" d = true → underEqB ".tmp/microsite" d = true) :
    cleanupM fs = .ok
      (if (filesUnder (rmdirRec fs "./.tmp/microsite") "./.tmp").isEmpty then
        { files := (rmdirRec fs "./.tmp/microsite").files,
          dirs := (rmdirRec fs "./.tmp/microsite").dirs.filter (fun d => d != ".tmp") }
      else rmdirRec fs "./.tmp/microsite") := by
  have htmp1 : (".tmp" : String) ∈ (rmdirRec fs "./.tmp/microsite").dirs := by
    unfold rmdirRec
    apply List.mem_filter.mpr
    refine ⟨htmp, by decide⟩
  have hdE : dirExistsB (rmdirRec fs "./.tmp/microsite") "./.tmp" = true :=
    dirExistsB_of_dir _ _ htmp1 (by decide)
  have hread : readDirM (rmdirRec fs "./.tmp/microsite") "./.tmp" =
      .ok (filesUnder (rmdirRec fs "./.tmp/microsite") "./.tmp") := by
    unfold readDirM
    rw [hdE]
    rfl
  show (match readDirM (rmdirRec fs "./.tmp/microsite") "./.tmp" with
    | Except.error e => Except.error e
    | Except.ok l =>
      if l.isEmpty then rmdirPlainM (rmdirRec fs "./.tmp/microsite") "./.tmp"
      else Except.ok (rmdirRec fs "./.tmp/microsite")) = _
  rw [hread]
  cases hE : (filesUnder (rmdirRec fs "./.tmp/microsite") "./.tmp").isEmpty with
  | false => simp [hE]
  | true =>
    simp only [hE, if_pos, if_true]
    unfold rmdirPlainM
    have hfany : ((rmdirRec fs "./.tmp/microsite").files.any
        (fun kv => underB (normPath "./.tmp") kv.1)) = false := by
      apply List.any_eq_false.mpr
      intro kv hkv
      have hnil := List.isEmpty_iff.mp hE
      unfold filesUnder at hnil
      have := List.filter_eq_nil_iff.mp hnil kv.1
        (List.mem_map_of_mem (·.1) hkv)
      simpa using this
    have hdany : ((rmdirRec fs "./.tmp/microsite").dirs.any
        (fun d => underB (normPath "./.tmp") d)) = false := by
      apply List.any_eq_false.mpr
      intro d hd
      have hmem := List.mem_of_mem_filter hd
      have hkeep := List.of_mem_filter hd
      simp only [Bool.not_eq_true'] at hkeep
      simp only [Bool.not_eq_true]
      cases hu : underB (normPath "./.tmp") d with
      | false => rfl
      | true =>
        have : underEqB ".tmp/microsite" d = true := hdirs d hmem (by
          rw [show (normPath "./.tmp" : String) = ".tmp" from by decide] at hu
          exact hu)
        rw [show (normPath "./.tmp/microsite" : String) = ".tmp/microsite" from by decide]
          at hkeep
        rw [this] at hkeep
        exact absurd hkeep (by simp)
    have hsome : ((rmdirRec fs "./.tmp/microsite").dirs.any
        (fun d => d == normPath "./.tmp")) = true := by
      apply List.any_eq_true.mpr
      exact ⟨".tmp", htmp1, by decide⟩
    rw [hfany, hdany, hsome]
    simp only [Bool.or_self, Bool.or_false, if_false, if_true]
    rfl

theorem underB_underEqB {d k : String} (h : underB d k = true) : underEqB d k = true := by
  unfold underEqB
  rw [h]
  simp

/-- Two directories neither of which contains the other have disjoint
strict interiors. -/
theorem underB_disjoint2 {a b k : String} (h : underB a k = true)
    (h1 : ((a.data ++ ['/']).isPrefixOf (b.data ++ ['/'])) = false)
    (h2 : ((b.data ++ ['/']).isPrefixOf (a.data ++ ['/'])) = false) :
    underB b k = false := by
  cases hb : underB b k with
  | false => rfl
  | true =>
    rcases List.prefix_or_prefix_of_prefix (List.isPrefixOf_iff_prefix.mp h)
      (List.isPrefixOf_iff_prefix.mp hb) with h3 | h3
    · rw [List.isPrefixOf_iff_prefix.mpr h3] at h1
      exact absurd h1 (by simp)
    · rw [List.isPrefixOf_iff_prefix.mpr h3] at h2
      exact absurd h2 (by simp)

theorem cleanComp_of_mem_compsL {l c : List Char} (h : c ∈ compsL l) : cleanComp c := by
  have h1 := List.of_mem_filter h
  simp only [Bool.not_eq_true', Bool.or_eq_false_iff] at h1
  refine ⟨fun he => ?_, fun he => ?_, mem_splitSlash_no_slash (List.mem_of_mem_filter h)⟩
  · rw [he] at h1
    exact absurd h1.1 (by decide)
  · rw [he] at h1
    exact absurd h1.2 (by decide)

theorem ancestors_norm_clean (p : String) :
    ∀ a ∈ ancestors p, normPath a = a ∧ a ≠ "" := by
  intro a ha
  obtain ⟨i, hi, he⟩ := ancestors_mem ha
  have hcl : ∀ c ∈ (compsL p.data).take (i + 1), cleanComp c :=
    fun c hc => cleanComp_of_mem_compsL (List.take_subset _ _ hc)
  have hne : (compsL p.data).take (i + 1) ≠ [] := by
    have : (compsL p.data) ≠ [] := by
      intro h0
      rw [h0] at hi
      simp at hi
    cases hq : compsL p.data with
    | nil => exact absurd hq this
    | cons c0 r => simp [hq]
  constructor
  · rw [he]
    apply strExt
    rw [normPath_data]
    show joinSlash (compsL (joinSlash ((compsL p.data).take (i + 1)))) = _
    rw [compsL_joinSlash (fun c hc => (hcl c hc).2.2),
      List.filter_eq_self.mpr (fun c hc => keep_of_cleanComp (hcl c hc))]
  · rw [he]
    intro h0
    have hdata := strMk_inj h0
    cases hq : (compsL p.data).take (i + 1) with
    | nil => exact hne hq
    | cons c0 r =>
      rw [hq] at hdata
      have hc0 : cleanComp c0 := hcl c0 (by rw [hq]; simp)
      cases r with
      | nil => exact hc0.1 hdata
      | cons c1 r2 =>
        rw [joinSlash_cons c0 (by simp)] at hdata
        cases hc : c0 with
        | nil => exact hc0.1 hc
        | cons x t =>
          rw [hc] at hdata
          exact absurd hdata (by simp)

theorem WF_fsWrite (fs : FS) (p c : String) (hwf : WF fs)
    (hne : normPath p ≠ "") : WF (fsWrite fs p c) := by
  refine ⟨?_, ?_, hwf.2.2⟩
  · intro kv hkv
    rcases List.mem_cons.mp hkv with he | hm
    · rw [he]
      exact ⟨normPath_idem p, hne⟩
    · exact hwf.1 kv (List.mem_of_mem_filter hm)
  · show (((normPath p, c) :: fs.files.filter (fun kv => kv.1 != normPath p)).map (·.1)).Nodup
    rw [List.map_cons]
    apply List.nodup_cons.mpr
    refine ⟨?_, ?_⟩
    · intro hmem
      rw [map_fst_filter_key _ (fun k => k != normPath p)] at hmem
      have := List.of_mem_filter hmem
      simp at this
    · rw [map_fst_filter_key _ (fun k => k != normPath p)]
      exact hwf.2.1.filter _

theorem WF_mkdirRec (fs : FS) (p : String) (hwf : WF fs) : WF (mkdirRec fs p) := by
  refine ⟨hwf.1, hwf.2.1, ?_⟩
  intro d hd
  rcases List.mem_append.mp hd with hm | hm
  · exact ancestors_norm_clean (normPath p) d hm
  · exact hwf.2.2 d hm

theorem WF_dirs_filter (fs : FS) (pr : String → Bool) (hwf : WF fs) :
    WF { files := fs.files, dirs := fs.dirs.filter pr } :=
  ⟨hwf.1, hwf.2.1, fun d hd => hwf.2.2 d (List.mem_of_mem_filter hd)⟩

theorem WF_writeOutputs (fs : FS) (outs : List (String × String)) (hwf : WF fs)
    (hne : ∀ out ∈ outs, normPath ("./dist/" ++ out.1 ++ ".html") ≠ "") :
    WF (writeOutputs fs outs) := by
  induction outs generalizing fs with
  | nil => exact hwf
  | cons oc r ih =>
    obtain ⟨name, content⟩ := oc
    show WF (writeOutputs (fsWrite (mkdirRec fs ("./dist/" ++ dirnameJS name))
      ("./dist/" ++ name ++ ".html") content) r)
    apply ih
    · apply WF_fsWrite _ _ _ (WF_mkdirRec _ _ hwf)
      exact hne (name, content) (by simp)
    · exact fun out h2 => hne out (List.mem_cons_of_mem _ h2)

/-- The entries `writePages` stages for the pages it processed. -/
theorem wpEntries_mem_of {Pz : List (String × (String × Option String))}
    {pe : String × (String × Option String)} (hpe : pe ∈ Pz) :
    (stagedJsPath pe.1, pe.2.1) ∈ wpEntries Pz ∧
      ∀ c, pe.2.2 = some c → (stagedCssPath pe.1, c) ∈ wpEntries Pz := by
  induction Pz with
  | nil => exact absurd hpe (by simp)
  | cons qe r ih =>
    obtain ⟨q, jsq, cssq⟩ := qe
    rcases List.mem_cons.mp hpe with he | hm
    · subst he
      cases cssq with
      | none =>
        refine ⟨?_, ?_⟩
        · show _ ∈ wpEntries r ++ [(stagedJsPath q, jsq)]
          apply List.mem_append_right
          simp
        · intro c hc
          exact absurd hc (by simp)
      | some c0 =>
        refine ⟨?_, ?_⟩
        · show _ ∈ wpEntries r ++ [(stagedCssPath q, c0), (stagedJsPath q, jsq)]
          apply List.mem_append_right
          simp
        · intro c hc
          have hc0 : c0 = c := by simpa using hc
          show _ ∈ wpEntries r ++ [(stagedCssPath q, c0), (stagedJsPath q, jsq)]
          apply List.mem_append_right
          rw [hc0]
          simp
    · obtain ⟨h1, h2⟩ := ih hm
      cases cssq with
      | none =>
        refine ⟨?_, fun c hc => ?_⟩
        · show _ ∈ wpEntries r ++ [(stagedJsPath q, jsq)]
          exact List.mem_append_left _ h1
        · show _ ∈ wpEntries r ++ [(stagedJsPath q, jsq)]
          exact List.mem_append_left _ (h2 c hc)
      | some c0 =>
        refine ⟨?_, fun c hc => ?_⟩
        · show _ ∈ wpEntries r ++ [(stagedCssPath q, c0), (stagedJsPath q, jsq)]
          exact List.mem_append_left _ h1
        · show _ ∈ wpEntries r ++ [(stagedCssPath q, c0), (stagedJsPath q, jsq)]
          exact List.mem_append_left _ (h2 c hc)

theorem endsWith_css_stagedCss {p : String} (hp : isPagePath p = true) :
    endsWithB ".css" (stagedCssPath p) = true := by
  obtain ⟨s, _, _, f2, _⟩ := page_staged_facts hp
  rw [f2, show (".tmp/microsite/pages/".data ++ (s ++ ".css".data) : List Char) =
    (".tmp/microsite/pages/".data ++ s) ++ ".css".data from (List.append_assoc _ _ _).symm]
  exact endsWith_css_append _

theorem endsWith_js_stagedCss {p : String} (hp : isPagePath p = true) :
    endsWithB ".js" (stagedCssPath p) = false := by
  obtain ⟨s, _, _, f2, _⟩ := page_staged_facts hp
  rw [f2, show (".tmp/microsite/pages/".data ++ (s ++ ".css".data) : List Char) =
    (".tmp/microsite/pages/".data ++ s) ++ ".css".data from (List.append_assoc _ _ _).symm]
  exact endsWith_js_of_css _

theorem endsWith_css_stagedJs {p : String} (hp : isPagePath p = true) :
    endsWithB ".css" (stagedJsPath p) = false := by
  obtain ⟨s, _, f1, _⟩ := page_staged_facts hp
  rw [f1, show (".tmp/microsite/pages/".data ++ (s ++ ".js".data) : List Char) =
    (".tmp/microsite/pages/".data ++ s) ++ ".js".data from (List.append_assoc _ _ _).symm]
  exact endsWith_css_of_js _

theorem endsWith_js_stagedJs {p : String} (hp : isPagePath p = true) :
    endsWithB ".js" (stagedJsPath p) = true := by
  obtain ⟨s, _, f1, _⟩ := page_staged_facts hp
  rw [f1, show (".tmp/microsite/pages/".data ++ (s ++ ".js".data) : List Char) =
    (".tmp/microsite/pages/".data ++ s) ++ ".js".data from (List.append_assoc _ _ _).symm]
  exact endsWith_js_append _

theorem getName_css_eq_js {p : String} (hp : isPagePath p = true) :
    getName (stagedCssPath p) = getName (stagedJsPath p) := by
  obtain ⟨s, _, _, _, f3, f4, _⟩ := page_staged_facts hp
  rw [f3, f4]

theorem pageName_inj {p q : String} (hp : isPagePath p = true) (hq : isPagePath q = true)
    (h : getName (stagedJsPath p) = getName (stagedJsPath q)) : p = q := by
  obtain ⟨s, hps, _, _, f3p, _⟩ := page_staged_facts hp
  obtain ⟨t, hqs, _, _, f3q, _⟩ := page_staged_facts hq
  rw [f3p, f3q] at h
  have hst : s = t := by
    have := strMk_inj h
    simpa using this
  have hdata : p.data = q.data := by rw [hps, hqs, hst]
  cases p; cases q; exact congrArg String.mk hdata

/-- The `styles` list the build tail assembles, expressed over the staged
pages: one entry per extracted page stylesheet, keyed by logical name. -/
def pzStyles : List (String × (String × Option String)) → List (String × String)
  | [] => []
  | (p, (_, css)) :: r =>
    pzStyles r ++ (match css with
      | some c => [(getName (stagedCssPath p), c)]
      | none => [])

/-- The `pages` list the build tail assembles: one entry per staged page
script, keyed by logical name. -/
def pzPages : List (String × (String × Option String)) → List (String × String)
  | [] => []
  | (p, (js, _)) :: r => pzPages r ++ [(getName (stagedJsPath p), js)]

theorem pzStyles_mem {Pz : List (String × (String × Option String))}
    {s : String × String} (hs : s ∈ pzStyles Pz) :
    ∃ pe ∈ Pz, s = (getName (stagedCssPath pe.1), pe.2.2.getD "") ∧
      pe.2.2 = some s.2 := by
  induction Pz with
  | nil => simp [pzStyles] at hs
  | cons qe r ih =>
    obtain ⟨q, jsq, cssq⟩ := qe
    cases cssq with
    | none =>
      have hs2 : s ∈ pzStyles r ++ ([] : List (String × String)) := hs
      rw [List.append_nil] at hs2
      obtain ⟨pe, hpe, he⟩ := ih hs2
      exact ⟨pe, List.mem_cons_of_mem _ hpe, he⟩
    | some c0 =>
      have hs2 : s ∈ pzStyles r ++ [(getName (stagedCssPath q), c0)] := hs
      rcases List.mem_append.mp hs2 with hm | hm
      · obtain ⟨pe, hpe, he⟩ := ih hm
        exact ⟨pe, List.mem_cons_of_mem _ hpe, he⟩
      · rw [List.mem_singleton.mp hm]
        exact ⟨(q, (jsq, some c0)), by simp, rfl, rfl⟩

theorem pzPages_mem {Pz : List (String × (String × Option String))}
    {pg : String × String} (hpg : pg ∈ pzPages Pz) :
    ∃ pe ∈ Pz, pg = (getName (stagedJsPath pe.1), pe.2.1) := by
  induction Pz with
  | nil => simp [pzPages] at hpg
  | cons qe r ih =>
    obtain ⟨q, jsq, cssq⟩ := qe
    have hs2 : pg ∈ pzPages r ++ [(getName (stagedJsPath q), jsq)] := hpg
    rcases List.mem_append.mp hs2 with hm | hm
    · obtain ⟨pe, hpe, he⟩ := ih hm
      exact ⟨pe, List.mem_cons_of_mem _ hpe, he⟩
    · rw [List.mem_singleton.mp hm]
      exact ⟨(q, (jsq, cssq)), by simp, rfl⟩

theorem pzPages_mem_of {Pz : List (String × (String × Option String))}
    {pe : String × (String × Option String)} (hpe : pe ∈ Pz) :
    (getName (stagedJsPath pe.1), pe.2.1) ∈ pzPages Pz := by
  induction Pz with
  | nil => exact absurd hpe (by simp)
  | cons qe r ih =>
    obtain ⟨q, jsq, cssq⟩ := qe
    rcases List.mem_cons.mp hpe with he | hm
    · subst he
      show _ ∈ pzPages r ++ [(getName (stagedJsPath q), jsq)]
      apply List.mem_append_right
      simp
    · show _ ∈ pzPages r ++ [(getName (stagedJsPath q), jsq)]
      exact List.mem_append_left _ (ih hm)

theorem find?_append_some {α : Type} {p : α → Bool} {l1 l2 : List α} {x : α}
    (h : l1.find? p = some x) : (l1 ++ l2).find? p = some x := by
  induction l1 with
  | nil => simp at h
  | cons a t ih =>
    cases hx : p a with
    | true =>
      rw [List.find?_cons_of_pos _ hx] at h
      rw [List.cons_append, List.find?_cons_of_pos _ hx]
      exact h
    | false =>
      rw [List.find?_cons_of_neg _ (by simp [hx])] at h
      rw [List.cons_append, List.find?_cons_of_neg _ (by simp [hx])]
      exact ih h

/-- The stylesheet lookup `styles.find(...)` resolves, for each page, to that
page's own extracted stylesheet (or nothing). -/
theorem pzStyles_find {Pz : List (String × (String × Option String))}
    (hP : ∀ pe ∈ Pz, isPagePath pe.1 = true)
    (hPnd : (Pz.map (·.1)).Nodup)
    {pe : String × (String × Option String)} (hpe : pe ∈ Pz) :
    (pzStyles Pz).find? (fun s => s.1 == getName (stagedJsPath pe.1)) =
      pe.2.2.map (fun c => (getName (stagedCssPath pe.1), c)) := by
  induction Pz with
  | nil => exact absurd hpe (by simp)
  | cons qe r ih =>
    obtain ⟨q, jsq, cssq⟩ := qe
    have hq : isPagePath q = true := hP (q, (jsq, cssq)) (by simp)
    have hPr : ∀ pe2 ∈ r, isPagePath pe2.1 = true :=
      fun pe2 h2 => hP pe2 (List.mem_cons_of_mem _ h2)
    have hndr : (r.map (·.1)).Nodup := (List.nodup_cons.mp hPnd).2
    have hqnotin : q ∉ r.map (·.1) := by
      have := (List.nodup_cons.mp hPnd).1
      simpa using this
    rcases List.mem_cons.mp hpe with he | hm
    · -- the page at the head: its name is absent from the tail's styles
      subst he
      have hnone : (pzStyles r).find?
          (fun s => s.1 == getName (stagedJsPath q)) = none := by
        apply List.find?_eq_none.mpr
        intro s hs
        obtain ⟨pe2, hpe2, he2, _⟩ := pzStyles_mem hs
        simp only [beq_iff_eq]
        rw [he2]
        show getName (stagedCssPath pe2.1) ≠ getName (stagedJsPath q)
        rw [getName_css_eq_js (hPr pe2 hpe2)]
        intro hname
        exact hqnotin ((pageName_inj (hPr pe2 hpe2) hq hname) ▸
          List.mem_map_of_mem (·.1) hpe2)
      cases cssq with
      | none =>
        show (pzStyles r ++ []).find? _ = _
        rw [List.append_nil, hnone]
        rfl
      | some c0 =>
        show (pzStyles r ++ [(getName (stagedCssPath q), c0)]).find? _ = _
        rw [find?_key_append (by
          intro kv hkv
          have := List.find?_eq_none.mp hnone kv hkv
          simpa using this)]
        rw [List.find?_cons_of_pos _ (by
          simp only [beq_iff_eq]
          exact getName_css_eq_js hq)]
        rfl
    · -- the page in the tail: the head's style entry has a different name
      have hpee : isPagePath pe.1 = true := hPr pe hm
      have hne : pe.1 ≠ q := by
        intro he
        exact hqnotin (he ▸ List.mem_map_of_mem (·.1) hm)
      have hih := ih hPr hndr hm
      cases cssq with
      | none =>
        show (pzStyles r ++ []).find? _ = _
        rw [List.append_nil]
        exact hih
      | some c0 =>
        show (pzStyles r ++ [(getName (stagedCssPath q), c0)]).find? _ = _
        cases hfr : (pzStyles r).find? (fun s => s.1 == getName (stagedJsPath pe.1)) with
        | some kv =>
          rw [hfr] at hih
          rw [find?_append_some hfr]
          exact hih
        | none =>
          rw [hfr] at hih
          rw [find?_key_append (by
            intro kv hkv
            have := List.find?_eq_none.mp hfr kv hkv
            simpa using this)]
          rw [List.find?_cons_of_neg _ (by
            simp only [beq_iff_eq]
            rw [getName_css_eq_js hq]
            intro hname
            exact hne (pageName_inj hq hpee hname).symm)]
          exact hih

/-- The staged-pages listing, filtered by extension and paired with its
contents, is exactly the styles list and the pages list of the build tail. -/
theorem tail_lists (Pz : List (String × (String × Option String)))
    (ℓ : String → Option String)
    (hP : ∀ pe ∈ Pz, isPagePath pe.1 = true)
    (hl : ∀ pe ∈ Pz, ℓ (stagedJsPath pe.1) = some pe.2.1 ∧
      ∀ c, pe.2.2 = some c → ℓ (stagedCssPath pe.1) = some c) :
    ((((wpEntries Pz).map (·.1)).filter (endsWithB ".css")).map
        (fun f => (getName f, (ℓ f).getD ""))) = pzStyles Pz ∧
    ((((wpEntries Pz).map (·.1)).filter (endsWithB ".js")).map
        (fun f => (getName f, (ℓ f).getD ""))) = pzPages Pz := by
  induction Pz with
  | nil => exact ⟨rfl, rfl⟩
  | cons qe r ih =>
    obtain ⟨q, jsq, cssq⟩ := qe
    have hq : isPagePath q = true := hP (q, (jsq, cssq)) (by simp)
    have hlq := hl (q, (jsq, cssq)) (by simp)
    obtain ⟨ihc, ihj⟩ := ih (fun pe2 h2 => hP pe2 (List.mem_cons_of_mem _ h2))
      (fun pe2 h2 => hl pe2 (List.mem_cons_of_mem _ h2))
    cases cssq with
    | none =>
      constructor
      · show ((((wpEntries r ++ [(stagedJsPath q, jsq)]).map (·.1)).filter
          (endsWithB ".css")).map (fun f => (getName f, (ℓ f).getD ""))) =
          pzStyles r ++ []
        rw [List.map_append, List.filter_append, List.map_append, ihc]
        congr 1
        show ((([(stagedJsPath q, jsq)].map (·.1)).filter (endsWithB ".css")).map _) = []
        simp only [List.map_cons, List.map_nil]
        rw [List.filter_cons_of_neg (by simp [endsWith_css_stagedJs hq])]
        rfl
      · show ((((wpEntries r ++ [(stagedJsPath q, jsq)]).map (·.1)).filter
          (endsWithB ".js")).map (fun f => (getName f, (ℓ f).getD ""))) =
          pzPages r ++ [(getName (stagedJsPath q), jsq)]
        rw [List.map_append, List.filter_append, List.map_append, ihj]
        congr 1
        simp only [List.map_cons, List.map_nil]
        rw [List.filter_cons_of_pos (by simp [endsWith_js_stagedJs hq])]
        simp only [List.map_cons, List.map_nil, hlq.1]
        rfl
    | some c0 =>
      have hcss := hlq.2 c0 rfl
      constructor
      · show ((((wpEntries r ++ [(stagedCssPath q, c0), (stagedJsPath q, jsq)]).map
          (·.1)).filter (endsWithB ".css")).map (fun f => (getName f, (ℓ f).getD ""))) =
          pzStyles r ++ [(getName (stagedCssPath q), c0)]
        rw [List.map_append, List.filter_append, List.map_append, ihc]
        congr 1
        simp only [List.map_cons, List.map_nil]
        rw [List.filter_cons_of_pos (by simp [endsWith_css_stagedCss hq]),
          List.filter_cons_of_neg (by simp [endsWith_css_stagedJs hq])]
        simp only [List.map_cons, List.map_nil, hcss]
        rfl
      · show ((((wpEntries r ++ [(stagedCssPath q, c0), (stagedJsPath q, jsq)]).map
          (·.1)).filter (endsWithB ".js")).map (fun f => (getName f, (ℓ f).getD ""))) =
          pzPages r ++ [(getName (stagedJsPath q), jsq)]
        rw [List.map_append, List.filter_append, List.map_append, ihj]
        congr 1
        simp only [List.map_cons, List.map_nil]
        rw [List.filter_cons_of_neg (by simp [endsWith_js_stagedCss hq]),
          List.filter_cons_of_pos (by simp [endsWith_js_stagedJs hq])]
        simp only [List.map_cons, List.map_nil, hlq.1]
        rfl

/-- Every key written by `writePages` lies strictly inside the staged pages
root. -/
theorem wpEntries_key_under {Pz : List (String × (String × Option String))}
    (hP : ∀ pe ∈ Pz, isPagePath pe.1 = true)
    {kv : String × String} (hkv : kv ∈ wpEntries Pz) :
    underB ".tmp/microsite/pages" kv.1 = true := by
  obtain ⟨pe, hpe, ho⟩ := wpEntries_key_mem (List.mem_map_of_mem (·.1) hkv)
  rcases ho with he | he
  · rw [he]
    exact stagedJsPath_under (hP pe hpe)
  · rw [he]
    exact stagedCssPath_under (hP pe hpe)

theorem fsGet_structured {fs : FS} {Pz : List (String × (String × Option String))}
    {gjs ljs : String} {gcss lcss : Option String} {rest : List (String × String)}
    (hfiles : fs.files = wpEntries Pz ++ (wgEntries gjs gcss ljs lcss ++ rest))
    (hP : ∀ pe ∈ Pz, isPagePath pe.1 = true) :
    fsGet fs "./.tmp/microsite/global.js" = some gjs ∧
    fsGet fs "./.tmp/microsite/global.legacy.js" = some ljs ∧
    (∀ g, gcss = some g → fsGet fs "./.tmp/microsite/global.css" = some g) := by
  have hwp : ∀ q : String, underB ".tmp/microsite/pages" q = false →
      ∀ kv ∈ wpEntries Pz, kv.1 ≠ q := by
    intro q hq kv hkv he
    rw [← he] at hq
    rw [wpEntries_key_under hP hkv] at hq
    exact absurd hq (by simp)
  have hA : ∀ q2 : String, q2 ≠ ".tmp/microsite/global.legacy.css" →
      ∀ kv ∈ ((match lcss with
        | some c => [((".tmp/microsite/global.legacy.css" : String), c)]
        | none => []) : List (String × String)), kv.1 ≠ q2 := by
    intro q2 hq2 kv hkv
    cases lcss with
    | none => simp at hkv
    | some c =>
      rw [List.mem_singleton.mp hkv]
      exact fun he => hq2 he.symm
  have hB : ∀ (g2 : Option String) (q2 : String), q2 ≠ ".tmp/microsite/global.css" →
      ∀ kv ∈ ((match g2 with
        | some c => [((".tmp/microsite/global.css" : String), c)]
        | none => []) : List (String × String)), kv.1 ≠ q2 := by
    intro g2 q2 hq2 kv hkv
    cases g2 with
    | none => simp at hkv
    | some c =>
      rw [List.mem_singleton.mp hkv]
      exact fun he => hq2 he.symm
  refine ⟨?_, ?_, ?_⟩
  · show (fs.files.find? (fun kv => kv.1 == normPath "./.tmp/microsite/global.js")).map
      (·.2) = some gjs
    rw [show (normPath "./.tmp/microsite/global.js" : String) = ".tmp/microsite/global.js"
        from by decide,
      hfiles, find?_key_append (hwp _ (by decide))]
    unfold wgEntries
    simp only [List.append_assoc]
    rw [find?_key_append (hA ".tmp/microsite/global.js" (by decide)),
      List.singleton_append, List.find?_cons_of_neg _ (by simp),
      find?_key_append (hB gcss ".tmp/microsite/global.js" (by decide)),
      List.singleton_append, List.find?_cons_of_pos _ (by simp)]
    rfl
  · show (fs.files.find? (fun kv => kv.1 == normPath "./.tmp/microsite/global.legacy.js")).map
      (·.2) = some ljs
    rw [show (normPath "./.tmp/microsite/global.legacy.js" : String) =
        ".tmp/microsite/global.legacy.js" from by decide,
      hfiles, find?_key_append (hwp _ (by decide))]
    unfold wgEntries
    simp only [List.append_assoc]
    rw [find?_key_append (hA ".tmp/microsite/global.legacy.js" (by decide)),
      List.singleton_append, List.find?_cons_of_pos _ (by simp)]
    rfl
  · intro g hg
    subst hg
    show (fs.files.find? (fun kv => kv.1 == normPath "./.tmp/microsite/global.css")).map
      (·.2) = some g
    rw [show (normPath "./.tmp/microsite/global.css" : String) = ".tmp/microsite/global.css"
        from by decide,
      hfiles, find?_key_append (hwp _ (by decide))]
    unfold wgEntries
    simp only [List.append_assoc]
    rw [find?_key_append (hA ".tmp/microsite/global.css" (by decide)),
      List.singleton_append, List.find?_cons_of_neg _ (by simp),
      List.singleton_append, List.find?_cons_of_pos _ (by simp)]
    rfl

theorem wgEntries_key_cases {gjs ljs : String} {gcss lcss : Option String}
    {kv : String × String} (hkv : kv ∈ wgEntries gjs gcss ljs lcss) :
    kv.1 = ".tmp/microsite/global.legacy.css" ∨ kv.1 = ".tmp/microsite/global.legacy.js" ∨
    kv.1 = ".tmp/microsite/global.css" ∨ kv.1 = ".tmp/microsite/global.js" := by
  unfold wgEntries at hkv
  rcases List.mem_append.mp hkv with hm | hm
  · rcases List.mem_append.mp hm with hm | hm
    · rcases List.mem_append.mp hm with hm | hm
      · cases lcss with
        | none => simp at hm
        | some c => exact Or.inl (congrArg Prod.fst (List.mem_singleton.mp hm))
      · exact Or.inr (Or.inl (congrArg Prod.fst (List.mem_singleton.mp hm)))
    · cases gcss with
      | none => simp at hm
      | some c => exact Or.inr (Or.inr (Or.inl (congrArg Prod.fst (List.mem_singleton.mp hm))))
  · exact Or.inr (Or.inr (Or.inr (congrArg Prod.fst (List.mem_singleton.mp hm))))

/-- The conditional `dist/index.js` / `dist/index.legacy.js` copies, newest
first. -/
def gCopies (hasG : Bool) (gjs ljs : String) : List (String × String) :=
  if hasG then [(("dist/index.legacy.js" : String), ljs), (("dist/index.js" : String), gjs)]
  else []

set_option maxHeartbeats 8000000 in
/-- The shared first half of the build tail: the global reads succeed, the
conditional copies land as `gCopies`, the staged pages listing is exactly the
keys `writePages` wrote, and the styles/pages lists resolve to `pzStyles` /
`pzPages`; after that the run is decided by the render loop. -/
theorem buildTail_core (cfg : Collab) (st3 : St)
    (Pz : List (String × (String × Option String)))
    (gjs ljs gstyle : String) (lcss : Option String)
    (rest : List (String × String))
    (hfiles : st3.fs.files = wpEntries Pz ++ (wgEntries gjs (some gstyle) ljs lcss ++ rest))
    (hdist : dirExistsB st3.fs "dist" = true)
    (hP : ∀ pe ∈ Pz, isPagePath pe.1 = true)
    (hwf : WF st3.fs)
    (hrest : ∀ kv ∈ rest, underEqB ".tmp/microsite" kv.1 = false ∧
      (underEqB "dist" kv.1 = true → (endsWithB ".html" kv.1 = false ∧
        kv.1 ≠ "dist/index.js" ∧ kv.1 ≠ "dist/index.legacy.js")))
    (hPne : Pz ≠ []) :
    ∃ fsC : FS,
      fsC.files = gCopies (trimJS gjs != "") gjs ljs ++ st3.fs.files ∧
      fsC.dirs = st3.fs.dirs ∧
      WF fsC ∧
      buildTail cfg st3 =
        (match renderLoop cfg gstyle (trimJS gjs != "") (pzStyles Pz) (pzPages Pz) with
          | (none, lg) => .ok { fs := fsC, log := st3.log ++ lg }
          | (some outs, _) =>
            match cleanupM (writeOutputs fsC outs) with
            | .error e => .error e
            | .ok fsZ => .ok { fs := fsZ, log := st3.log }) := by
  obtain ⟨hgjs, hljs, hgcssf⟩ := fsGet_structured hfiles hP
  have hgcss := hgcssf gstyle rfl
  -- no existing file occupies the copy destinations
  have hALLne : ∀ kv ∈ st3.fs.files, kv.1 ≠ "dist/index.js" ∧
      kv.1 ≠ "dist/index.legacy.js" := by
    intro kv hkv
    rw [hfiles] at hkv
    rcases List.mem_append.mp hkv with hm | hm
    · have hu := wpEntries_key_under hP hm
      constructor <;> (intro he; rw [he] at hu; exact absurd hu (by decide))
    · rcases List.mem_append.mp hm with hm | hm
      · rcases wgEntries_key_cases hm with he | he | he | he <;>
          (rw [he]; exact ⟨by decide, by decide⟩)
      · constructor
        · intro he
          exact ((hrest kv hm).2 (by rw [he]; decide)).2.1 he
        · intro he
          exact ((hrest kv hm).2 (by rw [he]; decide)).2.2 he
  -- the conditional copy step
  obtain ⟨fsC, hCfiles, hCdirs, hCeq⟩ :
      ∃ fsC : FS,
        fsC.files = gCopies (trimJS gjs != "") gjs ljs ++ st3.fs.files ∧
        fsC.dirs = st3.fs.dirs ∧
        ((if (trimJS gjs != "") then
            match copyFileM st3.fs "./.tmp/microsite/global.js" "dist/index.js" with
            | Except.error e => Except.error e
            | Except.ok fsA =>
              copyFileM fsA "./.tmp/microsite/global.legacy.js" "dist/index.legacy.js"
          else Except.ok st3.fs) : Except String FS) = Except.ok fsC := by
    cases hGb : (trimJS gjs != "") with
    | false =>
      refine ⟨st3.fs, ?_, rfl, ?_⟩
      · show st3.fs.files = [] ++ st3.fs.files
        simp [gCopies, hGb]
      · rw [if_neg (by simp [hGb])]
    | true =>
      have hcopy1 : copyFileM st3.fs "./.tmp/microsite/global.js" "dist/index.js" =
          .ok (fsWrite st3.fs "dist/index.js" gjs) := by
        unfold copyFileM
        rw [hgjs,
          show parentDir (normPath "dist/index.js") = "dist" from by decide, hdist]
        simp
      have hget2 : fsGet (fsWrite st3.fs "dist/index.js" gjs)
          "./.tmp/microsite/global.legacy.js" = some ljs := by
        rw [fsGet_fsWrite, if_neg (by decide)]
        exact hljs
      have hdist2 : dirExistsB (fsWrite st3.fs "dist/index.js" gjs) "dist" = true := by
        rw [dirExistsB_fsWrite, hdist]
        rfl
      have hcopy2 : copyFileM (fsWrite st3.fs "dist/index.js" gjs)
          "./.tmp/microsite/global.legacy.js" "dist/index.legacy.js" =
          .ok (fsWrite (fsWrite st3.fs "dist/index.js" gjs) "dist/index.legacy.js" ljs) := by
        unfold copyFileM
        rw [hget2,
          show parentDir (normPath "dist/index.legacy.js") = "dist" from by decide, hdist2]
        simp
      refine ⟨fsWrite (fsWrite st3.fs "dist/index.js" gjs) "dist/index.legacy.js" ljs,
        ?_, rfl, ?_⟩
      · have h1 : (fsWrite st3.fs "dist/index.js" gjs).files =
            (normPath "dist/index.js", gjs) :: st3.fs.files :=
          fsWrite_files_fresh _ _ _ (fun kv hkv => by
            rw [show (normPath "dist/index.js" : String) = "dist/index.js" from by decide]
            exact (hALLne kv hkv).1)
        have h2 : (fsWrite (fsWrite st3.fs "dist/index.js" gjs)
            "dist/index.legacy.js" ljs).files =
            (normPath "dist/index.legacy.js", ljs) ::
              ((normPath "dist/index.js", gjs) :: st3.fs.files) := by
          rw [fsWrite_files_fresh _ _ _ (fun kv hkv => by
            rw [h1] at hkv
            rw [show (normPath "dist/index.legacy.js" : String) = "dist/index.legacy.js"
              from by decide]
            rcases List.mem_cons.mp hkv with he | hm
            · exact ne_key_of_pair he (by decide)
            · exact (hALLne kv hm).2), h1]
        rw [h2,
          show (normPath "dist/index.legacy.js" : String) = "dist/index.legacy.js"
            from by decide,
          show (normPath "dist/index.js" : String) = "dist/index.js" from by decide]
        show _ = [(("dist/index.legacy.js" : String), ljs),
          (("dist/index.js" : String), gjs)] ++ st3.fs.files
        · simp [gCopies, hGb]
      · rw [if_pos (by simp [hGb]), hcopy1]
        show copyFileM (fsWrite st3.fs "dist/index.js" gjs)
          "./.tmp/microsite/global.legacy.js" "dist/index.legacy.js" = _
        exact hcopy2
  have hCwf : WF fsC := by
    cases hGb : (trimJS gjs != "") with
    | false =>
      have : fsC.files = st3.fs.files := by
        rw [hCfiles, hGb]
        rfl
      exact ⟨fun kv hkv => hwf.1 kv (this ▸ hkv), by rw [this]; exact hwf.2.1,
        fun d hd => hwf.2.2 d (hCdirs ▸ hd)⟩
    | true =>
      have hfl : fsC.files = (("dist/index.legacy.js" : String), ljs) ::
          ((("dist/index.js" : String), gjs) :: st3.fs.files) := by
        rw [hCfiles, hGb]
        rfl
      refine ⟨?_, ?_, fun d hd => hwf.2.2 d (hCdirs ▸ hd)⟩
      · intro kv hkv
        rw [hfl] at hkv
        rcases List.mem_cons.mp hkv with he | hm
        · rw [he]
          show normPath ("dist/index.legacy.js" : String) = "dist/index.legacy.js" ∧
            ("dist/index.legacy.js" : String) ≠ ""
          exact ⟨by decide, by decide⟩
        · rcases List.mem_cons.mp hm with he | hm2
          · rw [he]
            show normPath ("dist/index.js" : String) = "dist/index.js" ∧
              ("dist/index.js" : String) ≠ ""
            exact ⟨by decide, by decide⟩
          · exact hwf.1 kv hm2
      · rw [hfl]
        simp only [List.map_cons]
        apply List.nodup_cons.mpr
        refine ⟨?_, ?_⟩
        · intro hmem
          simp only [List.mem_cons] at hmem
          rcases hmem with he | hmem
          · exact absurd he (by decide)
          · obtain ⟨kv, hkv, hkve⟩ := List.mem_map.mp hmem
            exact (hALLne kv hkv).2 hkve
        · apply List.nodup_cons.mpr
          refine ⟨?_, hwf.2.1⟩
          intro hmem
          obtain ⟨kv, hkv, hkve⟩ := List.mem_map.mp hmem
          exact (hALLne kv hkv).1 hkve
  -- the staged pages listing
  have hCkeyfacts : ∀ kv ∈ fsC.files, kv ∈ gCopies (trimJS gjs != "") gjs ljs ∨
      kv ∈ st3.fs.files := by
    intro kv hkv
    rw [hCfiles] at hkv
    exact List.mem_append.mp hkv
  have hdirex : dirExistsB fsC "./.tmp/microsite/pages" = true := by
    cases hPz : Pz with
    | nil => exact absurd hPz hPne
    | cons pe r =>
      have hmem : (stagedJsPath pe.1, pe.2.1) ∈ fsC.files := by
        rw [hCfiles]
        apply List.mem_append_right
        rw [hfiles]
        apply List.mem_append_left
        exact (wpEntries_mem_of (by rw [hPz]; simp)).1
      apply dirExistsB_of_file fsC _ hmem
      rw [show (normPath "./.tmp/microsite/pages" : String) = ".tmp/microsite/pages"
        from by decide]
      exact stagedJsPath_under (hP pe (by rw [hPz]; simp))
  have hlist : filesUnder fsC "./.tmp/microsite/pages" = (wpEntries Pz).map (·.1) := by
    unfold filesUnder
    rw [show (normPath "./.tmp/microsite/pages" : String) = ".tmp/microsite/pages"
      from by decide, hCfiles, hfiles, List.map_append, List.map_append,
      List.filter_append, List.filter_append]
    rw [List.filter_eq_nil_iff.mpr (by
      intro k hk
      obtain ⟨kv, hkv, hkve⟩ := List.mem_map.mp hk
      unfold gCopies at hkv
      subst hkve
      cases hGb : (trimJS gjs != "") with
      | false => rw [hGb] at hkv; simp at hkv
      | true =>
        rw [hGb] at hkv
        simp only [if_true] at hkv
        rcases List.mem_cons.mp hkv with he | hm
        · rw [he]
          show ¬underB ".tmp/microsite/pages" ("dist/index.legacy.js" : String) = true
          decide
        · rw [List.mem_singleton.mp hm]
          show ¬underB ".tmp/microsite/pages" ("dist/index.js" : String) = true
          decide)]
    rw [List.filter_eq_self.mpr (by
      intro k hk
      obtain ⟨kv, hkv, hkve⟩ := List.mem_map.mp hk
      subst hkve
      exact wpEntries_key_under hP hkv)]
    rw [List.map_append, List.filter_append]
    rw [List.filter_eq_nil_iff.mpr (by
      intro k hk
      obtain ⟨kv, hkv, hkve⟩ := List.mem_map.mp hk
      subst hkve
      rcases wgEntries_key_cases hkv with he | he | he | he <;> (rw [he]; decide))]
    rw [List.filter_eq_nil_iff.mpr (by
      intro k hk
      obtain ⟨kv, hkv, hkve⟩ := List.mem_map.mp hk
      subst hkve
      cases hu : underB ".tmp/microsite/pages" kv.1 with
      | false => simp
      | true =>
        have := under_pages_under_tmpms hu
        rw [(hrest kv hkv).1] at this
        exact absurd this (by simp))]
    simp
  have hreadDir : readDirM fsC "./.tmp/microsite/pages" =
      .ok ((wpEntries Pz).map (·.1)) := by
    unfold readDirM
    rw [hdirex, hlist]
    rfl
  -- the styles and pages lists
  have hwpmem : ∀ kv ∈ wpEntries Pz, kv ∈ fsC.files := by
    intro kv hkv
    rw [hCfiles]
    apply List.mem_append_right
    rw [hfiles]
    exact List.mem_append_left _ hkv
  obtain ⟨hstyles, hpages⟩ := tail_lists Pz (fsGet fsC) hP (by
    intro pe hpe
    constructor
    · have hm := (wpEntries_mem_of hpe).1
      exact fsGet_self hCwf (hwpmem _ hm)
    · intro c hc
      have hm := (wpEntries_mem_of hpe).2 c hc
      exact fsGet_self hCwf (hwpmem _ hm))
  refine ⟨fsC, hCfiles, hCdirs, hCwf, ?_⟩
  show ((match readFileM st3.fs "./.tmp/microsite/global.css" with
    | Except.error e => Except.error e
    | Except.ok globalStyle =>
      match readFileM st3.fs "./.tmp/microsite/global.js" with
      | Except.error e => Except.error e
      | Except.ok gjsContent =>
        match ((if (trimJS gjsContent != "") then
            match copyFileM st3.fs "./.tmp/microsite/global.js" "dist/index.js" with
            | Except.error e => Except.error e
            | Except.ok fsA =>
              copyFileM fsA "./.tmp/microsite/global.legacy.js" "dist/index.legacy.js"
          else Except.ok st3.fs) : Except String FS) with
        | Except.error e => Except.error e
        | Except.ok fsC2 =>
          match readDirM fsC2 "./.tmp/microsite/pages" with
          | Except.error e => Except.error e
          | Except.ok fl =>
            match renderLoop cfg globalStyle (trimJS gjsContent != "")
              ((fl.filter (endsWithB ".css")).map
                (fun f => (getName f, (fsGet fsC2 f).getD "")))
              ((fl.filter (endsWithB ".js")).map
                (fun f => (getName f, (fsGet fsC2 f).getD ""))) with
            | (none, lg) => Except.ok { fs := fsC2, log := st3.log ++ lg }
            | (some outs, _) =>
              match cleanupM (writeOutputs fsC2 outs) with
              | Except.error e => Except.error e
              | Except.ok fsZ => Except.ok { fs := fsZ, log := st3.log }) : Except String St) = _
  rw [show readFileM st3.fs "./.tmp/microsite/global.css" = .ok gstyle from by
    unfold readFileM
    rw [hgcss]]
  show ((match readFileM st3.fs "./.tmp/microsite/global.js" with
    | Except.error e => Except.error e
    | Except.ok gjsContent =>
      match ((if (trimJS gjsContent != "") then
          match copyFileM st3.fs "./.tmp/microsite/global.js" "dist/index.js" with
          | Except.error e => Except.error e
          | Except.ok fsA =>
            copyFileM fsA "./.tmp/microsite/global.legacy.js" "dist/index.legacy.js"
        else Except.ok st3.fs) : Except String FS) with
      | Except.error e => Except.error e
      | Except.ok fsC2 =>
        match readDirM fsC2 "./.tmp/microsite/pages" with
        | Except.error e => Except.error e
        | Except.ok fl =>
          match renderLoop cfg gstyle (trimJS gjsContent != "")
            ((fl.filter (endsWithB ".css")).map
              (fun f => (getName f, (fsGet fsC2 f).getD "")))
            ((fl.filter (endsWithB ".js")).map
              (fun f => (getName f, (fsGet fsC2 f).getD ""))) with
          | (none, lg) => Except.ok { fs := fsC2, log := st3.log ++ lg }
          | (some outs, _) =>
            match cleanupM (writeOutputs fsC2 outs) with
            | Except.error e => Except.error e
            | Except.ok fsZ => Except.ok { fs := fsZ, log := st3.log }) : Except String St) = _
  rw [show readFileM st3.fs "./.tmp/microsite/global.js" = .ok gjs from by
    unfold readFileM
    rw [hgjs]]
  show ((match ((if (trimJS gjs != "") then
      match copyFileM st3.fs "./.tmp/microsite/global.js" "dist/index.js" with
      | Except.error e => Except.error e
      | Except.ok fsA =>
        copyFileM fsA "./.tmp/microsite/global.legacy.js" "dist/index.legacy.js"
    else Except.ok st3.fs) : Except String FS) with
    | Except.error e => Except.error e
    | Except.ok fsC2 =>
      match readDirM fsC2 "./.tmp/microsite/pages" with
      | Except.error e => Except.error e
      | Except.ok fl =>
        match renderLoop cfg gstyle (trimJS gjs != "")
          ((fl.filter (endsWithB ".css")).map
            (fun f => (getName f, (fsGet fsC2 f).getD "")))
          ((fl.filter (endsWithB ".js")).map
            (fun f => (getName f, (fsGet fsC2 f).getD ""))) with
        | (none, lg) => Except.ok { fs := fsC2, log := st3.log ++ lg }
        | (some outs, _) =>
          match cleanupM (writeOutputs fsC2 outs) with
          | Except.error e => Except.error e
          | Except.ok fsZ => Except.ok { fs := fsZ, log := st3.log }) : Except String St) = _
  rw [hCeq]
  show ((match readDirM fsC "./.tmp/microsite/pages" with
    | Except.error e => Except.error e
    | Except.ok fl =>
      match renderLoop cfg gstyle (trimJS gjs != "")
        ((fl.filter (endsWithB ".css")).map
          (fun f => (getName f, (fsGet fsC f).getD "")))
        ((fl.filter (endsWithB ".js")).map
          (fun f => (getName f, (fsGet fsC f).getD ""))) with
      | (none, lg) => Except.ok { fs := fsC, log := st3.log ++ lg }
      | (some outs, _) =>
        match cleanupM (writeOutputs fsC outs) with
        | Except.error e => Except.error e
        | Except.ok fsZ => Except.ok { fs := fsZ, log := st3.log }) : Except String St) = _
  rw [hreadDir]
  show ((match renderLoop cfg gstyle (trimJS gjs != "")
      ((((wpEntries Pz).map (·.1)).filter (endsWithB ".css")).map
        (fun f => (getName f, (fsGet fsC f).getD "")))
      ((((wpEntries Pz).map (·.1)).filter (endsWithB ".js")).map
        (fun f => (getName f, (fsGet fsC f).getD ""))) with
    | (none, lg) => Except.ok { fs := fsC, log := st3.log ++ lg }
    | (some outs, _) =>
      match cleanupM (writeOutputs fsC outs) with
      | Except.error e => Except.error e
      | Except.ok fsZ => Except.ok { fs := fsZ, log := st3.log }) : Except String St) = _
  rw [hstyles, hpages]

theorem endsWith_html_append (X : List Char) :
    endsWithB ".html" ⟨X ++ ".html".data⟩ = true := by
  unfold endsWithB
  show List.isSuffixOf _ _ = true
  apply List.isSuffixOf_iff_suffix.mpr
  exact ⟨X, rfl⟩

theorem strMk_ne_empty {l : List Char} (h : l ≠ []) : (⟨l⟩ : String) ≠ "" := by
  intro he
  exact h (strMk_inj he)

theorem dist_not_tmp {x : String} (h : underEqB "dist" x = true) :
    underB ".tmp" x = false := by
  rcases Bool.or_eq_true_iff.mp h with hx | hx
  · rw [eq_of_beq hx]
    decide
  · exact underB_disjoint2 hx (by decide) (by decide)

theorem dist_not_tmpms {x : String} (h : underEqB "dist" x = true) :
    underEqB ".tmp/microsite" x = false :=
  underEq_disjoint (by decide) (by decide) (by decide) (by decide) (by decide) h

theorem forall2_mem_right {α β : Type} {R : α → β → Prop} {l1 : List α} {l2 : List β}
    (h : List.Forall₂ R l1 l2) {b : β} (hb : b ∈ l2) : ∃ a ∈ l1, R a b := by
  induction h with
  | nil => exact absurd hb (by simp)
  | cons hr _ ih =>
    rcases List.mem_cons.mp hb with he | hm
    · exact ⟨_, by simp, he ▸ hr⟩
    · obtain ⟨a, ha, har⟩ := ih hm
      exact ⟨a, List.mem_cons_of_mem _ ha, har⟩

theorem forall2_mem_left {α β : Type} {R : α → β → Prop} {l1 : List α} {l2 : List β}
    (h : List.Forall₂ R l1 l2) {a : α} (ha : a ∈ l1) : ∃ b ∈ l2, R a b := by
  induction h with
  | nil => exact absurd ha (by simp)
  | cons hr _ ih =>
    rcases List.mem_cons.mp ha with he | hm
    · exact ⟨_, by simp, he ▸ hr⟩
    · obtain ⟨b, hb, hbr⟩ := ih hm
      exact ⟨b, List.mem_cons_of_mem _ hb, hbr⟩

theorem forall2_names {R : String × String → String × String → Prop}
    {l1 l2 : List (String × String)}
    (h : List.Forall₂ R l1 l2) (hR : ∀ a b, R a b → b.1 = a.1) :
    l2.map (·.1) = l1.map (·.1) := by
  induction h with
  | nil => rfl
  | cons hr htail ih =>
    simp only [List.map_cons]
    rw [ih, hR _ _ hr]

theorem pzPages_names_nodup {Pz : List (String × (String × Option String))}
    (hP : ∀ pe ∈ Pz, isPagePath pe.1 = true)
    (hPnd : (Pz.map (·.1)).Nodup) :
    ((pzPages Pz).map (·.1)).Nodup := by
  induction Pz with
  | nil => simp [pzPages]
  | cons qe r ih =>
    obtain ⟨q, jsq, cssq⟩ := qe
    have hq : isPagePath q = true := hP (q, (jsq, cssq)) (by simp)
    have hPr : ∀ pe2 ∈ r, isPagePath pe2.1 = true :=
      fun pe2 h2 => hP pe2 (List.mem_cons_of_mem _ h2)
    have hndr : (r.map (·.1)).Nodup := (List.nodup_cons.mp hPnd).2
    have hqnotin : q ∉ r.map (·.1) := by
      have := (List.nodup_cons.mp hPnd).1
      simpa using this
    show (((pzPages r) ++ [(getName (stagedJsPath q), jsq)]).map (·.1)).Nodup
    rw [List.map_append]
    apply List.nodup_append.mpr
    refine ⟨ih hPr hndr, by simp, ?_⟩
    intro n hn
    simp only [List.map_cons, List.map_nil, List.mem_singleton]
    obtain ⟨pg, hpg, hpge⟩ := List.mem_map.mp hn
    obtain ⟨pe2, hpe2, he2⟩ := pzPages_mem hpg
    subst hpge
    rw [he2]
    show getName (stagedJsPath pe2.1) ≠ getName (stagedJsPath q)
    intro hname
    exact hqnotin ((pageName_inj (hPr pe2 hpe2) hq hname) ▸
      List.mem_map_of_mem (·.1) hpe2)

theorem woEntries_keys (outs : List (String × String)) :
    (woEntries outs).map (·.1) =
      ((outs.map (fun o => normPath ("./dist/" ++ o.1 ++ ".html"))).reverse) := by
  induction outs with
  | nil => rfl
  | cons oc r ih =>
    obtain ⟨name, content⟩ := oc
    show ((woEntries r ++ [(normPath ("./dist/" ++ name ++ ".html"), content)]).map (·.1)) = _
    rw [List.map_append, ih]
    simp

theorem woEntries_mem_of {outs : List (String × String)} {out : String × String}
    (h : out ∈ outs) :
    (normPath ("./dist/" ++ out.1 ++ ".html"), out.2) ∈ woEntries outs := by
  induction outs with
  | nil => exact absurd h (by simp)
  | cons oc r ih =>
    obtain ⟨name, content⟩ := oc
    rcases List.mem_cons.mp h with he | hm
    · show _ ∈ woEntries r ++ [(normPath ("./dist/" ++ name ++ ".html"), content)]
      apply List.mem_append_right
      rw [he]
      simp
    · show _ ∈ woEntries r ++ [(normPath ("./dist/" ++ name ++ ".html"), content)]
      exact List.mem_append_left _ (ih hm)

set_option maxHeartbeats 2000000 in
/-- When some page's render throws, `build` still resolves: it logs the two
console lines and returns early, leaving the filesystem exactly as it was
after the conditional global-script copies — no HTML and no cleanup. -/
theorem buildTail_abort (cfg : Collab) (st3 : St)
    (Pz : List (String × (String × Option String)))
    (gjs ljs gstyle : String) (lcss : Option String)
    (rest : List (String × String))
    (hfiles : st3.fs.files = wpEntries Pz ++ (wgEntries gjs (some gstyle) ljs lcss ++ rest))
    (hdist : dirExistsB st3.fs "dist" = true)
    (hP : ∀ pe ∈ Pz, isPagePath pe.1 = true)
    (hwf : WF st3.fs)
    (hrest : ∀ kv ∈ rest, underEqB ".tmp/microsite" kv.1 = false ∧
      (underEqB "dist" kv.1 = true → (endsWithB ".html" kv.1 = false ∧
        kv.1 ≠ "dist/index.js" ∧ kv.1 ≠ "dist/index.legacy.js")))
    (hPne : Pz ≠ [])
    (habort : (renderLoop cfg gstyle (trimJS gjs != "") (pzStyles Pz) (pzPages Pz)).1 =
      none) :
    ∃ (fsC : FS) (lg : List String),
      buildTail cfg st3 = .ok { fs := fsC, log := st3.log ++ lg } ∧
      fsC.files = gCopies (trimJS gjs != "") gjs ljs ++ st3.fs.files ∧
      fsC.dirs = st3.fs.dirs ∧
      WF fsC ∧
      (∃ page ∈ pzPages Pz, ∃ e,
        cfg.renderPage (renderReqOf gstyle (trimJS gjs != "") (pzStyles Pz) page) =
          .error e ∧
        lg = ["Error building " ++ page.1, e]) := by
  obtain ⟨fsC, hCfiles, hCdirs, hCwf, hCeq⟩ :=
    buildTail_core cfg st3 Pz gjs ljs gstyle lcss rest hfiles hdist hP hwf hrest hPne
  cases hrl : renderLoop cfg gstyle (trimJS gjs != "") (pzStyles Pz) (pzPages Pz) with
  | mk o lg =>
    cases o with
    | some outs =>
      rw [hrl] at habort
      exact absurd habort (by simp)
    | none =>
      obtain ⟨page, hpg, e, he, hlg⟩ := renderLoop_abort cfg gstyle (trimJS gjs != "")
        (pzStyles Pz) (pzPages Pz) (by rw [hrl])
      rw [hrl] at hlg
      refine ⟨fsC, lg, ?_, hCfiles, hCdirs, hCwf, page, hpg, e, he, hlg⟩
      rw [hCeq, hrl]

set_option maxHeartbeats 4000000 in
/-- `cleanup()` after a successful write pass: the staging tree disappears,
`./.tmp` disappears exactly when no stray file lives inside it, and the
written outputs, copies and untouched files survive. -/
theorem finalize_state (fsW : FS)
    (wo cop : List (String × String))
    (Pz : List (String × (String × Option String)))
    (gjs ljs gstyle : String) (lcss : Option String)
    (rest : List (String × String)) (wond nd restd : List String)
    (hfiles : fsW.files = wo ++ (cop ++ (wpEntries Pz ++
      (wgEntries gjs (some gstyle) ljs lcss ++ rest))))
    (hwo : ∀ kv ∈ wo, underEqB "dist" kv.1 = true)
    (hcop : ∀ kv ∈ cop, kv.1 = "dist/index.js" ∨ kv.1 = "dist/index.legacy.js")
    (hdirs : fsW.dirs = wond ++ (nd ++ ([".tmp", ".tmp/microsite", "dist"] ++ restd)))
    (hwond : ∀ d ∈ wond, underEqB "dist" d = true)
    (hnd : ∀ d ∈ nd, d = ".tmp" ∨ underEqB ".tmp/microsite" d = true)
    (hrestd : ∀ d ∈ restd, underB ".tmp" d = false)
    (hP : ∀ pe ∈ Pz, isPagePath pe.1 = true)
    (hrest : ∀ kv ∈ rest, underEqB ".tmp/microsite" kv.1 = false)
    (hwfW : WF fsW) :
    ∃ fsZ : FS, cleanupM fsW = .ok fsZ ∧
      fsZ.files = wo ++ (cop ++ rest) ∧
      WF fsZ ∧
      dirExistsB fsZ ".tmp/microsite" = false ∧
      (rest.filter (fun kv => underB ".tmp" kv.1) = [] →
        dirExistsB fsZ ".tmp" = false) ∧
      (rest.filter (fun kv => underB ".tmp" kv.1) ≠ [] →
        dirExistsB fsZ ".tmp" = true) := by
  have htmp : (".tmp" : String) ∈ fsW.dirs := by
    rw [hdirs]
    apply List.mem_append_right
    apply List.mem_append_right
    simp
  have hdirsp : ∀ d ∈ fsW.dirs, underB ".tmp" d = true →
      underEqB ".tmp/microsite" d = true := by
    intro d hd hu
    rw [hdirs] at hd
    rcases List.mem_append.mp hd with hm | hm
    · rw [dist_not_tmp (hwond d hm)] at hu
      exact absurd hu (by simp)
    · rcases List.mem_append.mp hm with hm | hm
      · rcases hnd d hm with he | he
        · rw [he] at hu
          exact absurd hu (by decide)
        · exact he
      · rcases List.mem_append.mp hm with hm | hm
        · rcases List.mem_cons.mp hm with he | hm2
          · rw [he] at hu
            exact absurd hu (by decide)
          · rcases List.mem_cons.mp hm2 with he | hm3
            · rw [he]
              decide
            · rw [List.mem_singleton.mp hm3] at hu
              exact absurd hu (by decide)
        · rw [hrestd d hm] at hu
          exact absurd hu (by simp)
  have hclean := cleanupM_run fsW htmp hdirsp
  -- the surviving files after the staging delete
  have hfiles1 : (rmdirRec fsW "./.tmp/microsite").files = wo ++ (cop ++ rest) := by
    unfold rmdirRec
    simp only
    rw [show (normPath "./.tmp/microsite" : String) = ".tmp/microsite" from by decide,
      hfiles, List.filter_append, List.filter_append, List.filter_append,
      List.filter_append]
    rw [List.filter_eq_self.mpr (by
      intro kv hkv
      simp only [Bool.not_eq_true']
      exact dist_not_tmpms (hwo kv hkv))]
    rw [List.filter_eq_self.mpr (by
      intro kv hkv
      simp only [Bool.not_eq_true']
      rcases hcop kv hkv with he | he <;> (rw [he]; decide))]
    rw [List.filter_eq_nil_iff.mpr (by
      intro kv hkv
      have hue := under_pages_under_tmpms (wpEntries_key_under hP hkv)
      simp [hue])]
    rw [List.filter_eq_nil_iff.mpr (by
      intro kv hkv
      simp only [Bool.not_eq_true, Bool.not_eq_false]
      rcases wgEntries_key_cases hkv with he | he | he | he <;> (rw [he]; decide))]
    rw [List.filter_eq_self.mpr (by
      intro kv hkv
      simp only [Bool.not_eq_true']
      exact hrest kv hkv)]
    simp
  -- the recursive listing of `./.tmp` contains exactly the stray files
  have hstray : filesUnder (rmdirRec fsW "./.tmp/microsite") "./.tmp" =
      (rest.filter (fun kv => underB ".tmp" kv.1)).map (·.1) := by
    unfold filesUnder
    rw [show (normPath "./.tmp" : String) = ".tmp" from by decide, hfiles1,
      List.map_append, List.map_append, List.filter_append, List.filter_append]
    rw [List.filter_eq_nil_iff.mpr (by
      intro k hk
      obtain ⟨kv, hkv, hkve⟩ := List.mem_map.mp hk
      subst hkve
      simp only [Bool.not_eq_true]
      exact dist_not_tmp (hwo kv hkv))]
    rw [List.filter_eq_nil_iff.mpr (by
      intro k hk
      obtain ⟨kv, hkv, hkve⟩ := List.mem_map.mp hk
      subst hkve
      simp only [Bool.not_eq_true]
      rcases hcop kv hkv with he | he <;> (rw [he]; decide))]
    rw [← map_fst_filter_key rest (fun k => underB ".tmp" k)]
    rfl
  cases hE : (rest.filter (fun kv => underB ".tmp" kv.1)) with
  | nil =>
    have hEmp : (filesUnder (rmdirRec fsW "./.tmp/microsite") "./.tmp").isEmpty = true := by
      rw [hstray, hE]
      rfl
    rw [hEmp] at hclean
    simp only [if_true] at hclean
    refine ⟨_, hclean, ?_, ?_, ?_, ?_, ?_⟩
    · exact hfiles1
    · -- well-formedness of the final state
      refine ⟨?_, ?_, ?_⟩
      · intro kv hkv
        exact hwfW.1 kv (List.mem_of_mem_filter hkv)
      · show ((fsW.files.filter (fun kv => !underEqB (normPath "./.tmp/microsite") kv.1)).map
          (·.1)).Nodup
        rw [map_fst_filter_key _ (fun k => !underEqB (normPath "./.tmp/microsite") k)]
        exact hwfW.2.1.filter _
      · intro d hd
        exact hwfW.2.2 d (List.mem_of_mem_filter (List.mem_of_mem_filter hd))
    · -- the staging directory is gone
      unfold dirExistsB
      rw [show (normPath ".tmp/microsite" : String) = ".tmp/microsite" from by decide]
      simp only [Bool.or_eq_false_iff]
      refine ⟨⟨by decide, ?_⟩, ?_⟩
      · apply List.any_eq_false.mpr
        intro d hd
        have hk := List.of_mem_filter (List.mem_of_mem_filter hd)
        simpa using hk
      · apply List.any_eq_false.mpr
        intro kv hkv
        rw [hfiles1] at hkv
        simp only [Bool.not_eq_true]
        cases hu : underB ".tmp/microsite" kv.1 with
        | false => rfl
        | true =>
          have hue := underB_underEqB hu
          rcases List.mem_append.mp hkv with hm | hm
          · rw [dist_not_tmpms (hwo kv hm)] at hue
            exact absurd hue (by simp)
          · rcases List.mem_append.mp hm with hm | hm
            · rcases hcop kv hm with he | he <;>
                (rw [he] at hue; exact absurd hue (by decide))
            · rw [hrest kv hm] at hue
              exact absurd hue (by simp)
    · -- `.tmp` was removed
      intro _
      unfold dirExistsB
      rw [show (normPath ".tmp" : String) = ".tmp" from by decide]
      simp only [Bool.or_eq_false_iff]
      refine ⟨⟨by decide, ?_⟩, ?_⟩
      · apply List.any_eq_false.mpr
        intro d hd
        have hne := List.of_mem_filter hd
        have hd1 := List.mem_of_mem_filter hd
        have hkeep1 := List.of_mem_filter hd1
        have hdW := List.mem_of_mem_filter hd1
        simp only [bne_iff_ne, ne_eq] at hne
        have hkeep2 : underEqB ".tmp/microsite" d = false := by
          have h3 : (!underEqB (normPath "./.tmp/microsite") d) = true := hkeep1
          rw [show (normPath "./.tmp/microsite" : String) = ".tmp/microsite"
            from by decide] at h3
          simpa using h3
        have hfinal : underEqB ".tmp" d = false := by
          unfold underEqB
          simp only [Bool.or_eq_false_iff]
          refine ⟨by simpa using hne, ?_⟩
          cases hu : underB ".tmp" d with
          | false => rfl
          | true =>
            have := hdirsp d hdW hu
            rw [this] at hkeep2
            exact absurd hkeep2 (by simp)
        simp [hfinal]
      · apply List.any_eq_false.mpr
        intro kv hkv
        rw [hfiles1] at hkv
        simp only [Bool.not_eq_true]
        rcases List.mem_append.mp hkv with hm | hm
        · exact dist_not_tmp (hwo kv hm)
        · rcases List.mem_append.mp hm with hm | hm
          · rcases hcop kv hm with he | he <;> (rw [he]; decide)
          · cases hu : underB ".tmp" kv.1 with
            | false => rfl
            | true =>
              have : kv ∈ rest.filter (fun kv => underB ".tmp" kv.1) :=
                List.mem_filter.mpr ⟨hm, hu⟩
              rw [hE] at this
              exact absurd this (by simp)
    · intro hne
      exact absurd rfl hne
  | cons kv0 t =>
    have hEmp : (filesUnder (rmdirRec fsW "./.tmp/microsite") "./.tmp").isEmpty = false := by
      rw [hstray, hE]
      rfl
    rw [hEmp] at hclean
    simp only [if_false, Bool.false_eq_true] at hclean
    refine ⟨_, hclean, hfiles1, WF_rmdirRec fsW _ hwfW, ?_, ?_, ?_⟩
    · -- the staging directory is gone
      unfold dirExistsB
      rw [show (normPath ".tmp/microsite" : String) = ".tmp/microsite" from by decide]
      simp only [Bool.or_eq_false_iff]
      refine ⟨⟨by decide, ?_⟩, ?_⟩
      · apply List.any_eq_false.mpr
        intro d hd
        have hk := List.of_mem_filter hd
        rw [show (normPath "./.tmp/microsite" : String) = ".tmp/microsite"
          from by decide] at hk
        simpa using hk
      · apply List.any_eq_false.mpr
        intro kv hkv
        rw [hfiles1] at hkv
        simp only [Bool.not_eq_true]
        cases hu : underB ".tmp/microsite" kv.1 with
        | false => rfl
        | true =>
          have hue := underB_underEqB hu
          rcases List.mem_append.mp hkv with hm | hm
          · rw [dist_not_tmpms (hwo kv hm)] at hue
            exact absurd hue (by simp)
          · rcases List.mem_append.mp hm with hm | hm
            · rcases hcop kv hm with he | he <;>
                (rw [he] at hue; exact absurd hue (by decide))
            · rw [hrest kv hm] at hue
              exact absurd hue (by simp)
    · intro h0
      exact absurd h0 (by simp)
    · intro _
      have hkv0 : kv0 ∈ rest.filter (fun kv => underB ".tmp" kv.1) := by
        rw [hE]
        simp
      have hkv0r : kv0 ∈ rest := List.mem_of_mem_filter hkv0
      have hkv0u : underB ".tmp" kv0.1 = true := by
        have := List.of_mem_filter hkv0
        simpa using this
      have hmemf : kv0 ∈ (rmdirRec fsW "./.tmp/microsite").files := by
        rw [hfiles1]
        apply List.mem_append_right
        exact List.mem_append_right _ hkv0r
      apply dirExistsB_of_file _ _ hmemf
      rw [show (normPath ".tmp" : String) = ".tmp" from by decide]
      exact hkv0u

theorem woEntries_mem {outs : List (String × String)} {kv : String × String}
    (h : kv ∈ woEntries outs) :
    ∃ out ∈ outs, kv = (normPath ("./dist/" ++ out.1 ++ ".html"), out.2) := by
  induction outs with
  | nil => simp [woEntries] at h
  | cons oc r ih =>
    obtain ⟨name, content⟩ := oc
    have h2 : kv ∈ woEntries r ++ [(normPath ("./dist/" ++ name ++ ".html"), content)] := h
    rcases List.mem_append.mp h2 with hm | hm
    · obtain ⟨out, hOut, he⟩ := ih hm
      exact ⟨out, List.mem_cons_of_mem _ hOut, he⟩
    · exact ⟨(name, content), by simp, List.mem_singleton.mp hm⟩

theorem map_key_nodup {outs : List (String × String)} (g : String → String)
    (hnames : (outs.map (·.1)).Nodup)
    (hinj : ∀ o1 ∈ outs, ∀ o2 ∈ outs, g o1.1 = g o2.1 → o1.1 = o2.1) :
    (outs.map (fun o => g o.1)).Nodup := by
  induction outs with
  | nil => simp
  | cons o r ih =>
    simp only [List.map_cons]
    apply List.nodup_cons.mpr
    refine ⟨?_, ih (List.nodup_cons.mp hnames).2
      (fun o1 h1 o2 h2 => hinj o1 (List.mem_cons_of_mem _ h1)
        o2 (List.mem_cons_of_mem _ h2))⟩
    intro hmem
    obtain ⟨o2, ho2, he2⟩ := List.mem_map.mp hmem
    have : o.1 = o2.1 := hinj o (by simp) o2 (List.mem_cons_of_mem _ ho2) he2.symm
    have hhd := (List.nodup_cons.mp hnames).1
    apply hhd
    show o.1 ∈ r.map (·.1)
    rw [this]
    exact List.mem_map_of_mem (·.1) ho2

set_option maxHeartbeats 8000000 in
/-- A successful tail run: every staged page is rendered with its own
stylesheet (global stylesheet handling inside `styleList`), its HTML lands at
the spec path under `dist`, the global copies appear exactly when the global
script is non-blank, staging is removed, and `.tmp` is removed exactly when
no stray file lives inside it. -/
theorem buildTail_ok (cfg : Collab) (st3 : St)
    (Pz : List (String × (String × Option String)))
    (gjs ljs gstyle : String) (lcss : Option String)
    (rest : List (String × String)) (nd restd : List String)
    (hfiles : st3.fs.files = wpEntries Pz ++ (wgEntries gjs (some gstyle) ljs lcss ++ rest))
    (hdirs : st3.fs.dirs = nd ++ ([".tmp", ".tmp/microsite", "dist"] ++ restd))
    (hnd : ∀ d ∈ nd, d = ".tmp" ∨ underEqB ".tmp/microsite" d = true)
    (hrestd : ∀ d ∈ restd, underB ".tmp" d = false)
    (hP : ∀ pe ∈ Pz, isPagePath pe.1 = true)
    (hPnd : (Pz.map (·.1)).Nodup)
    (hwf : WF st3.fs)
    (hrest : ∀ kv ∈ rest, underEqB ".tmp/microsite" kv.1 = false ∧
      (underEqB "dist" kv.1 = true → (endsWithB ".html" kv.1 = false ∧
        kv.1 ≠ "dist/index.js" ∧ kv.1 ≠ "dist/index.legacy.js")))
    (hPne : Pz ≠ [])
    (hrender : ∀ pe ∈ Pz, ∃ h, cfg.renderPage
      { pageModule := pe.2.1, hasScripts := (trimJS gjs != ""),
        styles := styleList gstyle pe.2.2, pretty := true } = .ok h) :
    ∃ st' : St, buildTail cfg st3 = .ok st' ∧ st'.log = st3.log ∧ WF st'.fs ∧
      (∀ pe ∈ Pz, ∃ html, cfg.renderPage
          { pageModule := pe.2.1, hasScripts := (trimJS gjs != ""),
            styles := styleList gstyle pe.2.2, pretty := true } = .ok html ∧
        fsGet st'.fs (specHtmlPath (stagedJsPath pe.1)) =
          some ("<!DOCTYPE html>\n" ++ html)) ∧
      ((trimJS gjs != "") = true → fsGet st'.fs "dist/index.js" = some gjs ∧
        fsGet st'.fs "dist/index.legacy.js" = some ljs) ∧
      ((trimJS gjs != "") = false → fsGet st'.fs "dist/index.js" = none ∧
        fsGet st'.fs "dist/index.legacy.js" = none) ∧
      dirExistsB st'.fs ".tmp/microsite" = false ∧
      (rest.filter (fun kv => underB ".tmp" kv.1) = [] →
        dirExistsB st'.fs ".tmp" = false) ∧
      (rest.filter (fun kv => underB ".tmp" kv.1) ≠ [] →
        dirExistsB st'.fs ".tmp" = true) ∧
      (∀ kv ∈ rest, fsGet st'.fs kv.1 = some kv.2) := by
  have hdist : dirExistsB st3.fs "dist" = true := by
    have hmemd : ("dist" : String) ∈ st3.fs.dirs := by
      rw [hdirs]
      simp
    exact dirExistsB_of_dir st3.fs "dist" hmemd (by decide)
  obtain ⟨fsC, hCfiles, hCdirs, hCwf, hCeq⟩ :=
    buildTail_core cfg st3 Pz gjs ljs gstyle lcss rest hfiles hdist hP hwf hrest hPne
  have hreqEq : ∀ pe ∈ Pz, renderReqOf gstyle (trimJS gjs != "") (pzStyles Pz)
      (getName (stagedJsPath pe.1), pe.2.1) =
      { pageModule := pe.2.1, hasScripts := (trimJS gjs != ""),
        styles := styleList gstyle pe.2.2, pretty := true } := by
    intro pe hpe
    show ({ pageModule := pe.2.1, hasScripts := (trimJS gjs != ""),
            styles := styleList gstyle (((pzStyles Pz).find?
              (fun s => s.1 == getName (stagedJsPath pe.1))).map (·.2)),
            pretty := true } : RenderReq) = _
    rw [pzStyles_find hP hPnd hpe]
    cases hcss : pe.2.2 with
    | none => rfl
    | some c => rfl
  have hrender2 : ∀ page ∈ pzPages Pz, ∃ h,
      cfg.renderPage (renderReqOf gstyle (trimJS gjs != "") (pzStyles Pz) page) = .ok h := by
    intro page hpg
    obtain ⟨pe, hpe, he⟩ := pzPages_mem hpg
    obtain ⟨h, hh⟩ := hrender pe hpe
    refine ⟨h, ?_⟩
    rw [he, hreqEq pe hpe]
    exact hh
  obtain ⟨outs, hout, hfa⟩ := renderLoop_ok cfg gstyle (trimJS gjs != "")
    (pzStyles Pz) (pzPages Pz) hrender2
  have houtnames : outs.map (·.1) = (pzPages Pz).map (·.1) :=
    forall2_names hfa (fun a b hr => hr.1)
  have houtmem : ∀ out ∈ outs, ∃ pe ∈ Pz, out.1 = getName (stagedJsPath pe.1) := by
    intro out ho
    obtain ⟨page, hpg, hR⟩ := forall2_mem_right hfa ho
    obtain ⟨pe, hpe, he⟩ := pzPages_mem hpg
    exact ⟨pe, hpe, by rw [hR.1, he]⟩
  have hkey_of_out : ∀ out ∈ outs, ∃ stem : List Char,
      normPath ("./dist/" ++ out.1 ++ ".html") =
        ⟨"dist/".data ++ (stem ++ ".html".data)⟩ ∧
      (∀ a ∈ ancestors (normPath ("./dist/" ++ dirnameJS out.1)),
        underEqB "dist" a = true) := by
    intro out hOut
    obtain ⟨pe, hpe, hname⟩ := houtmem out hOut
    obtain ⟨stem, hpd, f1, f2, f3, f4, f6, f5, f8, f9⟩ := page_staged_facts (hP pe hpe)
    refine ⟨stem, ?_, ?_⟩
    · rw [hname, f3]
      exact f5
    · rw [hname, f3]
      exact f9
  have hwoDist : ∀ kv ∈ woEntries outs, underEqB "dist" kv.1 = true ∧
      endsWithB ".html" kv.1 = true := by
    intro kv hkv
    obtain ⟨out, hOut, he⟩ := woEntries_mem hkv
    obtain ⟨stem, hk, _⟩ := hkey_of_out out hOut
    rw [he]
    show underEqB "dist" (normPath ("./dist/" ++ out.1 ++ ".html")) = true ∧
      endsWithB ".html" (normPath ("./dist/" ++ out.1 ++ ".html")) = true
    rw [hk]
    constructor
    · apply underB_underEqB
      show underB "dist" ⟨"dist".data ++ '/' :: (stem ++ ".html".data)⟩ = true
      exact underB_append "dist" (stem ++ ".html".data)
    · rw [show ("dist/".data ++ (stem ++ ".html".data) : List Char) =
        ("dist/".data ++ stem) ++ ".html".data from (List.append_assoc _ _ _).symm]
      exact endsWith_html_append _
  have hwoNodup : ((woEntries outs).map (·.1)).Nodup := by
    rw [woEntries_keys]
    apply List.nodup_reverse.mpr
    apply map_key_nodup (fun n => normPath ("./dist/" ++ n ++ ".html"))
    · rw [houtnames]
      exact pzPages_names_nodup hP hPnd
    · intro o1 h1 o2 h2 hg
      obtain ⟨pe1, hpe1, hn1⟩ := houtmem o1 h1
      obtain ⟨pe2, hpe2, hn2⟩ := houtmem o2 h2
      obtain ⟨s1, _, _, _, f3a, _, _, f5a, _, _⟩ := page_staged_facts (hP pe1 hpe1)
      obtain ⟨s2, _, _, _, f3b, _, _, f5b, _, _⟩ := page_staged_facts (hP pe2 hpe2)
      rw [hn1, f3a, hn2, f3b] at hg ⊢
      rw [f5a, f5b] at hg
      have hst : s1 = s2 :=
        List.append_cancel_right (List.append_cancel_left (strMk_inj hg))
      rw [hst]
  have hwoFresh : ∀ k ∈ (woEntries outs).map (·.1), ∀ kv ∈ fsC.files, kv.1 ≠ k := by
    intro k hkm kv hkv he
    obtain ⟨kv0, hkv0, hkv0e⟩ := List.mem_map.mp hkm
    obtain ⟨hkDist, hkHtml⟩ := hwoDist kv0 hkv0
    rw [hkv0e] at hkDist hkHtml
    rw [hCfiles] at hkv
    rcases List.mem_append.mp hkv with hm | hm
    · -- the copies do not end in `.html`
      unfold gCopies at hm
      cases hGb : (trimJS gjs != "") with
      | false =>
        rw [hGb] at hm
        simp at hm
      | true =>
        rw [hGb] at hm
        simp only [if_true] at hm
        rcases List.mem_cons.mp hm with heq | hm2
        · rw [heq] at he
          have he2 : ("dist/index.legacy.js" : String) = k := he
          rw [← he2] at hkHtml
          exact absurd hkHtml (by decide)
        · rw [List.mem_singleton.mp hm2] at he
          have he2 : ("dist/index.js" : String) = k := he
          rw [← he2] at hkHtml
          exact absurd hkHtml (by decide)
    · rw [hfiles] at hm
      rcases List.mem_append.mp hm with hm | hm
      · have hu := under_tmpms_under_tmp (under_pages_under_tmpms
          (wpEntries_key_under hP hm))
        rw [he] at hu
        rw [dist_not_tmp hkDist] at hu
        exact absurd hu (by simp)
      · rcases List.mem_append.mp hm with hm | hm
        · rcases wgEntries_key_cases hm with heq | heq | heq | heq <;>
            (rw [heq] at he; rw [← he] at hkDist; exact absurd hkDist (by decide))
        · have hcond := (hrest kv hm).2 (by rw [he]; exact hkDist)
          rw [he] at hcond
          rw [hcond.1] at hkHtml
          exact absurd hkHtml (by simp)
  have hwoFiles := writeOutputs_files outs fsC hwoNodup hwoFresh
  obtain ⟨wond, hwond_eq, hwondp⟩ := writeOutputs_dirs outs fsC (by
    intro out hOut
    obtain ⟨stem, _, hanc⟩ := hkey_of_out out hOut
    exact hanc)
  have hwfW : WF (writeOutputs fsC outs) := by
    apply WF_writeOutputs fsC outs hCwf
    intro out hOut
    obtain ⟨stem, hk, _⟩ := hkey_of_out out hOut
    rw [hk]
    exact strMk_ne_empty (by simp)
  obtain ⟨fsZ, hcl, hZfiles, hZwf, hZtmpms, hZtmpF, hZtmpT⟩ :=
    finalize_state (writeOutputs fsC outs) (woEntries outs)
      (gCopies (trimJS gjs != "") gjs ljs) Pz gjs ljs gstyle lcss rest wond nd restd
      (by
        rw [hwoFiles, hCfiles, hfiles])
      (fun kv hkv => (hwoDist kv hkv).1)
      (by
        intro kv hkv
        unfold gCopies at hkv
        cases hGb : (trimJS gjs != "") with
        | false => rw [hGb] at hkv; simp at hkv
        | true =>
          rw [hGb] at hkv
          simp only [if_true] at hkv
          rcases List.mem_cons.mp hkv with heq | hm2
          · exact Or.inr (by rw [heq])
          · exact Or.inl (by rw [List.mem_singleton.mp hm2]))
      (by rw [hwond_eq, hCdirs, hdirs])
      hwondp hnd hrestd hP (fun kv hkv => (hrest kv hkv).1) hwfW
  refine ⟨{ fs := fsZ, log := st3.log }, ?_, rfl, hZwf, ?_, ?_, ?_, hZtmpms,
    hZtmpF, hZtmpT, ?_⟩
  · -- the run equation
    rw [hCeq, hout]
    show ((match cleanupM (writeOutputs fsC outs) with
      | Except.error e => Except.error e
      | Except.ok fsZ2 => Except.ok { fs := fsZ2, log := st3.log }) : Except String St) = _
    rw [hcl]
  · -- each page's HTML at the spec path
    intro pe hpe
    have hpg : (getName (stagedJsPath pe.1), pe.2.1) ∈ pzPages Pz := pzPages_mem_of hpe
    obtain ⟨out, hOut, hR⟩ := forall2_mem_left hfa hpg
    obtain ⟨ho1, h, hrp, ho2⟩ := hR
    rw [hreqEq pe hpe] at hrp
    refine ⟨h, hrp, ?_⟩
    obtain ⟨stem, hpd, f1, f2, f3, f4, f6, f5, f8, f9⟩ := page_staged_facts (hP pe hpe)
    have hkey : normPath ("./dist/" ++ out.1 ++ ".html") =
        specHtmlPath (stagedJsPath pe.1) := by
      rw [ho1, f3, f5, f6]
    have hmemZ : (specHtmlPath (stagedJsPath pe.1), out.2) ∈ fsZ.files := by
      rw [hZfiles]
      apply List.mem_append_left
      rw [← hkey]
      exact woEntries_mem_of hOut
    have hget : fsGet fsZ (specHtmlPath (stagedJsPath pe.1)) = some out.2 :=
      fsGet_self hZwf hmemZ
    rw [hget, ho2]
  · -- copies present when the global script is non-blank
    intro hGt
    have hcopL : gCopies (trimJS gjs != "") gjs ljs =
        [(("dist/index.legacy.js" : String), ljs), (("dist/index.js" : String), gjs)] := by
      unfold gCopies
      rw [hGt]
      rfl
    constructor
    · have hmemZ : (("dist/index.js" : String), gjs) ∈ fsZ.files := by
        rw [hZfiles]
        apply List.mem_append_right
        apply List.mem_append_left
        rw [hcopL]
        simp
      exact fsGet_self hZwf hmemZ
    · have hmemZ : (("dist/index.legacy.js" : String), ljs) ∈ fsZ.files := by
        rw [hZfiles]
        apply List.mem_append_right
        apply List.mem_append_left
        rw [hcopL]
        simp
      exact fsGet_self hZwf hmemZ
  · -- no copies when the global script is blank
    intro hGf
    have hcopN : gCopies (trimJS gjs != "") gjs ljs = [] := by
      unfold gCopies
      rw [hGf]
      rfl
    have hnone : ∀ q : String, normPath q = q → endsWithB ".html" q = false →
        underEqB "dist" q = true → q ≠ "dist/index.js" → q ≠ "dist/index.legacy.js" →
        False → True := fun _ _ _ _ _ _ _ => trivial
    have hgen : ∀ q : String, q = "dist/index.js" ∨ q = "dist/index.legacy.js" →
        fsGet fsZ q = none := by
      intro q hq
      have hqn : normPath q = q := by
        rcases hq with he | he <;> (rw [he]; decide)
      unfold fsGet
      rw [hqn, List.find?_eq_none.mpr, Option.map_none']
      intro kv hkv
      simp only [beq_iff_eq]
      intro he
      rw [hZfiles, hcopN, List.nil_append] at hkv
      rcases List.mem_append.mp hkv with hm | hm
      · have hh := (hwoDist kv hm).2
        rw [he] at hh
        rcases hq with hqe | hqe <;> (rw [hqe] at hh; exact absurd hh (by decide))
      · have hcond := (hrest kv hm).2 (by
          rw [he]
          rcases hq with hqe | hqe <;> (rw [hqe]; decide))
        rcases hq with hqe | hqe
        · exact hcond.2.1 (he.trans hqe)
        · exact hcond.2.2 (he.trans hqe)
    exact ⟨hgen _ (Or.inl rfl), hgen _ (Or.inr rfl)⟩
  · -- untouched files survive
    intro kv hkv
    apply fsGet_self hZwf
    rw [hZfiles]
    apply List.mem_append_right
    exact List.mem_append_right _ hkv

theorem compilePages_length {cfg : Collab} {sv : List (String × String) × List String}
    {pages : List String} {outs : List (String × Option String)}
    (h : compilePages cfg sv pages = .ok outs) : outs.length = pages.length := by
  induction pages generalizing outs with
  | nil =>
    have : outs = [] := by
      have h2 : (Except.ok outs : Except String (List (String × Option String))) = .ok [] := by
        rw [← h]
        rfl
      simpa using h2.symm
    rw [this]
    rfl
  | cons p r ih =>
    have hstep : compilePages cfg sv (p :: r) =
        (match cfg.compilePage sv p with
          | .error e => .error e
          | .ok out =>
            match compilePages cfg sv r with
            | .error e => .error e
            | .ok outs2 => .ok (out :: outs2)) := rfl
    rw [hstep] at h
    cases hc : cfg.compilePage sv p with
    | error e => rw [hc] at h; exact absurd h (by simp)
    | ok out =>
      rw [hc] at h
      cases hr : compilePages cfg sv r with
      | error e => rw [hr] at h; exact absurd h (by simp)
      | ok outs2 =>
        rw [hr] at h
        have : outs = out :: outs2 := by simpa using h.symm
        rw [this]
        simp [ih hr]

theorem filter_key_eq_singleton {l : List (String × String)}
    (hnd : (l.map (·.1)).Nodup) {kv0 : String × String} (hm : kv0 ∈ l) :
    l.filter (fun kv => kv.1 == kv0.1) = [kv0] := by
  induction l with
  | nil => exact absurd hm (by simp)
  | cons hd t ih =>
    rcases List.mem_cons.mp hm with he | hmt
    · subst he
      rw [List.filter_cons_of_pos (by simp)]
      congr 1
      apply List.filter_eq_nil_iff.mpr
      intro x hx
      simp only [beq_iff_eq]
      intro hxe
      have := (List.nodup_cons.mp hnd).1
      apply this
      show kv0.1 ∈ t.map (·.1)
      rw [← hxe]
      exact List.mem_map_of_mem (·.1) hx
    · have hne : hd.1 ≠ kv0.1 := by
        intro he
        have := (List.nodup_cons.mp hnd).1
        apply this
        show hd.1 ∈ t.map (·.1)
        rw [he]
        exact List.mem_map_of_mem (·.1) hmt
      rw [List.filter_cons_of_neg (by simp [hne])]
      exact ih (List.nodup_cons.mp hnd).2 hmt

theorem fsGet_some_mem {fs : FS} {q c : String} (h : fsGet fs q = some c) :
    ∃ kv0 ∈ fs.files, kv0.1 = normPath q ∧ kv0.2 = c := by
  unfold fsGet at h
  cases hf : fs.files.find? (fun kv => kv.1 == normPath q) with
  | none => rw [hf] at h; exact absurd h (by simp)
  | some kv0 =>
    rw [hf] at h
    have hm := List.mem_of_find?_eq_some hf
    have hp := List.find?_some hf
    simp only [beq_iff_eq] at hp
    exact ⟨kv0, hm, hp, by simpa using h⟩

/-- A positive lookup pins down exactly one stored entry: the association
list is keyed uniquely in a well-formed filesystem. -/
theorem count_one_of_fsGet {fs : FS} (hwf : WF fs) {q c : String}
    (h : fsGet fs q = some c) :
    (fs.files.filter (fun kv => kv.1 == normPath q)).length = 1 := by
  obtain ⟨kv0, hm, hk, _⟩ := fsGet_some_mem h
  rw [← hk]
  rw [filter_key_eq_singleton hwf.2.1 hm]
  rfl

theorem WF_wgFS (fs : FS) (gjs : String) (gcss : Option String)
    (ljs : String) (lcss : Option String) (hwf : WF fs)
    (hfresh : ∀ kv ∈ fs.files, underEqB ".tmp/microsite" kv.1 = false) :
    WF (wgFS fs gjs gcss ljs lcss) := by
  have hf := wgFS_files fs gjs gcss ljs lcss hfresh
  obtain ⟨wgnd, hd, hdp⟩ := wgFS_dirs fs gjs gcss ljs lcss
  refine ⟨?_, ?_, ?_⟩
  · intro kv hkv
    rw [hf] at hkv
    rcases List.mem_append.mp hkv with hm | hm
    · rcases wgEntries_key_cases hm with he | he | he | he <;>
        (rw [he]; exact ⟨by decide, by decide⟩)
    · exact hwf.1 kv hm
  · rw [hf, List.map_append]
    apply List.nodup_append.mpr
    refine ⟨?_, hwf.2.1, ?_⟩
    · -- the four (or fewer) staged global keys are distinct
      unfold wgEntries
      cases gcss <;> cases lcss <;>
        (simp only [List.map_append, List.map_cons, List.map_nil]; decide)
    · intro k hk
      obtain ⟨kv, hkv, hke⟩ := List.mem_map.mp hk
      intro hk2
      obtain ⟨kv2, hkv2, hke2⟩ := List.mem_map.mp hk2
      have hue : underEqB ".tmp/microsite" k = true := by
        rw [← hke]
        rcases wgEntries_key_cases hkv with he | he | he | he <;> (rw [he]; decide)
      rw [← hke2] at hue
      rw [hfresh kv2 hkv2] at hue
      exact absurd hue (by simp)
  · intro d hd2
    rw [hd] at hd2
    rcases List.mem_append.mp hd2 with hm | hm
    · rcases hdp d hm with he | he <;> (rw [he]; exact ⟨by decide, by decide⟩)
    · exact hwf.2.2 d hm

theorem WF_writePageBundles (l : List (String × (String × Option String))) (fs : FS)
    (hP : ∀ pe ∈ l, isPagePath pe.1 = true)
    (hPnd : (l.map (·.1)).Nodup)
    (hwf : WF fs)
    (hfresh : ∀ k ∈ (wpEntries l).map (·.1), ∀ kv ∈ fs.files, kv.1 ≠ k) :
    WF (writePageBundles fs l) := by
  have hknd := wpEntries_keys_nodup hP hPnd
  have hf := writePageBundles_files l fs hknd hfresh
  obtain ⟨wpnd, hd, hdp⟩ := writePageBundles_dirs l fs
    (fun a => normPath a = a ∧ a ≠ "")
    (fun pe _ a ha => ancestors_norm_clean _ a ha)
  refine ⟨?_, ?_, ?_⟩
  · intro kv hkv
    rw [hf] at hkv
    rcases List.mem_append.mp hkv with hm | hm
    · obtain ⟨pe, hpe, ho⟩ := wpEntries_key_mem (List.mem_map_of_mem (·.1) hm)
      rcases ho with he | he <;> rw [he]
      · exact ⟨stagedJsPath_norm _, stagedJsPath_ne_empty (hP pe hpe)⟩
      · exact ⟨stagedCssPath_norm _, stagedCssPath_ne_empty (hP pe hpe)⟩
    · exact hwf.1 kv hm
  · rw [hf, List.map_append]
    apply List.nodup_append.mpr
    refine ⟨hknd, hwf.2.1, ?_⟩
    intro k hk
    obtain ⟨kv, hkv, hke⟩ := List.mem_map.mp hk
    intro hk2
    obtain ⟨kv2, hkv2, hke2⟩ := List.mem_map.mp hk2
    exact hfresh k hk kv2 hkv2 hke2
  · intro d hd2
    rw [hd] at hd2
    rcases List.mem_append.mp hd2 with hm | hm
    · exact hdp d hm
    · exact hwf.2.2 d hm


set_option maxHeartbeats 4000000 in
/-- A fully successful run of `build()`, described from the initial
filesystem: all stage effects composed. -/
theorem buildRun_ok (cfg : Collab) (fs0 : FS)
    (gjs ljs gstyle : String) (lcss : Option String)
    (outs : List (String × Option String))
    (hwf0 : WF fs0)
    (hpubf : fsGet fs0 "src/public" = none)
    (hpubd : dirExistsB fs0 "src/public" = true)
    (hflat : ∀ kv ∈ fs0.files, underB "src/public" kv.1 = true →
      (compsL kv.1.data).length = 3)
    (hpubsafe : ∀ kv ∈ fs0.files, underB "src/public" kv.1 = true →
      (endsWithB ".html" (pubDest kv.1) = false ∧ pubDest kv.1 ≠ "dist/index.js" ∧
        pubDest kv.1 ≠ "dist/index.legacy.js"))
    (hd0 : ∀ d ∈ fs0.dirs, underB ".tmp" d = false)
    (hg : cfg.compileGlobalModern (srcView fs0) = .ok (gjs, some gstyle))
    (hleg : cfg.compileGlobalLegacy (srcView fs0) = .ok (ljs, lcss))
    (hcp : compilePages cfg (srcView fs0) (discoverPages fs0) = .ok outs)
    (hPne : discoverPages fs0 ≠ [])
    (hrender : ∀ pe ∈ (discoverPages fs0).zip outs, ∃ h, cfg.renderPage
      { pageModule := pe.2.1, hasScripts := (trimJS gjs != ""),
        styles := styleList gstyle pe.2.2, pretty := true } = .ok h) :
    ∃ st' : St, buildRun cfg fs0 = .ok st' ∧ st'.log = [] ∧ WF st'.fs ∧
      (∀ pe ∈ (discoverPages fs0).zip outs, ∃ html, cfg.renderPage
          { pageModule := pe.2.1, hasScripts := (trimJS gjs != ""),
            styles := styleList gstyle pe.2.2, pretty := true } = .ok html ∧
        fsGet st'.fs (specHtmlPath (stagedJsPath pe.1)) =
          some ("<!DOCTYPE html>\n" ++ html)) ∧
      ((trimJS gjs != "") = true → fsGet st'.fs "dist/index.js" = some gjs ∧
        fsGet st'.fs "dist/index.legacy.js" = some ljs) ∧
      ((trimJS gjs != "") = false → fsGet st'.fs "dist/index.js" = none ∧
        fsGet st'.fs "dist/index.legacy.js" = none) ∧
      dirExistsB st'.fs ".tmp/microsite" = false ∧
      (∀ kv ∈ fs0.files, underB "src/public" kv.1 = true →
        fsGet st'.fs (pubDest kv.1) = some kv.2) ∧
      ((∀ kv ∈ fs0.files, underB ".tmp" kv.1 = false) →
        dirExistsB st'.fs ".tmp" = false) ∧
      ((∃ kv ∈ fs0.files, underB ".tmp" kv.1 = true ∧
          underEqB ".tmp/microsite" kv.1 = false) →
        dirExistsB st'.fs ".tmp" = true) := by
  obtain ⟨fs3, hprep, P1, P2, P3, P4, P5, hwf3⟩ :=
    prepare_ok { fs := fs0, log := [] } hwf0 hpubf hpubd hflat
  -- `prepare` leaves the source tree untouched
  have himp_src_dist : ∀ x : String × String, underEqB "src" x.1 = true →
      (!underEqB "dist" x.1) = true := by
    intro x hx
    rw [underEq_disjoint (by decide) (by decide) (by decide) (by decide) (by decide) hx]
    rfl
  have himp_src_tmpms : ∀ x : String × String, underEqB "src" x.1 = true →
      (!underEqB ".tmp/microsite" x.1) = true := by
    intro x hx
    rw [underEq_disjoint (by decide) (by decide) (by decide) (by decide) (by decide) hx]
    rfl
  have himp_srcd_dist : ∀ x : String, underEqB "src" x = true →
      (!underEqB "dist" x) = true := by
    intro x hx
    rw [underEq_disjoint (by decide) (by decide) (by decide) (by decide) (by decide) hx]
    rfl
  have himp_srcd_tmpms : ∀ x : String, underEqB "src" x = true →
      (!underEqB ".tmp/microsite" x) = true := by
    intro x hx
    rw [underEq_disjoint (by decide) (by decide) (by decide) (by decide) (by decide) hx]
    rfl
  have hsv3 : srcView fs3 = srcView fs0 := by
    unfold srcView
    refine congrArg₂ Prod.mk ?_ ?_
    · rw [P1 (fun k => underEqB "src" k) (by
        intro x hx
        exact underEq_disjoint (by decide) (by decide) (by decide) (by decide) (by decide)
          (underB_underEqB hx))]
      rw [filter_of_imp _ (fun kv => !underEqB ".tmp/microsite" kv.1)
          (fun kv => underEqB "src" kv.1) (fun x hx => himp_src_tmpms x hx),
        filter_of_imp _ (fun kv => !underEqB "dist" kv.1)
          (fun kv => underEqB "src" kv.1) (fun x hx => himp_src_dist x hx)]
    · rw [P5, List.filter_append,
        show ([".tmp", ".tmp/microsite", "dist"] : List String).filter
          (fun d => underEqB "src" d) = [] from by decide, List.nil_append]
      rw [filter_of_imp _ (fun d => !underEqB ".tmp/microsite" d)
          (fun d => underEqB "src" d) (fun x hx => himp_srcd_tmpms x hx),
        filter_of_imp _ (fun d => !underEqB "dist" d)
          (fun d => underEqB "src" d) (fun x hx => himp_srcd_dist x hx)]
  have hdp3 : discoverPages fs3 = discoverPages fs0 := by
    rw [discoverPages_eq_src, discoverPages_eq_src, hsv3]
  -- `writeGlobal`
  have hg3 : cfg.compileGlobalModern (srcView fs3) = .ok (gjs, some gstyle) := by
    rw [hsv3]; exact hg
  have hleg3 : cfg.compileGlobalLegacy (srcView fs3) = .ok (ljs, lcss) := by
    rw [hsv3]; exact hleg
  have hrun2 : writeGlobalM cfg { fs := fs3, log := [] } =
      .ok { fs := wgFS fs3 gjs (some gstyle) ljs lcss, log := [] } :=
    writeGlobalM_ok cfg _ hg3 hleg3
  have hfresh3 : ∀ kv ∈ fs3.files, underEqB ".tmp/microsite" kv.1 = false := by
    intro kv hkv
    have hsome : (fsGet fs3 kv.1).isSome = true := by
      rw [fsGet_self hwf3 hkv]; rfl
    have hnk : normPath kv.1 = kv.1 := (hwf3.1 kv hkv).1
    rcases P4 kv.1 hsome with ⟨_, _, htm⟩ | ⟨kv0, hkv0, hpub, he⟩
    · rw [hnk] at htm; exact htm
    · rw [hnk] at he
      obtain ⟨b, hb, hfb⟩ := pub_flat_decomp (hwf0.1 kv0 hkv0).1 hpub (hflat kv0 hkv0 hpub)
      rw [he, pubDest_eq hb hfb]
      exact dist_not_tmpms (underB_underEqB (underB_dist_pubDest b))
  have hsv2 : srcView (wgFS fs3 gjs (some gstyle) ljs lcss) = srcView fs0 := by
    rw [srcView_wgFS, hsv3]
  have hdp2 : discoverPages (wgFS fs3 gjs (some gstyle) ljs lcss) = discoverPages fs0 := by
    rw [discoverPages_eq_src, discoverPages_eq_src, hsv2]
  -- the page set
  have hlen : outs.length = (discoverPages fs0).length := compilePages_length hcp
  have hzip_fst : ((discoverPages fs0).zip outs).map (·.1) = discoverPages fs0 :=
    List.map_fst_zip _ _ (le_of_eq hlen.symm)
  have hPzP : ∀ pe ∈ (discoverPages fs0).zip outs, isPagePath pe.1 = true := by
    intro pe hpe
    obtain ⟨a, b⟩ := pe
    have h1 : a ∈ discoverPages fs0 := (List.mem_zip hpe).1
    exact List.of_mem_filter h1
  have hPznd : (((discoverPages fs0).zip outs).map (·.1)).Nodup := by
    rw [hzip_fst]
    exact hwf0.2.1.filter _
  have hPzne : (discoverPages fs0).zip outs ≠ [] := by
    intro h0
    have hlz := congrArg List.length h0
    rw [List.length_zip, ← hlen] at hlz
    simp only [List.length_nil, min_self] at hlz
    cases hdp : discoverPages fs0 with
    | nil => exact hPne hdp
    | cons p r =>
      rw [hdp] at hlen
      rw [hlz] at hlen
      simp at hlen
  -- `writePages`
  have hcp2 : compilePages cfg (srcView (wgFS fs3 gjs (some gstyle) ljs lcss))
      (discoverPages (wgFS fs3 gjs (some gstyle) ljs lcss)) = .ok outs := by
    rw [hsv2, hdp2]; exact hcp
  have hrun3 := writePagesM_ok cfg { fs := wgFS fs3 gjs (some gstyle) ljs lcss, log := [] } hcp2
  rw [show discoverPages ({ fs := wgFS fs3 gjs (some gstyle) ljs lcss, log := [] } : St).fs =
    discoverPages fs0 from hdp2] at hrun3
  have hfiles2 : (wgFS fs3 gjs (some gstyle) ljs lcss).files =
      wgEntries gjs (some gstyle) ljs lcss ++ fs3.files :=
    wgFS_files fs3 gjs (some gstyle) ljs lcss hfresh3
  have hwf2 : WF (wgFS fs3 gjs (some gstyle) ljs lcss) :=
    WF_wgFS fs3 gjs (some gstyle) ljs lcss hwf3 hfresh3
  have hfreshWP : ∀ k ∈ (wpEntries ((discoverPages fs0).zip outs)).map (·.1),
      ∀ kv ∈ (wgFS fs3 gjs (some gstyle) ljs lcss).files, kv.1 ≠ k := by
    intro k hk kv hkv he
    obtain ⟨kv2, hkv2, hke⟩ := List.mem_map.mp hk
    have hku := wpEntries_key_under hPzP hkv2
    rw [hke] at hku
    rw [hfiles2] at hkv
    rcases List.mem_append.mp hkv with hm | hm
    · rcases wgEntries_key_cases hm with hc | hc | hc | hc <;>
        (rw [← he, hc] at hku; exact absurd hku (by decide))
    · have ht := under_pages_under_tmpms hku
      rw [← he] at ht
      rw [hfresh3 kv hm] at ht
      exact absurd ht (by simp)
  have hfilesSt3 : (writePageBundles (wgFS fs3 gjs (some gstyle) ljs lcss)
      ((discoverPages fs0).zip outs)).files =
      wpEntries ((discoverPages fs0).zip outs) ++
        (wgEntries gjs (some gstyle) ljs lcss ++ fs3.files) := by
    rw [writePageBundles_files _ _ (wpEntries_keys_nodup hPzP hPznd) hfreshWP, hfiles2]
  have hwfSt3 : WF (writePageBundles (wgFS fs3 gjs (some gstyle) ljs lcss)
      ((discoverPages fs0).zip outs)) :=
    WF_writePageBundles _ _ hPzP hPznd hwf2 hfreshWP
  obtain ⟨wpnd, hdWP, hdWPp⟩ := writePageBundles_dirs ((discoverPages fs0).zip outs)
    (wgFS fs3 gjs (some gstyle) ljs lcss)
    (fun a => a = ".tmp" ∨ underEqB ".tmp/microsite" a = true)
    (by
      intro pe hpe a ha
      obtain ⟨stem, hpd, f1, f2, f3, f4, f6, f5, f8, f9⟩ :=
        page_staged_facts (hPzP pe hpe)
      exact f8 a ha)
  obtain ⟨wgnd, hdWG, hdWGp⟩ := wgFS_dirs fs3 gjs (some gstyle) ljs lcss
  have hdirsSt3 : (writePageBundles (wgFS fs3 gjs (some gstyle) ljs lcss)
      ((discoverPages fs0).zip outs)).dirs =
      (wpnd ++ wgnd) ++ ([".tmp", ".tmp/microsite", "dist"] ++
        ((fs0.dirs.filter (fun d => !underEqB "dist" d)).filter
          (fun d => !underEqB ".tmp/microsite" d))) := by
    rw [hdWP, hdWG, P5, ← List.append_assoc]
  have hndp : ∀ d ∈ wpnd ++ wgnd, d = ".tmp" ∨ underEqB ".tmp/microsite" d = true := by
    intro d hd
    rcases List.mem_append.mp hd with hm | hm
    · exact hdWPp d hm
    · rcases hdWGp d hm with he | he
      · exact Or.inl he
      · right
        rw [he]
        decide
  have hrestdp : ∀ d ∈ (fs0.dirs.filter (fun d => !underEqB "dist" d)).filter
      (fun d => !underEqB ".tmp/microsite" d), underB ".tmp" d = false :=
    fun d hd => hd0 d (List.mem_of_mem_filter (List.mem_of_mem_filter hd))
  have hrestC : ∀ kv ∈ fs3.files, underEqB ".tmp/microsite" kv.1 = false ∧
      (underEqB "dist" kv.1 = true → (endsWithB ".html" kv.1 = false ∧
        kv.1 ≠ "dist/index.js" ∧ kv.1 ≠ "dist/index.legacy.js")) := by
    intro kv hkv
    refine ⟨hfresh3 kv hkv, ?_⟩
    intro hdistkv
    have hsome : (fsGet fs3 kv.1).isSome = true := by
      rw [fsGet_self hwf3 hkv]; rfl
    have hnk : normPath kv.1 = kv.1 := (hwf3.1 kv hkv).1
    rcases P4 kv.1 hsome with ⟨_, hdz, _⟩ | ⟨kv0, hkv0, hpub, he⟩
    · rw [hnk] at hdz
      rw [hdistkv] at hdz
      exact absurd hdz (by simp)
    · rw [hnk] at he
      have := hpubsafe kv0 hkv0 hpub
      rw [← he] at this
      exact this
  obtain ⟨st', htail, hlog, hwf', T1, T2, T2n, Ttmpms, TtmpF, TtmpT, T5⟩ :=
    buildTail_ok cfg
      { fs := writePageBundles (wgFS fs3 gjs (some gstyle) ljs lcss)
          ((discoverPages fs0).zip outs), log := [] }
      ((discoverPages fs0).zip outs) gjs ljs gstyle lcss fs3.files (wpnd ++ wgnd)
      ((fs0.dirs.filter (fun d => !underEqB "dist" d)).filter
        (fun d => !underEqB ".tmp/microsite" d))
      hfilesSt3 hdirsSt3 hndp hrestdp hPzP hPznd hwfSt3 hrestC hPzne hrender
  have hrunEq : buildRun cfg fs0 = .ok st' := by
    show ((match prepareM { fs := fs0, log := [] } with
      | Except.error e => Except.error e
      | Except.ok st1 =>
        match writeGlobalM cfg st1 with
        | Except.error e => Except.error e
        | Except.ok st2 =>
          match writePagesM cfg st2 with
          | Except.error e => Except.error e
          | Except.ok st3 => buildTail cfg st3) : Except String St) = _
    rw [hprep]
    show ((match writeGlobalM cfg { fs := fs3, log := [] } with
      | Except.error e => Except.error e
      | Except.ok st2 =>
        match writePagesM cfg st2 with
        | Except.error e => Except.error e
        | Except.ok st3 => buildTail cfg st3) : Except String St) = _
    rw [hrun2]
    show ((match writePagesM cfg { fs := wgFS fs3 gjs (some gstyle) ljs lcss, log := [] } with
      | Except.error e => Except.error e
      | Except.ok st3 => buildTail cfg st3) : Except String St) = _
    rw [hrun3]
    exact htail
  refine ⟨st', hrunEq, hlog, hwf', T1, T2, T2n, Ttmpms, ?_, ?_, ?_⟩
  · -- public assets survive at their destinations
    intro kv hkv hpub
    have h3 := P3 kv hkv hpub
    obtain ⟨kv2, hkv2, hke, hcc⟩ := fsGet_some_mem h3
    have hnp : normPath (pubDest kv.1) = pubDest kv.1 := normPath_idem _
    rw [hnp] at hke
    have h5 := T5 kv2 hkv2
    rw [hke, hcc] at h5
    exact h5
  · -- no stray files: `.tmp` is removed
    intro hno
    apply TtmpF
    apply List.filter_eq_nil_iff.mpr
    intro kv hkv
    have hsome : (fsGet fs3 kv.1).isSome = true := by
      rw [fsGet_self hwf3 hkv]; rfl
    have hnk : normPath kv.1 = kv.1 := (hwf3.1 kv hkv).1
    simp only [Bool.not_eq_true]
    rcases P4 kv.1 hsome with ⟨hold, _, _⟩ | ⟨kv0, hkv0, hpub, he⟩
    · obtain ⟨c0, hc0⟩ := Option.isSome_iff_exists.mp hold
      obtain ⟨kv0, hkv0, hke0, _⟩ := fsGet_some_mem hc0
      rw [hnk] at hke0
      rw [← hke0]
      exact hno kv0 hkv0
    · rw [hnk] at he
      obtain ⟨b, hb, hfb⟩ := pub_flat_decomp (hwf0.1 kv0 hkv0).1 hpub (hflat kv0 hkv0 hpub)
      rw [he, pubDest_eq hb hfb]
      exact underB_disjoint2 (underB_dist_pubDest b) (by decide) (by decide)
  · -- a stray file keeps `.tmp`
    intro hex
    obtain ⟨kv0, hkv0, hu, hnm⟩ := hex
    apply TtmpT
    have hnk0 : normPath kv0.1 = kv0.1 := (hwf0.1 kv0 hkv0).1
    have hd1 : underEqB "dist" (normPath kv0.1) = false := by
      rw [hnk0]
      cases hx : underEqB "dist" kv0.1 with
      | false => rfl
      | true =>
        rw [dist_not_tmp hx] at hu
        exact absurd hu (by simp)
    have hd2 : underEqB ".tmp/microsite" (normPath kv0.1) = false := by
      rw [hnk0]; exact hnm
    have hpres := P2 kv0.1 hd1 hd2
    rw [fsGet_self hwf0 hkv0] at hpres
    obtain ⟨kv2, hkv2, hke, _⟩ := fsGet_some_mem hpres
    rw [hnk0] at hke
    intro h0
    have : kv2 ∈ fs3.files.filter (fun kv => underB ".tmp" kv.1) :=
      List.mem_filter.mpr ⟨hkv2, by rw [hke]; exact hu⟩
    rw [h0] at this
    exact absurd this (by simp)

/-- A path strictly inside the staged pages root is strictly inside the
staging directory. -/
theorem under_pages_strict {k : String}
    (h : underB ".tmp/microsite/pages" k = true) :
    underB ".tmp/microsite" k = true := by
  rw [underB_iff] at h ⊢
  have hpre : ((".tmp/microsite".data : List Char) ++ ['/']) <+:
      (".tmp/microsite/pages".data ++ ['/']) := ⟨"pages/".data, by decide⟩
  exact hpre.trans h

set_option maxHeartbeats 4000000 in
/-- A run in which some page's render throws: `build` resolves early with the
two console lines; the staging tree, the public copies and the conditional
global copies are all still on disk, and no HTML file exists under `dist`. -/
theorem buildRun_abort (cfg : Collab) (fs0 : FS)
    (gjs ljs gstyle : String) (lcss : Option String)
    (outs : List (String × Option String))
    (hwf0 : WF fs0)
    (hpubf : fsGet fs0 "src/public" = none)
    (hpubd : dirExistsB fs0 "src/public" = true)
    (hflat : ∀ kv ∈ fs0.files, underB "src/public" kv.1 = true →
      (compsL kv.1.data).length = 3)
    (hpubsafe : ∀ kv ∈ fs0.files, underB "src/public" kv.1 = true →
      (endsWithB ".html" (pubDest kv.1) = false ∧ pubDest kv.1 ≠ "dist/index.js" ∧
        pubDest kv.1 ≠ "dist/index.legacy.js"))
    (hg : cfg.compileGlobalModern (srcView fs0) = .ok (gjs, some gstyle))
    (hleg : cfg.compileGlobalLegacy (srcView fs0) = .ok (ljs, lcss))
    (hcp : compilePages cfg (srcView fs0) (discoverPages fs0) = .ok outs)
    (hPne : discoverPages fs0 ≠ [])
    (hfail : ∃ pe ∈ (discoverPages fs0).zip outs, ∃ e, cfg.renderPage
      { pageModule := pe.2.1, hasScripts := (trimJS gjs != ""),
        styles := styleList gstyle pe.2.2, pretty := true } = .error e) :
    ∃ st' : St, buildRun cfg fs0 = .ok st' ∧ WF st'.fs ∧
      (∃ pe ∈ (discoverPages fs0).zip outs, ∃ e2 : String,
        st'.log = ["Error building " ++ getName (stagedJsPath pe.1), e2] ∧
        cfg.renderPage
          { pageModule := pe.2.1, hasScripts := (trimJS gjs != ""),
            styles := styleList gstyle pe.2.2, pretty := true } = .error e2) ∧
      (∀ q : String, underEqB "dist" (normPath q) = true →
        endsWithB ".html" (normPath q) = true → fsGet st'.fs q = none) ∧
      (∀ pe ∈ (discoverPages fs0).zip outs,
        fsGet st'.fs (stagedJsPath pe.1) = some pe.2.1) ∧
      dirExistsB st'.fs ".tmp/microsite" = true ∧
      (∀ kv ∈ fs0.files, underB "src/public" kv.1 = true →
        fsGet st'.fs (pubDest kv.1) = some kv.2) ∧
      ((trimJS gjs != "") = true → fsGet st'.fs "dist/index.js" = some gjs ∧
        fsGet st'.fs "dist/index.legacy.js" = some ljs) := by
  obtain ⟨fs3, hprep, P1, P2, P3, P4, P5, hwf3⟩ :=
    prepare_ok { fs := fs0, log := [] } hwf0 hpubf hpubd hflat
  have himp_src_dist : ∀ x : String × String, underEqB "src" x.1 = true →
      (!underEqB "dist" x.1) = true := by
    intro x hx
    rw [underEq_disjoint (by decide) (by decide) (by decide) (by decide) (by decide) hx]
    rfl
  have himp_src_tmpms : ∀ x : String × String, underEqB "src" x.1 = true →
      (!underEqB ".tmp/microsite" x.1) = true := by
    intro x hx
    rw [underEq_disjoint (by decide) (by decide) (by decide) (by decide) (by decide) hx]
    rfl
  have himp_srcd_dist : ∀ x : String, underEqB "src" x = true →
      (!underEqB "dist" x) = true := by
    intro x hx
    rw [underEq_disjoint (by decide) (by decide) (by decide) (by decide) (by decide) hx]
    rfl
  have himp_srcd_tmpms : ∀ x : String, underEqB "src" x = true →
      (!underEqB ".tmp/microsite" x) = true := by
    intro x hx
    rw [underEq_disjoint (by decide) (by decide) (by decide) (by decide) (by decide) hx]
    rfl
  have hsv3 : srcView fs3 = srcView fs0 := by
    unfold srcView
    refine congrArg₂ Prod.mk ?_ ?_
    · rw [P1 (fun k => underEqB "src" k) (by
        intro x hx
        exact underEq_disjoint (by decide) (by decide) (by decide) (by decide) (by decide)
          (underB_underEqB hx))]
      rw [filter_of_imp _ (fun kv => !underEqB ".tmp/microsite" kv.1)
          (fun kv => underEqB "src" kv.1) (fun x hx => himp_src_tmpms x hx),
        filter_of_imp _ (fun kv => !underEqB "dist" kv.1)
          (fun kv => underEqB "src" kv.1) (fun x hx => himp_src_dist x hx)]
    · rw [P5, List.filter_append,
        show ([".tmp", ".tmp/microsite", "dist"] : List String).filter
          (fun d => underEqB "src" d) = [] from by decide, List.nil_append]
      rw [filter_of_imp _ (fun d => !underEqB ".tmp/microsite" d)
          (fun d => underEqB "src" d) (fun x hx => himp_srcd_tmpms x hx),
        filter_of_imp _ (fun d => !underEqB "dist" d)
          (fun d => underEqB "src" d) (fun x hx => himp_srcd_dist x hx)]
  have hg3 : cfg.compileGlobalModern (srcView fs3) = .ok (gjs, some gstyle) := by
    rw [hsv3]; exact hg
  have hleg3 : cfg.compileGlobalLegacy (srcView fs3) = .ok (ljs, lcss) := by
    rw [hsv3]; exact hleg
  have hrun2 : writeGlobalM cfg { fs := fs3, log := [] } =
      .ok { fs := wgFS fs3 gjs (some gstyle) ljs lcss, log := [] } :=
    writeGlobalM_ok cfg _ hg3 hleg3
  have hfresh3 : ∀ kv ∈ fs3.files, underEqB ".tmp/microsite" kv.1 = false := by
    intro kv hkv
    have hsome : (fsGet fs3 kv.1).isSome = true := by
      rw [fsGet_self hwf3 hkv]; rfl
    have hnk : normPath kv.1 = kv.1 := (hwf3.1 kv hkv).1
    rcases P4 kv.1 hsome with ⟨_, _, htm⟩ | ⟨kv0, hkv0, hpub, he⟩
    · rw [hnk] at htm; exact htm
    · rw [hnk] at he
      obtain ⟨b, hb, hfb⟩ := pub_flat_decomp (hwf0.1 kv0 hkv0).1 hpub (hflat kv0 hkv0 hpub)
      rw [he, pubDest_eq hb hfb]
      exact dist_not_tmpms (underB_underEqB (underB_dist_pubDest b))
  have hsv2 : srcView (wgFS fs3 gjs (some gstyle) ljs lcss) = srcView fs0 := by
    rw [srcView_wgFS, hsv3]
  have hdp2 : discoverPages (wgFS fs3 gjs (some gstyle) ljs lcss) = discoverPages fs0 := by
    rw [discoverPages_eq_src, discoverPages_eq_src, hsv2]
  have hlen : outs.length = (discoverPages fs0).length := compilePages_length hcp
  have hzip_fst : ((discoverPages fs0).zip outs).map (·.1) = discoverPages fs0 :=
    List.map_fst_zip _ _ (le_of_eq hlen.symm)
  have hPzP : ∀ pe ∈ (discoverPages fs0).zip outs, isPagePath pe.1 = true := by
    intro pe hpe
    obtain ⟨a, b⟩ := pe
    have h1 : a ∈ discoverPages fs0 := (List.of_mem_zip hpe).1
    exact List.of_mem_filter h1
  have hPznd : (((discoverPages fs0).zip outs).map (·.1)).Nodup := by
    rw [hzip_fst]
    exact hwf0.2.1.filter _
  have hPzne : (discoverPages fs0).zip outs ≠ [] := by
    intro h0
    have hlz := congrArg List.length h0
    rw [List.length_zip, ← hlen] at hlz
    simp only [List.length_nil, min_self] at hlz
    cases hdp : discoverPages fs0 with
    | nil => exact hPne hdp
    | cons p r =>
      rw [hdp] at hlen
      rw [hlz] at hlen
      simp at hlen
  have hcp2 : compilePages cfg (srcView (wgFS fs3 gjs (some gstyle) ljs lcss))
      (discoverPages (wgFS fs3 gjs (some gstyle) ljs lcss)) = .ok outs := by
    rw [hsv2, hdp2]; exact hcp
  have hrun3 := writePagesM_ok cfg { fs := wgFS fs3 gjs (some gstyle) ljs lcss, log := [] } hcp2
  rw [show discoverPages ({ fs := wgFS fs3 gjs (some gstyle) ljs lcss, log := [] } : St).fs =
    discoverPages fs0 from hdp2] at hrun3
  have hfiles2 : (wgFS fs3 gjs (some gstyle) ljs lcss).files =
      wgEntries gjs (some gstyle) ljs lcss ++ fs3.files :=
    wgFS_files fs3 gjs (some gstyle) ljs lcss hfresh3
  have hwf2 : WF (wgFS fs3 gjs (some gstyle) ljs lcss) :=
    WF_wgFS fs3 gjs (some gstyle) ljs lcss hwf3 hfresh3
  have hfreshWP : ∀ k ∈ (wpEntries ((discoverPages fs0).zip outs)).map (·.1),
      ∀ kv ∈ (wgFS fs3 gjs (some gstyle) ljs lcss).files, kv.1 ≠ k := by
    intro k hk kv hkv he
    obtain ⟨kv2, hkv2, hke⟩ := List.mem_map.mp hk
    have hku := wpEntries_key_under hPzP hkv2
    rw [hke] at hku
    rw [hfiles2] at hkv
    rcases List.mem_append.mp hkv with hm | hm
    · rcases wgEntries_key_cases hm with hc | hc | hc | hc <;>
        (rw [← he, hc] at hku; exact absurd hku (by decide))
    · have ht := under_pages_under_tmpms hku
      rw [← he] at ht
      rw [hfresh3 kv hm] at ht
      exact absurd ht (by simp)
  have hfilesSt3 : (writePageBundles (wgFS fs3 gjs (some gstyle) ljs lcss)
      ((discoverPages fs0).zip outs)).files =
      wpEntries ((discoverPages fs0).zip outs) ++
        (wgEntries gjs (some gstyle) ljs lcss ++ fs3.files) := by
    rw [writePageBundles_files _ _ (wpEntries_keys_nodup hPzP hPznd) hfreshWP, hfiles2]
  have hwfSt3 : WF (writePageBundles (wgFS fs3 gjs (some gstyle) ljs lcss)
      ((discoverPages fs0).zip outs)) :=
    WF_writePageBundles _ _ hPzP hPznd hwf2 hfreshWP
  have hrestC : ∀ kv ∈ fs3.files, underEqB ".tmp/microsite" kv.1 = false ∧
      (underEqB "dist" kv.1 = true → (endsWithB ".html" kv.1 = false ∧
        kv.1 ≠ "dist/index.js" ∧ kv.1 ≠ "dist/index.legacy.js")) := by
    intro kv hkv
    refine ⟨hfresh3 kv hkv, ?_⟩
    intro hdistkv
    have hsome : (fsGet fs3 kv.1).isSome = true := by
      rw [fsGet_self hwf3 hkv]; rfl
    have hnk : normPath kv.1 = kv.1 := (hwf3.1 kv hkv).1
    rcases P4 kv.1 hsome with ⟨_, hdz, _⟩ | ⟨kv0, hkv0, hpub, he⟩
    · rw [hnk] at hdz
      rw [hdistkv] at hdz
      exact absurd hdz (by simp)
    · rw [hnk] at he
      have := hpubsafe kv0 hkv0 hpub
      rw [← he] at this
      exact this
  have hdistD : dirExistsB (writePageBundles (wgFS fs3 gjs (some gstyle) ljs lcss)
      ((discoverPages fs0).zip outs)) "dist" = true := by
    obtain ⟨wpnd, hdWP, _⟩ := writePageBundles_dirs ((discoverPages fs0).zip outs)
      (wgFS fs3 gjs (some gstyle) ljs lcss) (fun _ => True) (fun _ _ _ _ => trivial)
    obtain ⟨wgnd, hdWG, _⟩ := wgFS_dirs fs3 gjs (some gstyle) ljs lcss
    have hmemd : ("dist" : String) ∈ (writePageBundles
        (wgFS fs3 gjs (some gstyle) ljs lcss) ((discoverPages fs0).zip outs)).dirs := by
      rw [hdWP, hdWG, P5]
      apply List.mem_append_right
      apply List.mem_append_right
      simp
    exact dirExistsB_of_dir _ "dist" hmemd (by decide)
  -- the render loop fails
  have hreqEq : ∀ pe ∈ (discoverPages fs0).zip outs,
      renderReqOf gstyle (trimJS gjs != "") (pzStyles ((discoverPages fs0).zip outs))
        (getName (stagedJsPath pe.1), pe.2.1) =
      { pageModule := pe.2.1, hasScripts := (trimJS gjs != ""),
        styles := styleList gstyle pe.2.2, pretty := true } := by
    intro pe hpe
    show ({ pageModule := pe.2.1, hasScripts := (trimJS gjs != ""),
            styles := styleList gstyle (((pzStyles ((discoverPages fs0).zip outs)).find?
              (fun s => s.1 == getName (stagedJsPath pe.1))).map (·.2)),
            pretty := true } : RenderReq) = _
    rw [pzStyles_find hPzP hPznd hpe]
    cases hcss : pe.2.2 with
    | none => rfl
    | some c => rfl
  have habort : (renderLoop cfg gstyle (trimJS gjs != "")
      (pzStyles ((discoverPages fs0).zip outs))
      (pzPages ((discoverPages fs0).zip outs))).1 = none := by
    apply renderLoop_fails
    obtain ⟨pe, hpe, e, he⟩ := hfail
    refine ⟨(getName (stagedJsPath pe.1), pe.2.1), pzPages_mem_of hpe, e, ?_⟩
    rw [hreqEq pe hpe]
    exact he
  obtain ⟨fsC, lg, htail, hCfiles, hCdirs, hCwf, nm0, hnm0, e0, he0, hlg⟩ :=
    buildTail_abort cfg
      { fs := writePageBundles (wgFS fs3 gjs (some gstyle) ljs lcss)
          ((discoverPages fs0).zip outs), log := [] }
      ((discoverPages fs0).zip outs) gjs ljs gstyle lcss fs3.files
      hfilesSt3 hdistD hPzP hwfSt3 hrestC hPzne habort
  have hrunEq : buildRun cfg fs0 = .ok { fs := fsC, log := [] ++ lg } := by
    show ((match prepareM { fs := fs0, log := [] } with
      | Except.error e => Except.error e
      | Except.ok st1 =>
        match writeGlobalM cfg st1 with
        | Except.error e => Except.error e
        | Except.ok st2 =>
          match writePagesM cfg st2 with
          | Except.error e => Except.error e
          | Except.ok st3 => buildTail cfg st3) : Except String St) = _
    rw [hprep]
    show ((match writeGlobalM cfg { fs := fs3, log := [] } with
      | Except.error e => Except.error e
      | Except.ok st2 =>
        match writePagesM cfg st2 with
        | Except.error e => Except.error e
        | Except.ok st3 => buildTail cfg st3) : Except String St) = _
    rw [hrun2]
    show ((match writePagesM cfg { fs := wgFS fs3 gjs (some gstyle) ljs lcss, log := [] } with
      | Except.error e => Except.error e
      | Except.ok st3 => buildTail cfg st3) : Except String St) = _
    rw [hrun3]
    exact htail
  have hCfiles2 : fsC.files = gCopies (trimJS gjs != "") gjs ljs ++
      (wpEntries ((discoverPages fs0).zip outs) ++
        (wgEntries gjs (some gstyle) ljs lcss ++ fs3.files)) := by
    rw [hCfiles]
    show gCopies (trimJS gjs != "") gjs ljs ++
      (writePageBundles (wgFS fs3 gjs (some gstyle) ljs lcss)
        ((discoverPages fs0).zip outs)).files = _
    rw [hfilesSt3]
  obtain ⟨pe2, hpe2, hnm0e⟩ := pzPages_mem hnm0
  rw [hnm0e, hreqEq pe2 hpe2] at he0
  refine ⟨{ fs := fsC, log := [] ++ lg }, hrunEq, hCwf, ⟨pe2, hpe2, e0, by
    show [] ++ lg = _
    rw [List.nil_append, hlg, hnm0e], he0⟩, ?_, ?_, ?_, ?_, ?_⟩
  · -- no HTML file exists anywhere under `dist`
    intro q hqd hqh
    unfold fsGet
    rw [List.find?_eq_none.mpr, Option.map_none']
    intro kv hkv
    simp only [beq_iff_eq]
    intro he
    rw [hCfiles2] at hkv
    rcases List.mem_append.mp hkv with hm | hm
    · unfold gCopies at hm
      cases hGb : (trimJS gjs != "") with
      | false => rw [hGb] at hm; simp at hm
      | true =>
        rw [hGb] at hm
        simp only [if_true] at hm
        rcases List.mem_cons.mp hm with heq | hm2
        · rw [heq] at he
          have he2 : ("dist/index.legacy.js" : String) = normPath q := he
          rw [← he2] at hqh
          exact absurd hqh (by decide)
        · rw [List.mem_singleton.mp hm2] at he
          have he2 : ("dist/index.js" : String) = normPath q := he
          rw [← he2] at hqh
          exact absurd hqh (by decide)
    · rcases List.mem_append.mp hm with hm | hm
      · have hu := under_tmpms_under_tmp (under_pages_under_tmpms
          (wpEntries_key_under hPzP hm))
        rw [he] at hu
        rw [dist_not_tmp hqd] at hu
        exact absurd hu (by simp)
      · rcases List.mem_append.mp hm with hm | hm
        · rcases wgEntries_key_cases hm with hc | hc | hc | hc <;>
            (rw [hc] at he; rw [← he] at hqd; exact absurd hqd (by decide))
        · have hcond := (hrestC kv hm).2 (by rw [he]; exact hqd)
          rw [he] at hcond
          rw [hcond.1] at hqh
          exact absurd hqh (by simp)
  · -- staged page scripts survive
    intro pe hpe
    have hmem : (stagedJsPath pe.1, pe.2.1) ∈ fsC.files := by
      rw [hCfiles2]
      apply List.mem_append_right
      apply List.mem_append_left
      exact (wpEntries_mem_of hpe).1
    exact fsGet_self hCwf hmem
  · -- the staging directory exists
    cases hPz : (discoverPages fs0).zip outs with
    | nil => exact absurd hPz hPzne
    | cons pe r =>
      have hmem : (stagedJsPath pe.1, pe.2.1) ∈ fsC.files := by
        rw [hCfiles2]
        apply List.mem_append_right
        apply List.mem_append_left
        rw [hPz]
        exact (wpEntries_mem_of (by simp)).1
      apply dirExistsB_of_file fsC ".tmp/microsite" hmem
      rw [show (normPath ".tmp/microsite" : String) = ".tmp/microsite" from by decide]
      exact under_pages_strict (stagedJsPath_under (hPzP pe (by rw [hPz]; simp)))
  · -- public copies survive
    intro kv hkv hpub
    have h3 := P3 kv hkv hpub
    obtain ⟨kv2, hkv2, hke, hcc⟩ := fsGet_some_mem h3
    have hnp : normPath (pubDest kv.1) = pubDest kv.1 := normPath_idem _
    rw [hnp] at hke
    have hmem : kv2 ∈ fsC.files := by
      rw [hCfiles2]
      apply List.mem_append_right
      apply List.mem_append_right
      exact List.mem_append_right _ hkv2
    have := fsGet_self hCwf hmem
    rw [hke, hcc] at this
    exact this
  · -- the conditional global copies are present
    intro hGt
    have hcopL : gCopies (trimJS gjs != "") gjs ljs =
        [(("dist/index.legacy.js" : String), ljs), (("dist/index.js" : String), gjs)] := by
      unfold gCopies
      rw [hGt]
      rfl
    constructor
    · have hmem : (("dist/index.js" : String), gjs) ∈ fsC.files := by
        rw [hCfiles2]
        apply List.mem_append_left
        rw [hcopL]
        simp
      exact fsGet_self hCwf hmem
    · have hmem : (("dist/index.legacy.js" : String), ljs) ∈ fsC.files := by
        rw [hCfiles2]
        apply List.mem_append_left
        rw [hcopL]
        simp
      exact fsGet_self hCwf hmem


/-! ## Error paths of `prepare` and of the tail's unconditional reads -/

/-- The `prepare` stage when `src/public` is missing entirely: the `stat`
call rejects and the stage fails with `ENOENT`. -/
theorem prepare_err (st : St)
    (hnof : fsGet st.fs "src/public" = none)
    (hnod : dirExistsB st.fs "src/public" = false) :
    prepareM st = .error "ENOENT: src/public" := by
  have hstat : statIsDirM (prepClear st.fs) "./src/public" =
      .error "ENOENT: src/public" := by
    unfold statIsDirM
    rw [fsGet_congr (prepClear st.fs)
        (show normPath "./src/public" = normPath "src/public" from by decide),
      fsGet_prepClear st.fs "src/public" (by decide) (by decide), hnof,
      dirExistsB_congr (prepClear st.fs)
        (show normPath "./src/public" = normPath "src/public" from by decide),
      dirExistsB_prepClear_pub, hnod]
    rw [if_neg (by decide), if_neg (by decide)]
    rw [show ("ENOENT: " ++ normPath "./src/public" : String) =
      "ENOENT: src/public" from by decide]
  show ((match statIsDirM (prepClear st.fs) "./src/public" with
    | Except.error e => Except.error e
    | Except.ok false => Except.ok { fs := prepClear st.fs, log := st.log }
    | Except.ok true =>
      match readDirM (prepClear st.fs) "./src/public" with
      | Except.error e => Except.error e
      | Except.ok pub =>
        match copyPublic (prepClear st.fs) pub with
        | Except.error e => Except.error e
        | Except.ok fs4 => Except.ok { fs := fs4, log := st.log }) : Except String St) =
    Except.error "ENOENT: src/public"
  rw [hstat]

/-! ## Concrete projects and collaborators used to exercise the theorems -/

/-- Well-formedness of a concrete filesystem is decidable. -/
instance decWF (fs : FS) : Decidable (WF fs) := by
  unfold WF
  exact inferInstance

/-- A small concrete project: a global entry, one page, one public asset. -/
def wFS : FS :=
  { files := [("src/global.ts", "G"), ("src/pages/index.tsx", "P"),
      ("src/public/logo.png", "IMG")],
    dirs := ["src", "src/pages", "src/public"] }

/-- The same project without the optional `src/public` directory. -/
def wFSnoPub : FS :=
  { files := [("src/global.ts", "G"), ("src/pages/index.tsx", "P")],
    dirs := ["src", "src/pages"] }

/-- Deterministic collaborators whose renderer echoes its page module. -/
def wCfg : Collab :=
  { compileGlobalModern := fun _ => .ok ("GJ", some "body"),
    compileGlobalLegacy := fun _ => .ok ("LJ", none),
    compilePage := fun _ _ => .ok ("PJ", some "p1"),
    renderPage := fun req => .ok ("R:" ++ req.pageModule) }

/-- The same collaborators with a throwing renderer. -/
def wCfgRFail : Collab :=
  { wCfg with renderPage := fun _ => .error "render boom" }

/-- The same collaborators with a rejecting global (modern) compilation. -/
def cCfgGlobFail : Collab :=
  { wCfg with compileGlobalModern := fun _ => .error "glob boom" }

/-- The same collaborators with a rejecting page compilation. -/
def cCfgPageFail : Collab :=
  { wCfg with compilePage := fun _ _ => .error "page boom" }

/-- The same collaborators whose global compilation extracts no stylesheet. -/
def cCfgNoGlobalCss : Collab :=
  { wCfg with compileGlobalModern := fun _ => .ok ("GJ", none) }

/-- A blank global bundle (no script content, empty extracted stylesheet);
the renderer reports whether it was handed any stylesheets at all. -/
def cCfgBlankGlobal : Collab :=
  { compileGlobalModern := fun _ => .ok ("", some ""),
    compileGlobalLegacy := fun _ => .ok ("", none),
    compilePage := fun _ _ => .ok ("PJ", none),
    renderPage := fun req => .ok (if req.styles.isEmpty then "NOSTYLES" else "STYLES") }

/-- A page bundle with an *empty* extracted stylesheet; the renderer reports
how many stylesheets it was handed. -/
def cCfgEmptyPageCss : Collab :=
  { compileGlobalModern := fun _ => .ok ("", some "g1"),
    compileGlobalLegacy := fun _ => .ok ("", none),
    compilePage := fun _ _ => .ok ("PJ", some ""),
    renderPage := fun req => .ok (if req.styles.length == 1 then "ONE" else "MANY") }

/-! ## The claims -/

set_option maxHeartbeats 1000000 in
/-- C1: on a successful run, every discovered page source yields exactly one
HTML file in the output, at the path obtained from the page's staged script
path by stripping the staged pages-root prefix and swapping the extension
for `.html`. -/
theorem C1_unique_html (cfg : Collab) (fs0 : FS)
    (gjs ljs gstyle : String) (lcss : Option String)
    (outs : List (String × Option String))
    (hwf0 : WF fs0)
    (hpubf : fsGet fs0 "src/public" = none)
    (hpubd : dirExistsB fs0 "src/public" = true)
    (hflat : ∀ kv ∈ fs0.files, underB "src/public" kv.1 = true →
      (compsL kv.1.data).length = 3)
    (hpubsafe : ∀ kv ∈ fs0.files, underB "src/public" kv.1 = true →
      (endsWithB ".html" (pubDest kv.1) = false ∧ pubDest kv.1 ≠ "dist/index.js" ∧
        pubDest kv.1 ≠ "dist/index.legacy.js"))
    (hd0 : ∀ d ∈ fs0.dirs, underB ".tmp" d = false)
    (hg : cfg.compileGlobalModern (srcView fs0) = .ok (gjs, some gstyle))
    (hleg : cfg.compileGlobalLegacy (srcView fs0) = .ok (ljs, lcss))
    (hcp : compilePages cfg (srcView fs0) (discoverPages fs0) = .ok outs)
    (hPne : discoverPages fs0 ≠ [])
    (hrender : ∀ pe ∈ (discoverPages fs0).zip outs, ∃ h, cfg.renderPage
      { pageModule := pe.2.1, hasScripts := (trimJS gjs != ""),
        styles := styleList gstyle pe.2.2, pretty := true } = .ok h) :
    ∃ st' : St, buildRun cfg fs0 = .ok st' ∧
      ∀ p ∈ discoverPages fs0,
        (st'.fs.files.filter
          (fun kv => kv.1 == specHtmlPath (stagedJsPath p))).length = 1 := by
  obtain ⟨st', hrun, _, hwf', T1, _⟩ :=
    buildRun_ok cfg fs0 gjs ljs gstyle lcss outs hwf0 hpubf hpubd hflat hpubsafe hd0
      hg hleg hcp hPne hrender
  refine ⟨st', hrun, ?_⟩
  intro p hp
  have hlen : outs.length = (discoverPages fs0).length := compilePages_length hcp
  have hzip_fst : ((discoverPages fs0).zip outs).map (·.1) = discoverPages fs0 :=
    List.map_fst_zip _ _ (le_of_eq hlen.symm)
  have hp2 : p ∈ ((discoverPages fs0).zip outs).map (·.1) := by
    rw [hzip_fst]; exact hp
  obtain ⟨pe, hpe, hpeq⟩ := List.mem_map.mp hp2
  obtain ⟨html, _, hget⟩ := T1 pe hpe
  have hpage : isPagePath pe.1 = true := by
    rw [hpeq]; exact List.of_mem_filter hp
  obtain ⟨stem, _, _, _, _, _, f6, f7, _, _⟩ := page_staged_facts hpage
  have hnorm : normPath (specHtmlPath (stagedJsPath pe.1)) =
      specHtmlPath (stagedJsPath pe.1) := by
    rw [f6, ← f7]
    exact normPath_idem _
  have hcount := count_one_of_fsGet hwf' hget
  rw [hnorm] at hcount
  rw [← hpeq]
  exact hcount

/-- C1 exercised on the concrete project. -/
theorem C1_unique_html_witness :
    ∃ st' : St, buildRun wCfg wFS = .ok st' ∧
      ∀ p ∈ discoverPages wFS,
        (st'.fs.files.filter
          (fun kv => kv.1 == specHtmlPath (stagedJsPath p))).length = 1 :=
  C1_unique_html wCfg wFS "GJ" "LJ" "body" none [("PJ", some "p1")]
    (by decide) (by decide) (by decide) (by decide) (by decide) (by decide)
    rfl rfl rfl (by decide) (fun pe _ => ⟨"R:" ++ pe.2.1, rfl⟩)

/-- C2: if rendering any page throws, the run still resolves, the log holds
exactly that failing page's derived name together with the thrown error, and
no `.html` file exists anywhere under the output root. -/
theorem C2_render_abort (cfg : Collab) (fs0 : FS)
    (gjs ljs gstyle : String) (lcss : Option String)
    (outs : List (String × Option String))
    (hwf0 : WF fs0)
    (hpubf : fsGet fs0 "src/public" = none)
    (hpubd : dirExistsB fs0 "src/public" = true)
    (hflat : ∀ kv ∈ fs0.files, underB "src/public" kv.1 = true →
      (compsL kv.1.data).length = 3)
    (hpubsafe : ∀ kv ∈ fs0.files, underB "src/public" kv.1 = true →
      (endsWithB ".html" (pubDest kv.1) = false ∧ pubDest kv.1 ≠ "dist/index.js" ∧
        pubDest kv.1 ≠ "dist/index.legacy.js"))
    (hg : cfg.compileGlobalModern (srcView fs0) = .ok (gjs, some gstyle))
    (hleg : cfg.compileGlobalLegacy (srcView fs0) = .ok (ljs, lcss))
    (hcp : compilePages cfg (srcView fs0) (discoverPages fs0) = .ok outs)
    (hPne : discoverPages fs0 ≠ [])
    (hfail : ∃ pe ∈ (discoverPages fs0).zip outs, ∃ e, cfg.renderPage
      { pageModule := pe.2.1, hasScripts := (trimJS gjs != ""),
        styles := styleList gstyle pe.2.2, pretty := true } = .error e) :
    ∃ st' : St, buildRun cfg fs0 = .ok st' ∧
      (∃ pe ∈ (discoverPages fs0).zip outs, ∃ e2 : String,
        st'.log = ["Error building " ++ getName (stagedJsPath pe.1), e2] ∧
        cfg.renderPage
          { pageModule := pe.2.1, hasScripts := (trimJS gjs != ""),
            styles := styleList gstyle pe.2.2, pretty := true } = .error e2) ∧
      (∀ q : String, underEqB "dist" (normPath q) = true →
        endsWithB ".html" (normPath q) = true → fsGet st'.fs q = none) := by
  obtain ⟨st', hrun, _, hlog, hnoh, _⟩ :=
    buildRun_abort cfg fs0 gjs ljs gstyle lcss outs hwf0 hpubf hpubd hflat hpubsafe
      hg hleg hcp hPne hfail
  exact ⟨st', hrun, hlog, hnoh⟩

/-- C2 exercised on the concrete project with a throwing renderer. -/
theorem C2_render_abort_witness :
    ∃ st' : St, buildRun wCfgRFail wFS = .ok st' ∧
      (∃ pe ∈ (discoverPages wFS).zip [(("PJ" : String), some ("p1" : String))],
        ∃ e2 : String,
        st'.log = ["Error building " ++ getName (stagedJsPath pe.1), e2] ∧
        wCfgRFail.renderPage
          { pageModule := pe.2.1, hasScripts := (trimJS "GJ" != ""),
            styles := styleList "body" pe.2.2, pretty := true } = .error e2) ∧
      (∀ q : String, underEqB "dist" (normPath q) = true →
        endsWithB ".html" (normPath q) = true → fsGet st'.fs q = none) :=
  C2_render_abort wCfgRFail wFS "GJ" "LJ" "body" none [("PJ", some "p1")]
    (by decide) (by decide) (by decide) (by decide) (by decide)
    rfl rfl rfl (by decide)
    ⟨("src/pages/index.tsx", ("PJ", some "p1")), by decide, "render boom", rfl⟩

/-- C3 (amended): a failure of page compilation (or discovery) is caught and
logged and `writePages` resolves without output; but a global compilation
failure — modern or legacy — is *not* caught: both `await rollup(…)` calls
sit before the `try` block, so `writeGlobal` rejects with the bundler's
error. -/
theorem C3_compile_failure_policy :
    (∀ (cfg : Collab) (st : St) (e : String),
      compilePages cfg (srcView st.fs) (discoverPages st.fs) = .error e →
      writePagesM cfg st = .ok { fs := st.fs, log := st.log ++ [e] }) ∧
    (∀ (cfg : Collab) (st : St) (e : String),
      cfg.compileGlobalModern (srcView st.fs) = .error e →
      writeGlobalM cfg st = .error e) ∧
    (∀ (cfg : Collab) (st : St) (e : String) (gout : String × Option String),
      cfg.compileGlobalModern (srcView st.fs) = .ok gout →
      cfg.compileGlobalLegacy (srcView st.fs) = .error e →
      writeGlobalM cfg st = .error e) := by
  refine ⟨?_, ?_, ?_⟩
  · intro cfg st e he
    show ((match compilePages cfg (srcView st.fs) (discoverPages st.fs) with
      | Except.error e2 => Except.ok { fs := st.fs, log := st.log ++ [e2] }
      | Except.ok outs =>
        Except.ok { fs := writePageBundles st.fs ((discoverPages st.fs).zip outs),
                    log := st.log }) : Except String St) =
      Except.ok { fs := st.fs, log := st.log ++ [e] }
    rw [he]
  · intro cfg st e he
    show ((match cfg.compileGlobalModern (srcView st.fs) with
      | Except.error e2 => Except.error e2
      | Except.ok (gjs, gcss) =>
        match cfg.compileGlobalLegacy (srcView st.fs) with
        | Except.error e2 => Except.error e2
        | Except.ok (ljs, lcss) =>
          Except.ok { fs := rollupWriteCss (rollupWrite (rollupWriteCss
                        (rollupWrite st.fs "./.tmp/microsite" "global.js" gjs)
                        "./.tmp/microsite" "global.css" gcss)
                        "./.tmp/microsite" "global.legacy.js" ljs)
                        "./.tmp/microsite" "global.legacy.css" lcss,
                      log := st.log }) : Except String St) = Except.error e
    rw [he]
  · intro cfg st e gout hok he
    obtain ⟨gjs0, gcss0⟩ := gout
    show ((match cfg.compileGlobalModern (srcView st.fs) with
      | Except.error e2 => Except.error e2
      | Except.ok (gjs, gcss) =>
        match cfg.compileGlobalLegacy (srcView st.fs) with
        | Except.error e2 => Except.error e2
        | Except.ok (ljs, lcss) =>
          Except.ok { fs := rollupWriteCss (rollupWrite (rollupWriteCss
                        (rollupWrite st.fs "./.tmp/microsite" "global.js" gjs)
                        "./.tmp/microsite" "global.css" gcss)
                        "./.tmp/microsite" "global.legacy.js" ljs)
                        "./.tmp/microsite" "global.legacy.css" lcss,
                      log := st.log }) : Except String St) = Except.error e
    rw [hok, he]

/-- C3 amended behavior, exercised concretely: the caught page failure and
the uncaught global failure. -/
theorem C3_compile_failure_policy_witness :
    writePagesM cCfgPageFail { fs := wFS, log := [] } =
      .ok { fs := wFS, log := [] ++ ["page boom"] } ∧
    writeGlobalM cCfgGlobFail { fs := wFS, log := [] } = .error "glob boom" :=
  ⟨C3_compile_failure_policy.1 cCfgPageFail { fs := wFS, log := [] } "page boom" rfl,
   C3_compile_failure_policy.2.1 cCfgGlobFail { fs := wFS, log := [] } "glob boom" rfl⟩

/-- C3 counterexample: a global-compilation failure is not caught — the
whole build rejects with the bundler's error instead of resolving. -/
theorem C3_cex : buildRun cCfgGlobFail wFS = .error "glob boom" := by
  rfl

/-- C4 (amended): the modern and legacy global scripts are copied to
`dist/index.js` and `dist/index.legacy.js` exactly when the compiled global
script content is non-blank; each page's shell receives the stylesheet list
built by `styleList`, which keeps a *non-empty* global stylesheet in first
position — an empty-string global stylesheet is dropped by the truthiness
filter. -/
theorem C4_copies_and_styles (cfg : Collab) (fs0 : FS)
    (gjs ljs gstyle : String) (lcss : Option String)
    (outs : List (String × Option String))
    (hwf0 : WF fs0)
    (hpubf : fsGet fs0 "src/public" = none)
    (hpubd : dirExistsB fs0 "src/public" = true)
    (hflat : ∀ kv ∈ fs0.files, underB "src/public" kv.1 = true →
      (compsL kv.1.data).length = 3)
    (hpubsafe : ∀ kv ∈ fs0.files, underB "src/public" kv.1 = true →
      (endsWithB ".html" (pubDest kv.1) = false ∧ pubDest kv.1 ≠ "dist/index.js" ∧
        pubDest kv.1 ≠ "dist/index.legacy.js"))
    (hd0 : ∀ d ∈ fs0.dirs, underB ".tmp" d = false)
    (hg : cfg.compileGlobalModern (srcView fs0) = .ok (gjs, some gstyle))
    (hleg : cfg.compileGlobalLegacy (srcView fs0) = .ok (ljs, lcss))
    (hcp : compilePages cfg (srcView fs0) (discoverPages fs0) = .ok outs)
    (hPne : discoverPages fs0 ≠ [])
    (hrender : ∀ pe ∈ (discoverPages fs0).zip outs, ∃ h, cfg.renderPage
      { pageModule := pe.2.1, hasScripts := (trimJS gjs != ""),
        styles := styleList gstyle pe.2.2, pretty := true } = .ok h) :
    ∃ st' : St, buildRun cfg fs0 = .ok st' ∧
      ((trimJS gjs != "") = true → fsGet st'.fs "dist/index.js" = some gjs ∧
        fsGet st'.fs "dist/index.legacy.js" = some ljs) ∧
      ((trimJS gjs != "") = false → fsGet st'.fs "dist/index.js" = none ∧
        fsGet st'.fs "dist/index.legacy.js" = none) ∧
      (∀ pe ∈ (discoverPages fs0).zip outs, ∃ html, cfg.renderPage
        { pageModule := pe.2.1, hasScripts := (trimJS gjs != ""),
          styles := styleList gstyle pe.2.2, pretty := true } = .ok html) ∧
      (gstyle ≠ "" → ∀ s : Option String, (styleList gstyle s).head? = some gstyle) := by
  obtain ⟨st', hrun, _, _, T1, Tc, Tn, _⟩ :=
    buildRun_ok cfg fs0 gjs ljs gstyle lcss outs hwf0 hpubf hpubd hflat hpubsafe hd0
      hg hleg hcp hPne hrender
  refine ⟨st', hrun, Tc, Tn, ?_, ?_⟩
  · intro pe hpe
    obtain ⟨html, hr, _⟩ := T1 pe hpe
    exact ⟨html, hr⟩
  · intro hg0 s
    cases s with
    | none => simp [styleList, hg0]
    | some c => simp [styleList, hg0]

/-- C4 exercised on the concrete project (non-blank global script). -/
theorem C4_copies_and_styles_witness :
    ∃ st' : St, buildRun wCfg wFS = .ok st' ∧
      ((trimJS "GJ" != "") = true → fsGet st'.fs "dist/index.js" = some "GJ" ∧
        fsGet st'.fs "dist/index.legacy.js" = some "LJ") ∧
      ((trimJS "GJ" != "") = false → fsGet st'.fs "dist/index.js" = none ∧
        fsGet st'.fs "dist/index.legacy.js" = none) ∧
      (∀ pe ∈ (discoverPages wFS).zip [(("PJ" : String), some ("p1" : String))],
        ∃ html, wCfg.renderPage
        { pageModule := pe.2.1, hasScripts := (trimJS "GJ" != ""),
          styles := styleList "body" pe.2.2, pretty := true } = .ok html) ∧
      (("body" : String) ≠ "" → ∀ s : Option String,
        (styleList "body" s).head? = some "body") :=
  C4_copies_and_styles wCfg wFS "GJ" "LJ" "body" none [("PJ", some "p1")]
    (by decide) (by decide) (by decide) (by decide) (by decide) (by decide)
    rfl rfl rfl (by decide) (fun pe _ => ⟨"R:" ++ pe.2.1, rfl⟩)

/-- C4 counterexample: with a blank global script and an *empty-string*
extracted global stylesheet, the copies are correctly skipped, but the
rendered page receives *no* stylesheets at all — the empty global stylesheet
content is not merged into the page, contradicting the claim. -/
theorem C4_cex :
    (buildRun cCfgBlankGlobal wFS).toOption.map
      (fun st => (fsGet st.fs "dist/index.html", fsGet st.fs "dist/index.js")) =
      some (some "<!DOCTYPE html>\nNOSTYLES", none) := by
  rfl

/-- C5 (amended): each page's shell receives the stylesheet list with the
global stylesheet first and the page-specific one second — but filtered by
JavaScript truthiness, so an *empty-string* stylesheet is dropped even when
it is non-null; the request carries the global-script flag and
`pretty := true`, and every produced document is the doctype line plus the
shell's output. -/
theorem C5_shell_inputs (cfg : Collab) (fs0 : FS)
    (gjs ljs gstyle : String) (lcss : Option String)
    (outs : List (String × Option String))
    (hwf0 : WF fs0)
    (hpubf : fsGet fs0 "src/public" = none)
    (hpubd : dirExistsB fs0 "src/public" = true)
    (hflat : ∀ kv ∈ fs0.files, underB "src/public" kv.1 = true →
      (compsL kv.1.data).length = 3)
    (hpubsafe : ∀ kv ∈ fs0.files, underB "src/public" kv.1 = true →
      (endsWithB ".html" (pubDest kv.1) = false ∧ pubDest kv.1 ≠ "dist/index.js" ∧
        pubDest kv.1 ≠ "dist/index.legacy.js"))
    (hd0 : ∀ d ∈ fs0.dirs, underB ".tmp" d = false)
    (hg : cfg.compileGlobalModern (srcView fs0) = .ok (gjs, some gstyle))
    (hleg : cfg.compileGlobalLegacy (srcView fs0) = .ok (ljs, lcss))
    (hcp : compilePages cfg (srcView fs0) (discoverPages fs0) = .ok outs)
    (hPne : discoverPages fs0 ≠ [])
    (hrender : ∀ pe ∈ (discoverPages fs0).zip outs, ∃ h, cfg.renderPage
      { pageModule := pe.2.1, hasScripts := (trimJS gjs != ""),
        styles := styleList gstyle pe.2.2, pretty := true } = .ok h) :
    ∃ st' : St, buildRun cfg fs0 = .ok st' ∧
      (∀ pe ∈ (discoverPages fs0).zip outs, ∃ html, cfg.renderPage
        { pageModule := pe.2.1, hasScripts := (trimJS gjs != ""),
          styles := styleList gstyle pe.2.2, pretty := true } = .ok html ∧
        fsGet st'.fs (specHtmlPath (stagedJsPath pe.1)) =
          some ("<!DOCTYPE html>\n" ++ html)) ∧
      (∀ g : String, styleList g none = if g = "" then [] else [g]) ∧
      (∀ g c : String, styleList g (some c) =
        (if g = "" then [] else [g]) ++ (if c = "" then [] else [c])) := by
  obtain ⟨st', hrun, _, _, T1, _⟩ :=
    buildRun_ok cfg fs0 gjs ljs gstyle lcss outs hwf0 hpubf hpubd hflat hpubsafe hd0
      hg hleg hcp hPne hrender
  refine ⟨st', hrun, T1, ?_, ?_⟩
  · intro g
    by_cases hg0 : g = "" <;> simp [styleList, hg0]
  · intro g c
    by_cases hg0 : g = "" <;> by_cases hc0 : c = "" <;> simp [styleList, hg0, hc0]

/-- C5 exercised on the concrete project. -/
theorem C5_shell_inputs_witness :
    ∃ st' : St, buildRun wCfg wFS = .ok st' ∧
      (∀ pe ∈ (discoverPages wFS).zip [(("PJ" : String), some ("p1" : String))],
        ∃ html, wCfg.renderPage
        { pageModule := pe.2.1, hasScripts := (trimJS "GJ" != ""),
          styles := styleList "body" pe.2.2, pretty := true } = .ok html ∧
        fsGet st'.fs (specHtmlPath (stagedJsPath pe.1)) =
          some ("<!DOCTYPE html>\n" ++ html)) ∧
      (∀ g : String, styleList g none = if g = "" then [] else [g]) ∧
      (∀ g c : String, styleList g (some c) =
        (if g = "" then [] else [g]) ++ (if c = "" then [] else [c])) :=
  C5_shell_inputs wCfg wFS "GJ" "LJ" "body" none [("PJ", some "p1")]
    (by decide) (by decide) (by decide) (by decide) (by decide) (by decide)
    rfl rfl rfl (by decide) (fun pe _ => ⟨"R:" ++ pe.2.1, rfl⟩)

/-- C5 counterexample: a page whose extracted stylesheet is the *empty
string* (non-null) is dropped from the shell's stylesheet list — the page
renders with only the global stylesheet instead of both. -/
theorem C5_cex :
    (buildRun cCfgEmptyPageCss wFS).toOption.map
      (fun st => fsGet st.fs "dist/index.html") =
      some (some "<!DOCTYPE html>\nONE") := by
  rfl

/-- C6 (amended): every file lying *directly* inside `src/public` is copied
verbatim to the corresponding path under the output root; but the directory
is not optional — when `src/public` is absent, the `stat` call in `prepare`
rejects and the whole build rejects with `ENOENT`. -/
theorem C6_public_assets (cfg : Collab) (fs0 : FS)
    (gjs ljs gstyle : String) (lcss : Option String)
    (outs : List (String × Option String))
    (hwf0 : WF fs0)
    (hpubf : fsGet fs0 "src/public" = none)
    (hpubd : dirExistsB fs0 "src/public" = true)
    (hflat : ∀ kv ∈ fs0.files, underB "src/public" kv.1 = true →
      (compsL kv.1.data).length = 3)
    (hpubsafe : ∀ kv ∈ fs0.files, underB "src/public" kv.1 = true →
      (endsWithB ".html" (pubDest kv.1) = false ∧ pubDest kv.1 ≠ "dist/index.js" ∧
        pubDest kv.1 ≠ "dist/index.legacy.js"))
    (hd0 : ∀ d ∈ fs0.dirs, underB ".tmp" d = false)
    (hg : cfg.compileGlobalModern (srcView fs0) = .ok (gjs, some gstyle))
    (hleg : cfg.compileGlobalLegacy (srcView fs0) = .ok (ljs, lcss))
    (hcp : compilePages cfg (srcView fs0) (discoverPages fs0) = .ok outs)
    (hPne : discoverPages fs0 ≠ [])
    (hrender : ∀ pe ∈ (discoverPages fs0).zip outs, ∃ h, cfg.renderPage
      { pageModule := pe.2.1, hasScripts := (trimJS gjs != ""),
        styles := styleList gstyle pe.2.2, pretty := true } = .ok h) :
    (∃ st' : St, buildRun cfg fs0 = .ok st' ∧
      ∀ kv ∈ fs0.files, underB "src/public" kv.1 = true →
        fsGet st'.fs (pubDest kv.1) = some kv.2) ∧
    (∀ (cfg2 : Collab) (fsA : FS), fsGet fsA "src/public" = none →
      dirExistsB fsA "src/public" = false →
      buildRun cfg2 fsA = .error "ENOENT: src/public") := by
  constructor
  · obtain ⟨st', hrun, _, _, _, _, _, _, Tpub, _⟩ :=
      buildRun_ok cfg fs0 gjs ljs gstyle lcss outs hwf0 hpubf hpubd hflat hpubsafe hd0
        hg hleg hcp hPne hrender
    exact ⟨st', hrun, Tpub⟩
  · intro cfg2 fsA hnof hnod
    show ((match prepareM { fs := fsA, log := [] } with
      | Except.error e => Except.error e
      | Except.ok st1 =>
        match writeGlobalM cfg2 st1 with
        | Except.error e => Except.error e
        | Except.ok st2 =>
          match writePagesM cfg2 st2 with
          | Except.error e => Except.error e
          | Except.ok st3 => buildTail cfg2 st3) : Except String St) =
      Except.error "ENOENT: src/public"
    rw [prepare_err { fs := fsA, log := [] } hnof hnod]

/-- C6 exercised on the concrete project (one flat public asset). -/
theorem C6_public_assets_witness :
    (∃ st' : St, buildRun wCfg wFS = .ok st' ∧
      ∀ kv ∈ wFS.files, underB "src/public" kv.1 = true →
        fsGet st'.fs (pubDest kv.1) = some kv.2) ∧
    (∀ (cfg2 : Collab) (fsA : FS), fsGet fsA "src/public" = none →
      dirExistsB fsA "src/public" = false →
      buildRun cfg2 fsA = .error "ENOENT: src/public") :=
  C6_public_assets wCfg wFS "GJ" "LJ" "body" none [("PJ", some "p1")]
    (by decide) (by decide) (by decide) (by decide) (by decide) (by decide)
    rfl rfl rfl (by decide) (fun pe _ => ⟨"R:" ++ pe.2.1, rfl⟩)

/-- C6 counterexample: with no `src/public` directory at all, `prepare`
rejects and the build fails instead of proceeding. -/
theorem C6_cex : buildRun wCfg wFSnoPub = .error "ENOENT: src/public" := by
  rfl

/-- C7 (amended): the tail of `build` performs *unconditional* reads of the
staged global stylesheet and script — when either is missing from the
staging area, the build rejects with `ENOENT` instead of tolerating the
absence through an existence check. -/
theorem C7_unconditional_reads :
    (∀ (cfg : Collab) (st : St),
      fsGet st.fs ".tmp/microsite/global.css" = none →
      buildTail cfg st = .error "ENOENT: .tmp/microsite/global.css") ∧
    (∀ (cfg : Collab) (st : St) (c : String),
      fsGet st.fs ".tmp/microsite/global.css" = some c →
      fsGet st.fs ".tmp/microsite/global.js" = none →
      buildTail cfg st = .error "ENOENT: .tmp/microsite/global.js") := by
  constructor
  · intro cfg st h
    have hr : readFileM st.fs "./.tmp/microsite/global.css" =
        .error "ENOENT: .tmp/microsite/global.css" := by
      unfold readFileM
      rw [fsGet_congr st.fs (show normPath "./.tmp/microsite/global.css" =
        normPath ".tmp/microsite/global.css" from by decide), h]
      rw [show ("ENOENT: " ++ normPath "./.tmp/microsite/global.css" : String) =
        "ENOENT: .tmp/microsite/global.css" from by decide]
    unfold buildTail
    rw [hr]
  · intro cfg st c h1 h2
    have hr1 : readFileM st.fs "./.tmp/microsite/global.css" = .ok c := by
      unfold readFileM
      rw [fsGet_congr st.fs (show normPath "./.tmp/microsite/global.css" =
        normPath ".tmp/microsite/global.css" from by decide), h1]
    have hr2 : readFileM st.fs "./.tmp/microsite/global.js" =
        .error "ENOENT: .tmp/microsite/global.js" := by
      unfold readFileM
      rw [fsGet_congr st.fs (show normPath "./.tmp/microsite/global.js" =
        normPath ".tmp/microsite/global.js" from by decide), h2]
      rw [show ("ENOENT: " ++ normPath "./.tmp/microsite/global.js" : String) =
        "ENOENT: .tmp/microsite/global.js" from by decide]
    unfold buildTail
    rw [hr1, hr2]

/-- C7 amended behavior, exercised concretely: the tail rejects on a missing
staged global stylesheet. -/
theorem C7_unconditional_reads_witness :
    buildTail wCfg { fs := wFS, log := [] } =
      .error "ENOENT: .tmp/microsite/global.css" :=
  C7_unconditional_reads.1 wCfg { fs := wFS, log := [] } rfl

/-- C7 counterexample: when the global compilation extracts no stylesheet,
`global.css` is absent from the staging area and the build rejects — the
downstream stage does not tolerate the missing file. -/
theorem C7_cex :
    buildRun cCfgNoGlobalCss wFS = .error "ENOENT: .tmp/microsite/global.css" := by
  rfl

/-- C8: after a successful run the staging directory `.tmp/microsite` is
gone; `.tmp` itself is deleted exactly when nothing else was living inside
it — removed when the initial tree had no files under `.tmp`, kept when some
file under `.tmp` lay outside the staging area. -/
theorem C8_staging_removed (cfg : Collab) (fs0 : FS)
    (gjs ljs gstyle : String) (lcss : Option String)
    (outs : List (String × Option String))
    (hwf0 : WF fs0)
    (hpubf : fsGet fs0 "src/public" = none)
    (hpubd : dirExistsB fs0 "src/public" = true)
    (hflat : ∀ kv ∈ fs0.files, underB "src/public" kv.1 = true →
      (compsL kv.1.data).length = 3)
    (hpubsafe : ∀ kv ∈ fs0.files, underB "src/public" kv.1 = true →
      (endsWithB ".html" (pubDest kv.1) = false ∧ pubDest kv.1 ≠ "dist/index.js" ∧
        pubDest kv.1 ≠ "dist/index.legacy.js"))
    (hd0 : ∀ d ∈ fs0.dirs, underB ".tmp" d = false)
    (hg : cfg.compileGlobalModern (srcView fs0) = .ok (gjs, some gstyle))
    (hleg : cfg.compileGlobalLegacy (srcView fs0) = .ok (ljs, lcss))
    (hcp : compilePages cfg (srcView fs0) (discoverPages fs0) = .ok outs)
    (hPne : discoverPages fs0 ≠ [])
    (hrender : ∀ pe ∈ (discoverPages fs0).zip outs, ∃ h, cfg.renderPage
      { pageModule := pe.2.1, hasScripts := (trimJS gjs != ""),
        styles := styleList gstyle pe.2.2, pretty := true } = .ok h) :
    ∃ st' : St, buildRun cfg fs0 = .ok st' ∧
      dirExistsB st'.fs ".tmp/microsite" = false ∧
      ((∀ kv ∈ fs0.files, underB ".tmp" kv.1 = false) →
        dirExistsB st'.fs ".tmp" = false) ∧
      ((∃ kv ∈ fs0.files, underB ".tmp" kv.1 = true ∧
          underEqB ".tmp/microsite" kv.1 = false) →
        dirExistsB st'.fs ".tmp" = true) := by
  obtain ⟨st', hrun, _, _, _, _, _, htm, _, tF, tT⟩ :=
    buildRun_ok cfg fs0 gjs ljs gstyle lcss outs hwf0 hpubf hpubd hflat hpubsafe hd0
      hg hleg hcp hPne hrender
  exact ⟨st', hrun, htm, tF, tT⟩

/-- C8 exercised on the concrete project. -/
theorem C8_staging_removed_witness :
    ∃ st' : St, buildRun wCfg wFS = .ok st' ∧
      dirExistsB st'.fs ".tmp/microsite" = false ∧
      ((∀ kv ∈ wFS.files, underB ".tmp" kv.1 = false) →
        dirExistsB st'.fs ".tmp" = false) ∧
      ((∃ kv ∈ wFS.files, underB ".tmp" kv.1 = true ∧
          underEqB ".tmp/microsite" kv.1 = false) →
        dirExistsB st'.fs ".tmp" = true) :=
  C8_staging_removed wCfg wFS "GJ" "LJ" "body" none [("PJ", some "p1")]
    (by decide) (by decide) (by decide) (by decide) (by decide) (by decide)
    rfl rfl rfl (by decide) (fun pe _ => ⟨"R:" ++ pe.2.1, rfl⟩)

set_option maxHeartbeats 1000000 in
/-- C9: determinism — with the same deterministic collaborators, two runs
over source trees presenting the identical compiler view produce
byte-identical HTML content for every discovered page. -/
theorem C9_deterministic (cfg : Collab) (fsA fsB : FS)
    (gjs ljs gstyle : String) (lcss : Option String)
    (outs : List (String × Option String))
    (hsv : srcView fsA = srcView fsB)
    (hwfA : WF fsA) (hwfB : WF fsB)
    (hpubfA : fsGet fsA "src/public" = none)
    (hpubfB : fsGet fsB "src/public" = none)
    (hpubdA : dirExistsB fsA "src/public" = true)
    (hpubdB : dirExistsB fsB "src/public" = true)
    (hflatA : ∀ kv ∈ fsA.files, underB "src/public" kv.1 = true →
      (compsL kv.1.data).length = 3)
    (hflatB : ∀ kv ∈ fsB.files, underB "src/public" kv.1 = true →
      (compsL kv.1.data).length = 3)
    (hpubsafeA : ∀ kv ∈ fsA.files, underB "src/public" kv.1 = true →
      (endsWithB ".html" (pubDest kv.1) = false ∧ pubDest kv.1 ≠ "dist/index.js" ∧
        pubDest kv.1 ≠ "dist/index.legacy.js"))
    (hpubsafeB : ∀ kv ∈ fsB.files, underB "src/public" kv.1 = true →
      (endsWithB ".html" (pubDest kv.1) = false ∧ pubDest kv.1 ≠ "dist/index.js" ∧
        pubDest kv.1 ≠ "dist/index.legacy.js"))
    (hd0A : ∀ d ∈ fsA.dirs, underB ".tmp" d = false)
    (hd0B : ∀ d ∈ fsB.dirs, underB ".tmp" d = false)
    (hg : cfg.compileGlobalModern (srcView fsA) = .ok (gjs, some gstyle))
    (hleg : cfg.compileGlobalLegacy (srcView fsA) = .ok (ljs, lcss))
    (hcp : compilePages cfg (srcView fsA) (discoverPages fsA) = .ok outs)
    (hPne : discoverPages fsA ≠ [])
    (hrender : ∀ pe ∈ (discoverPages fsA).zip outs, ∃ h, cfg.renderPage
      { pageModule := pe.2.1, hasScripts := (trimJS gjs != ""),
        styles := styleList gstyle pe.2.2, pretty := true } = .ok h) :
    ∃ stA stB : St, buildRun cfg fsA = .ok stA ∧ buildRun cfg fsB = .ok stB ∧
      ∀ p ∈ discoverPages fsA,
        fsGet stA.fs (specHtmlPath (stagedJsPath p)) =
          fsGet stB.fs (specHtmlPath (stagedJsPath p)) ∧
        (fsGet stA.fs (specHtmlPath (stagedJsPath p))).isSome = true := by
  have hdp : discoverPages fsB = discoverPages fsA := by
    rw [discoverPages_eq_src, discoverPages_eq_src, hsv]
  obtain ⟨stA, hrunA, _, _, T1A, _⟩ :=
    buildRun_ok cfg fsA gjs ljs gstyle lcss outs hwfA hpubfA hpubdA hflatA hpubsafeA
      hd0A hg hleg hcp hPne hrender
  obtain ⟨stB, hrunB, _, _, T1B, _⟩ :=
    buildRun_ok cfg fsB gjs ljs gstyle lcss outs hwfB hpubfB hpubdB hflatB hpubsafeB
      hd0B (by rw [← hsv]; exact hg) (by rw [← hsv]; exact hleg)
      (by rw [← hsv, hdp]; exact hcp) (by rw [hdp]; exact hPne)
      (by rw [hdp]; exact hrender)
  rw [hdp] at T1B
  refine ⟨stA, stB, hrunA, hrunB, ?_⟩
  intro p hp
  have hlen : outs.length = (discoverPages fsA).length := compilePages_length hcp
  have hzip_fst : ((discoverPages fsA).zip outs).map (·.1) = discoverPages fsA :=
    List.map_fst_zip _ _ (le_of_eq hlen.symm)
  have hp2 : p ∈ ((discoverPages fsA).zip outs).map (·.1) := by
    rw [hzip_fst]; exact hp
  obtain ⟨pe, hpe, hpeq⟩ := List.mem_map.mp hp2
  obtain ⟨h1, hr1, hget1⟩ := T1A pe hpe
  obtain ⟨h2, hr2, hget2⟩ := T1B pe hpe
  rw [hr1] at hr2
  have hh : h1 = h2 := Except.ok.inj hr2
  rw [← hpeq]
  constructor
  · rw [hget1, hget2, hh]
  · rw [hget1]
    rfl

/-- C9 exercised: the same concrete project run twice. -/
theorem C9_deterministic_witness :
    ∃ stA stB : St, buildRun wCfg wFS = .ok stA ∧ buildRun wCfg wFS = .ok stB ∧
      ∀ p ∈ discoverPages wFS,
        fsGet stA.fs (specHtmlPath (stagedJsPath p)) =
          fsGet stB.fs (specHtmlPath (stagedJsPath p)) ∧
        (fsGet stA.fs (specHtmlPath (stagedJsPath p))).isSome = true :=
  C9_deterministic wCfg wFS wFS "GJ" "LJ" "body" none [("PJ", some "p1")]
    rfl (by decide) (by decide) (by decide) (by decide) (by decide) (by decide)
    (by decide) (by decide) (by decide) (by decide) (by decide) (by decide)
    rfl rfl rfl (by decide) (fun pe _ => ⟨"R:" ++ pe.2.1, rfl⟩)

/-- C10: when a page's render throws, `build` returns before cleanup ever
runs — the staging directory survives with the staged page scripts in it,
the public copies and the conditional global copies stay in the output, and
only the HTML writes (none exist under `dist`) and the staging deletion are
skipped. -/
theorem C10_abort_frame (cfg : Collab) (fs0 : FS)
    (gjs ljs gstyle : String) (lcss : Option String)
    (outs : List (String × Option String))
    (hwf0 : WF fs0)
    (hpubf : fsGet fs0 "src/public" = none)
    (hpubd : dirExistsB fs0 "src/public" = true)
    (hflat : ∀ kv ∈ fs0.files, underB "src/public" kv.1 = true →
      (compsL kv.1.data).length = 3)
    (hpubsafe : ∀ kv ∈ fs0.files, underB "src/public" kv.1 = true →
      (endsWithB ".html" (pubDest kv.1) = false ∧ pubDest kv.1 ≠ "dist/index.js" ∧
        pubDest kv.1 ≠ "dist/index.legacy.js"))
    (hg : cfg.compileGlobalModern (srcView fs0) = .ok (gjs, some gstyle))
    (hleg : cfg.compileGlobalLegacy (srcView fs0) = .ok (ljs, lcss))
    (hcp : compilePages cfg (srcView fs0) (discoverPages fs0) = .ok outs)
    (hPne : discoverPages fs0 ≠ [])
    (hfail : ∃ pe ∈ (discoverPages fs0).zip outs, ∃ e, cfg.renderPage
      { pageModule := pe.2.1, hasScripts := (trimJS gjs != ""),
        styles := styleList gstyle pe.2.2, pretty := true } = .error e) :
    ∃ st' : St, buildRun cfg fs0 = .ok st' ∧
      dirExistsB st'.fs ".tmp/microsite" = true ∧
      (∀ pe ∈ (discoverPages fs0).zip outs,
        fsGet st'.fs (stagedJsPath pe.1) = some pe.2.1) ∧
      (∀ kv ∈ fs0.files, underB "src/public" kv.1 = true →
        fsGet st'.fs (pubDest kv.1) = some kv.2) ∧
      ((trimJS gjs != "") = true → fsGet st'.fs "dist/index.js" = some gjs ∧
        fsGet st'.fs "dist/index.legacy.js" = some ljs) ∧
      (∀ q : String, underEqB "dist" (normPath q) = true →
        endsWithB ".html" (normPath q) = true → fsGet st'.fs q = none) := by
  obtain ⟨st', hrun, _, _, hnoh, hstage, htm, hpub, hcop⟩ :=
    buildRun_abort cfg fs0 gjs ljs gstyle lcss outs hwf0 hpubf hpubd hflat hpubsafe
      hg hleg hcp hPne hfail
  exact ⟨st', hrun, htm, hstage, hpub, hcop, hnoh⟩

/-- C10 exercised on the concrete project with a throwing renderer. -/
theorem C10_abort_frame_witness :
    ∃ st' : St, buildRun wCfgRFail wFS = .ok st' ∧
      dirExistsB st'.fs ".tmp/microsite" = true ∧
      (∀ pe ∈ (discoverPages wFS).zip [(("PJ" : String), some ("p1" : String))],
        fsGet st'.fs (stagedJsPath pe.1) = some pe.2.1) ∧
      (∀ kv ∈ wFS.files, underB "src/public" kv.1 = true →
        fsGet st'.fs (pubDest kv.1) = some kv.2) ∧
      ((trimJS "GJ" != "") = true → fsGet st'.fs "dist/index.js" = some "GJ" ∧
        fsGet st'.fs "dist/index.legacy.js" = some "LJ") ∧
      (∀ q : String, underEqB "dist" (normPath q) = true →
        endsWithB ".html" (normPath q) = true → fsGet st'.fs q = none) :=
  C10_abort_frame wCfgRFail wFS "GJ" "LJ" "body" none [("PJ", some "p1")]
    (by decide) (by decide) (by decide) (by decide) (by decide)
    rfl rfl rfl (by decide)
    ⟨("src/pages/index.tsx", ("PJ", some "p1")), by decide, "render boom", rfl⟩

end Microsite
